import Mathlib

set_option maxRecDepth 20000

/-!
Verification of the tidybib BibTeX parser and canonical formatter.

The definitions below are a shallow embedding of `src/tidybib/biblib.py`
(scanner, parser, canonical formatter) and of the entry sort in
`src/tidybib/__init__.py`.  Python strings are modelled as `List Char`,
Python dicts as insertion-ordered association lists, the stream of
warnings as an explicit list, and fatal parse errors as `Except.error`.
-/

namespace Tidybib

/-- Character lists standing for Python strings. -/
abbrev LChar := List Char

/-- Turn a Lean string literal into its character list. -/
def lc (s : String) : LChar := s.data

/-- BibTeX white space: space, tab and newline (SPACE_RE in biblib.py). -/
def isBibSpace (c : Char) : Bool := c == ' ' || c == '\t' || c == '\n'

/-- Embedding of `_skip_space`: drop the maximal run of BibTeX white space. -/
def skipSpace (l : LChar) : LChar := l.dropWhile isBibSpace

/-- Characters allowed in a BibTeX identifier (the per-character class of
ID_RE): printable ASCII except space and the special characters. -/
def isIdChar (c : Char) : Bool :=
  0x20 ≤ c.toNat && c.toNat ≤ 0x7f &&
    !([' ', '\t', '"', '#', '%', '\'', '(', ')', ',', '=', '{', '}'].contains c)

/-- ASCII lower-casing of one character (Python `str.lower` on the ASCII
identifiers this parser produces). -/
def asciiLower (c : Char) : Char :=
  if 'A' ≤ c && c ≤ 'Z' then Char.ofNat (c.toNat + 32) else c

/-- ASCII upper-casing of one character. -/
def asciiUpper (c : Char) : Char :=
  if 'a' ≤ c && c ≤ 'z' then Char.ofNat (c.toNat - 32) else c

/-- Lower-case a whole identifier. -/
def asciiLowerL (l : LChar) : LChar := l.map asciiLower

/-- Upper-case a whole identifier. -/
def asciiUpperL (l : LChar) : LChar := l.map asciiUpper

/-- Embedding of `_try_tok` on a one-character token with the default
trailing-white-space skip. Returns the remaining input on success. -/
def tryTok1 (t : Char) (l : LChar) : Option LChar :=
  match l with
  | c :: r => if c == t then some (skipSpace r) else none
  | [] => none

/-- Embedding of `_try_tok` on a one-character token with
`skip_space=False`. -/
def tryTok1NS (t : Char) (l : LChar) : Option LChar :=
  match l with
  | c :: r => if c == t then some r else none
  | [] => none

/-- Embedding of `_try_tok ID_RE`: scan one identifier (first character not
a digit) and skip trailing white space.  Returns the matched identifier in
its original case together with the remaining input. -/
def tryId (l : LChar) : Option (LChar × LChar) :=
  match l with
  | c :: r =>
    if isIdChar c && !c.isDigit then
      some (c :: r.takeWhile isIdChar, skipSpace (r.dropWhile isIdChar))
    else none
  | [] => none

/-- Embedding of `_try_tok "[0-9]+"`: scan a run of decimal digits and skip
trailing white space. -/
def tryDigits (l : LChar) : Option (LChar × LChar) :=
  match l.takeWhile Char.isDigit with
  | [] => none
  | d => some (d, skipSpace (l.dropWhile Char.isDigit))

/-- Embedding of `_tok "[{(]"`: scan an opening delimiter. -/
def tryDelim (l : LChar) : Option (Char × LChar) :=
  match l with
  | c :: r => if c == '{' || c == '(' then some (c, skipSpace r) else none
  | [] => none

/-- Embedding of `_scan_balanced_text`: scan text up to the terminator
character honoured only at brace depth zero; a close brace at depth zero,
or end of input before the terminator, is a fatal error.  Trailing white
space after the terminator is skipped, as in the source. -/
def scanBalancedText (term : Char) : Nat → LChar → Except String (LChar × LChar)
  | _, [] => .error "unterminated string"
  | lvl, c :: rest =>
    if lvl == 0 && c == term then .ok ([], skipSpace rest)
    else if c == '{' then
      (scanBalancedText term (lvl + 1) rest).map (fun p => (c :: p.1, p.2))
    else if c == '}' then
      if lvl == 0 then .error "unexpected \x7d"
      else (scanBalancedText term (lvl - 1) rest).map (fun p => (c :: p.1, p.2))
    else (scanBalancedText term lvl rest).map (fun p => (c :: p.1, p.2))

/-- A parsed field value: the text of the value plus the optional macro tag
(the `BibtexMacro` string subclass of the source carries the referenced
macro's name in its `macro` attribute). -/
structure BibValue where
  tag : Option LChar
  text : LChar
deriving DecidableEq, Repr

/-- Warnings emitted while parsing, by kind and subject. -/
inductive Warn where
  | redefString (name : LChar)
  | repeatedField (field key : LChar)
  | unknownRef (name : LChar)
  | repeatedEntry (key : LChar)
deriving DecidableEq, Repr

/-- Mutable parser state: the macro table, the flag suppressing
undefined-macro warnings, and the stream of warnings emitted so far. -/
structure PSt where
  macros : List (LChar × BibValue)
  warnMacros : Bool
  warns : List Warn
deriving DecidableEq, Repr

/-- Append one warning to the parser state. -/
def PSt.warn (st : PSt) (w : Warn) : PSt := { st with warns := st.warns ++ [w] }

/-- Python `k in d` on an insertion-ordered dict. -/
def pyMem (d : List (LChar × α)) (k : LChar) : Bool := d.any (fun p => decide (p.1 = k))

/-- Python `d[k]` lookup on an insertion-ordered dict. -/
def pyGet? (d : List (LChar × α)) (k : LChar) : Option α :=
  (d.find? (fun p => decide (p.1 = k))).map (fun p => p.2)

/-- Python `d[k] = v`: overwrite in place if the key is present (keeping its
position), otherwise append. -/
def pyInsert (d : List (LChar × α)) (k : LChar) (v : α) : List (LChar × α) :=
  if pyMem d k then d.map (fun p => if p.1 = k then (k, v) else p) else d ++ [(k, v)]

/-- Embedding of `_scan_field_piece`: a run of digits, a brace-balanced
span, a quote-delimited balanced span, or an identifier resolved through
the macro table (case-insensitively); an unresolved identifier yields the
empty string and a warning when `warn_macros` is set. -/
def scanFieldPiece (l : LChar) (st : PSt) : Except String (BibValue × LChar × PSt) :=
  match tryDigits l with
  | some (d, r) => .ok (⟨none, d⟩, r, st)
  | none =>
  match tryTok1NS '{' l with
  | some r =>
    match scanBalancedText '}' 0 r with
    | .error e => .error e
    | .ok (t, r2) => .ok (⟨none, t⟩, r2, st)
  | none =>
  match tryTok1NS '"' l with
  | some r =>
    match scanBalancedText '"' 0 r with
    | .error e => .error e
    | .ok (t, r2) => .ok (⟨none, t⟩, r2, st)
  | none =>
  match tryId l with
  | some (name, r) =>
    match pyGet? st.macros (asciiLowerL name) with
    | some v => .ok (⟨some name, v.text⟩, r, st)
    | none =>
      if st.warnMacros then .ok (⟨some name, []⟩, r, st.warn (.unknownRef name))
      else .ok (⟨some name, []⟩, r, st)
  | none => .error "expected string, number, or macro name"

/-- One pass of `re.sub("[ \t\n]+", " ", value)`: collapse every run of
BibTeX white space to a single space.  The boolean records whether the
previous character was part of a white-space run. -/
def compressGo : Bool → LChar → LChar
  | _, [] => []
  | inWs, c :: r =>
    if isBibSpace c then
      if inWs then compressGo true r else ' ' :: compressGo true r
    else c :: compressGo false r

/-- Embedding of `re.sub("[ \t\n]+", " ", value)`. -/
def compress (l : LChar) : LChar := compressGo false l

/-- Embedding of Python `value.strip(" ")`: strip leading and trailing
space characters (only the space character itself). -/
def stripSpaces (l : LChar) : LChar :=
  ((l.dropWhile (fun c => c == ' ')).reverse.dropWhile (fun c => c == ' ')).reverse

/-- The concatenation loop of `_scan_field_value`: as long as a `#` token
follows, scan another piece and append it; Python string concatenation on
a `BibtexMacro` produces a plain `str`, so any concatenation drops the
macro tag. -/
def scanMorePieces : Nat → BibValue → LChar → PSt → Except String (BibValue × LChar × PSt)
  | 0, _, _, _ => .error "fuel"
  | fuel + 1, acc, l, st =>
    match tryTok1 '#' l with
    | none => .ok (acc, l, st)
    | some r =>
      match scanFieldPiece r st with
      | .error e => .error e
      | .ok (p, r2, st2) => scanMorePieces fuel ⟨none, acc.text ++ p.text⟩ r2 st2

/-- Embedding of `_scan_field_value`: scan one or more pieces joined by
`#`, remember whether the assembled value still carries a macro tag,
compress white-space runs, strip leading/trailing spaces, and re-attach
the tag. -/
def scanFieldValue (fuel : Nat) (l : LChar) (st : PSt) :
    Except String (BibValue × LChar × PSt) :=
  match scanFieldPiece l st with
  | .error e => .error e
  | .ok (p, r, st1) =>
    match scanMorePieces fuel p r st1 with
    | .error e => .error e
    | .ok (v, r2, st2) => .ok (⟨v.tag, stripSpaces (compress v.text)⟩, r2, st2)

/-- One top-level content item of a BibTeX file (the closed union of
`BibtexComment`, `BibtexPreamble`, `BibtexString` and `BibtexEntry`). -/
inductive BibContent where
  | comment
  | preamble (value : BibValue)
  | strdef (name : LChar) (value : BibValue)
  | entry (entryType key : LChar) (fields : List (LChar × BibValue))
deriving DecidableEq, Repr

/-- Key characters for a `(`-delimited entry: anything but comma, space,
tab or newline. -/
def isParenKeyChar (c : Char) : Bool :=
  !(c == ',' || c == ' ' || c == '\t' || c == '\n')

/-- Key characters for a `{`-delimited entry: additionally a close brace
ends the key. -/
def isBraceKeyChar (c : Char) : Bool :=
  !(c == ',' || c == ' ' || c == '\t' || c == '}' || c == '\n')

/-- The field loop of `_scan_command_or_entry`: repeatedly scan
`field = value` pairs separated by commas until the closing delimiter,
keeping the first occurrence of a repeated field name and warning about
later ones. -/
def scanFields : Nat → Char → LChar → List (LChar × BibValue) → LChar → PSt →
    Except String (List (LChar × BibValue) × LChar × PSt)
  | 0, _, _, _, _, _ => .error "fuel"
  | fuel + 1, rp, key, fds, l, st =>
    match tryTok1NS rp l with
    | some r => .ok (fds, r, st)
    | none =>
    match tryTok1 ',' l with
    | none => .error "expected close delimiter or ,"
    | some r =>
    match tryTok1NS rp r with
    | some r2 => .ok (fds, r2, st)
    | none =>
      if r.isEmpty then .error "input ended prematurely"
      else
      match tryId r with
      | none => .error "expected identifier"
      | some (fname, r2) =>
        let field := asciiLowerL fname
        match tryTok1 '=' r2 with
        | none => .error "expected = after field name"
        | some r3 =>
        match scanFieldValue (fuel + 1) r3 st with
        | .error e => .error e
        | .ok (value, r4, st2) =>
          if pyMem fds field then
            scanFields fuel rp key fds r4 (st2.warn (.repeatedField field key))
          else
            scanFields fuel rp key (fds ++ [(field, value)]) r4 st2

/-- The macro-table update of the `string` branch of
`_scan_command_or_entry`: warn when the (lower-cased) name is already
present, then store the scanned value — tag and all — under the name. -/
def storeString (st : PSt) (name : LChar) (value : BibValue) : PSt :=
  let st' := if pyMem st.macros name then st.warn (.redefString name) else st
  { st' with macros := pyInsert st'.macros name value }

/-- Embedding of `_scan_command_or_entry`: skip inter-entry noise up to the
next `@`; `none` signals end of input.  Dispatches on the command or entry
type exactly as the source does. -/
def scanCommandOrEntry (fuel : Nat) (l : LChar) (st : PSt) :
    Except String (Option (BibContent × LChar × PSt)) :=
  let l0 := skipSpace (l.dropWhile (fun c => !(c == '@')))
  match tryTok1 '@' l0 with
  | none => .ok none
  | some l1 =>
  match tryId l1 with
  | none => .error "expected identifier"
  | some (typRaw, l2) =>
    let typ := asciiLowerL typRaw
    if typ = lc "comment" then .ok (some (.comment, l2, st))
    else
    match tryDelim l2 with
    | none => .error "expected \x7b or ( after entry type"
    | some (left, l3) =>
      let right : Char := if left == '(' then ')' else '}'
      if typ = lc "preamble" then
        match scanFieldValue fuel l3 st with
        | .error e => .error e
        | .ok (value, l4, st2) =>
          match tryTok1 right l4 with
          | none => .error "expected close delimiter"
          | some l5 => .ok (some (.preamble value, l5, st2))
      else if typ = lc "string" then
        match tryId l3 with
        | none => .error "expected identifier"
        | some (nameRaw, l4) =>
          let name := asciiLowerL nameRaw
          match tryTok1 '=' l4 with
          | none => .error "expected = after string name"
          | some l5 =>
          match scanFieldValue fuel l5 st with
          | .error e => .error e
          | .ok (value, l6, st2) =>
            match tryTok1 right l6 with
            | none => .error "expected close delimiter"
            | some l7 => .ok (some (.strdef name value, l7, storeString st2 name value))
      else
        let kc := if left == '(' then isParenKeyChar else isBraceKeyChar
        let key := l3.takeWhile kc
        let l4 := skipSpace (l3.dropWhile kc)
        match scanFields fuel right key [] l4 st with
        | .error e => .error e
        | .ok (fds, l5, st2) => .ok (some (.entry typ key fds, l5, st2))

/-- One entry of the document's entry dict: the entry type together with
the insertion-ordered field dict (the `BibtexFields` class). -/
structure BibtexFields where
  entryType : LChar
  fields : List (LChar × BibValue)
deriving DecidableEq, Repr

/-- The parsed document: preamble list, string definitions and entries
(the `BibtexData` named tuple). -/
structure BibtexData where
  preamble : List BibValue
  strings : List (LChar × BibValue)
  entries : List (LChar × BibtexFields)
deriving DecidableEq, Repr

/-- The empty document. -/
def emptyData : BibtexData := ⟨[], [], []⟩

/-- The per-item folding step of `loads`: preambles are appended, string
definitions inserted, and entries inserted with a warning when the key is
already present (the later entry's type and fields overwrite). -/
def loadsStep (acc : BibtexData) (item : BibContent) (st : PSt) : BibtexData × PSt :=
  match item with
  | .comment => (acc, st)
  | .preamble v => ({ acc with preamble := acc.preamble ++ [v] }, st)
  | .strdef n v => ({ acc with strings := pyInsert acc.strings n v }, st)
  | .entry t k f =>
    let st' := if pyMem acc.entries k then st.warn (.repeatedEntry k) else st
    ({ acc with entries := pyInsert acc.entries k ⟨t, f⟩ }, st')

/-- The iteration of `loads` over `iterparse`: scan content items until the
scanner signals end of input, folding each into the document. -/
def loadsLoop : Nat → BibtexData → LChar → PSt → Except String (BibtexData × PSt)
  | 0, _, _, _ => .error "fuel"
  | fuel + 1, acc, l, st =>
    match scanCommandOrEntry (fuel + 1) l st with
    | .error e => .error e
    | .ok none => .ok (acc, st)
    | .ok (some (item, rest, st')) =>
      let (acc', st'') := loadsStep acc item st'
      loadsLoop fuel acc' rest st''

/-- One step (right to left) of the trailing-white-space deletion: the
boolean is true when every character consumed so far, up to the next
newline or the end of the input, was deleted or is a newline, i.e. when a
space or tab at this position belongs to a run matched by `[ \t]+$`. -/
def stripTrailStep (c : Char) (s : Bool × LChar) : Bool × LChar :=
  if (c == ' ' || c == '\t') && s.1 then s
  else (c == '\n', c :: s.2)

/-- Embedding of `re.sub("[ \t]+$", "", data, flags=re.MULTILINE)` in
`BibtexParser.__init__`: delete every run of spaces and tabs immediately
preceding a newline or the end of the input. -/
def stripTrailing (l : LChar) : LChar := (l.foldr stripTrailStep (true, [])).2

/-- Embedding of `loads`: preprocess the input, then run the parse loop
from a fresh state seeded with the caller's macros; returns the document
together with the warnings emitted. -/
def loads (l : LChar) (macros : List (LChar × LChar)) (warnMacros : Bool) :
    Except String (BibtexData × List Warn) :=
  let data := stripTrailing l
  let st0 : PSt := ⟨macros.map (fun p => (p.1, ⟨none, p.2⟩)), warnMacros, []⟩
  (loadsLoop (data.length + 1) emptyData data st0).map (fun p => (p.1, p.2.warns))

/-- Default order of fields in the canonical formatter (ORDER). -/
def ORDER : List LChar :=
  [lc "author", lc "title", lc "journal", lc "keywords", lc "year", lc "month",
   lc "volume", lc "number", lc "eid", lc "pages", lc "doi", lc "archiveprefix",
   lc "eprint", lc "primaryclass", lc "adsurl", lc "adsnote"]

/-- Pretty field names (PRETTY). -/
def PRETTY (f : LChar) : LChar :=
  if f = lc "archiveprefix" then lc "archivePrefix"
  else if f = lc "primaryclass" then lc "primaryClass"
  else f

/-- Embedding of `_order_fields`: position in ORDER (or its length when the
field is unlisted) paired with the field name. -/
def orderFields (f : LChar) : Nat × LChar :=
  ((ORDER.findIdx? (fun x => x == f)).getD ORDER.length, f)

/-- Lexicographic comparison of character lists by code point, as Python
compares strings. -/
def lexLt : LChar → LChar → Bool
  | _, [] => false
  | [], _ :: _ => true
  | a :: as, b :: bs =>
    if a.toNat < b.toNat then true
    else if b.toNat < a.toNat then false
    else lexLt as bs

/-- Comparison of `_order_fields` keys, as Python compares the pairs. -/
def orderKeyLt (a b : Nat × LChar) : Bool :=
  a.1 < b.1 || (a.1 == b.1 && lexLt a.2 b.2)

/-- Stable insertion into an ascending list: `x` is placed before the first
element not strictly below it, so earlier elements win ties. -/
def insertAsc (lt : α → α → Bool) (x : α) : List α → List α
  | [] => [x]
  | y :: ys => if lt y x then y :: insertAsc lt x ys else x :: y :: ys

/-- Stable ascending sort, matching Python `sorted`. -/
def sortAsc (lt : α → α → Bool) : List α → List α
  | [] => []
  | x :: xs => insertAsc lt x (sortAsc lt xs)

/-- Rendering of an untagged field value in `BibtexFields.__format__`:
title values are quote-wrapped (with braces added unless the value is
already brace-wrapped), an all-digit year is emitted bare, and every other
value is brace-wrapped.  The source's year test is the Unicode-aware
`value.isdigit()`; it is modelled here by the ASCII digit test, which
coincides with it exactly on ASCII texts (among ASCII characters only
`0`-`9` are digits, and both reject the empty string) but not on
Unicode digits such as `²`, which the program would emit bare.  The
idempotence theorem therefore restricts year texts to ASCII (`WFDoc`),
where the model is exact. -/
def renderPlain (field : LChar) (v : LChar) : LChar :=
  if field = lc "title" then
    if v.head? == some '{' && v.getLast? == some '}' then '"' :: (v ++ ['"'])
    else '"' :: '{' :: (v ++ ['}', '"'])
  else if field = lc "year" && !v.isEmpty && v.all Char.isDigit then v
  else '{' :: (v ++ ['}'])

/-- Rendering of a field value: a value carrying a non-empty macro tag is
emitted as the bare macro name (the walrus test in the source is on the
truthiness of the tag), anything else as a literal. -/
def renderValue (field : LChar) (v : BibValue) : LChar :=
  match v.tag with
  | some m => if m.isEmpty then renderPlain field v.text else m
  | none => renderPlain field v.text

/-- Right-align a field name in a 13-character column. -/
def pad13 (f : LChar) : LChar := List.replicate (13 - f.length) ' ' ++ f

/-- One `,\n<name> = <value>` field line of a formatted entry. -/
def fieldLine (field : LChar) (v : BibValue) : LChar :=
  let fp := PRETTY field
  lc ",\n" ++ pad13 fp ++ lc " = " ++ renderValue fp v

/-- Embedding of `BibtexFields.__format__`: header, fields sorted by the
fixed priority order, closing brace. -/
def formatEntry (e : BibtexFields) (key : LChar) : LChar :=
  let header := '@' :: (asciiUpperL e.entryType ++ '{' :: key)
  if e.fields.isEmpty then header ++ ['}']
  else
    let names := sortAsc (fun a b => orderKeyLt (orderFields a) (orderFields b))
      (e.fields.map (fun p => p.1))
    header ++ (names.foldl (fun out f =>
      out ++ fieldLine f ((pyGet? e.fields f).getD ⟨none, []⟩)) []) ++ lc "\n\x7d"

/-- Embedding of `iterdump`: the list of output lines. -/
def iterdump (b : BibtexData) : List LChar :=
  (if b.preamble.isEmpty then [] else
    (b.preamble.map (fun p => lc "@PREAMBLE\x7b\"" ++ p.text ++ lc "\"\x7d")) ++ [[]])
  ++ (if b.strings.isEmpty then [] else
    (b.strings.map (fun p => lc "@STRING\x7b" ++ p.1 ++ lc " = \"" ++ p.2.text ++ lc "\"\x7d")) ++ [[]])
  ++ ((b.entries.map (fun p => [formatEntry p.2 p.1, []])).flatten)

/-- Embedding of `dumps`: the lines joined by newlines. -/
def dumps (b : BibtexData) : LChar := List.intercalate ['\n'] (iterdump b)

/-- Embedding of the REVERSE character map of `tidybib/__init__.py`: each
alphanumeric character is mapped to its reverse-order counterpart within
its class; every other character is unchanged. -/
def revChar (c : Char) : Char :=
  if 'a' ≤ c && c ≤ 'z' then Char.ofNat ('a'.toNat + 'z'.toNat - c.toNat)
  else if 'A' ≤ c && c ≤ 'Z' then Char.ofNat ('A'.toNat + 'Z'.toNat - c.toNat)
  else if '0' ≤ c && c ≤ '9' then Char.ofNat ('0'.toNat + '9'.toNat - c.toNat)
  else c

/-- Embedding of `sortkey_year`: the composite sort key (year, month,
translated key), with "0" for a missing year or month. -/
def sortkeyYear (item : LChar × BibtexFields) : LChar × LChar × LChar :=
  (((pyGet? item.2.fields (lc "year")).map (fun v => v.text)).getD (lc "0"),
   ((pyGet? item.2.fields (lc "month")).map (fun v => v.text)).getD (lc "0"),
   item.1.map revChar)

/-- Python comparison of the 3-tuples produced by `sortkey_year`. -/
def key3Lt (a b : LChar × LChar × LChar) : Bool :=
  lexLt a.1 b.1 || (a.1 == b.1 &&
    (lexLt a.2.1 b.2.1 || (a.2.1 == b.2.1 && lexLt a.2.2 b.2.2)))

/-- Stable insertion into a descending list: `x` goes before the first
element it is not strictly below, so earlier elements win ties, exactly as
Python's stable `sorted(..., reverse=True)`. -/
def insertDesc (x : LChar × BibtexFields) :
    List (LChar × BibtexFields) → List (LChar × BibtexFields)
  | [] => [x]
  | y :: ys =>
    if key3Lt (sortkeyYear x) (sortkeyYear y) then y :: insertDesc x ys
    else x :: y :: ys

/-- Embedding of `sorted(bib.entries.items(), key=sortkey_year,
reverse=True)`: a stable descending sort. -/
def sortEntriesDesc : List (LChar × BibtexFields) → List (LChar × BibtexFields)
  | [] => []
  | x :: xs => insertDesc x (sortEntriesDesc xs)

/-- The document-level sort of `main`: replace the entries dict with its
re-sorted copy. -/
def sortDoc (b : BibtexData) : BibtexData := { b with entries := sortEntriesDesc b.entries }

/-- The default macro set of tidybib (month names). -/
def MACROS : List (LChar × LChar) :=
  [(lc "jan", lc "01"), (lc "feb", lc "02"), (lc "mar", lc "03"),
   (lc "apr", lc "04"), (lc "may", lc "05"), (lc "jun", lc "06"),
   (lc "jul", lc "07"), (lc "aug", lc "08"), (lc "sep", lc "09"),
   (lc "oct", lc "10"), (lc "nov", lc "11"), (lc "dec", lc "12")]

/-- Formatting a parsed document with the sort applied, as the tidybib
pipeline does before dumping. -/
def formatDoc (b : BibtexData) : LChar := dumps (sortDoc b)

/-- The composite parse-sort-format map on document text. -/
def parseFormat (l : LChar) (macros : List (LChar × LChar)) (warnMacros : Bool) :
    Except String LChar :=
  (loads l macros warnMacros).map (fun p => formatDoc p.1)

/-- Decidable equality for `Except`, so that concrete parser runs can be
checked by `decide`. -/
instance exceptDecEq {ε α : Type _} [DecidableEq ε] [DecidableEq α] :
    DecidableEq (Except ε α) := fun
  | .error a, .error b =>
    if h : a = b then .isTrue (by rw [h]) else .isFalse (by simp [h])
  | .error _, .ok _ => .isFalse (by simp)
  | .ok _, .error _ => .isFalse (by simp)
  | .ok a, .ok b =>
    if h : a = b then .isTrue (by rw [h]) else .isFalse (by simp [h])

/-! Specification-side description of the white-space normalisation of
`_scan_field_value` (claim C7). -/

/-- The collapse relation, written from the spec: the output is the input
with every run of space/tab/newline replaced by a single space.  A
white-space character starts a run; the whole run (the character and the
following maximal white-space stretch) becomes one space. -/
inductive Collapse : LChar → LChar → Prop where
  | nil : Collapse [] []
  | char {c : Char} {s t : LChar} : isBibSpace c = false → Collapse s t →
      Collapse (c :: s) (c :: t)
  | ws {c : Char} {s t : LChar} : isBibSpace c = true →
      Collapse (s.dropWhile isBibSpace) t → Collapse (c :: s) (' ' :: t)

/-- Whether two consecutive spaces occur somewhere in the list. -/
def hasDoubleSpace : LChar → Bool
  | a :: b :: r => (a == ' ' && b == ' ') || hasDoubleSpace (b :: r)
  | _ => false

/-- Whether a list is free of the pattern the preprocessing deletes: no
space or tab immediately before a newline or at the end. -/
def trailClean : LChar → Bool
  | [] => true
  | [c] => !(c == ' ' || c == '\t')
  | c :: d :: r => !((c == ' ' || c == '\t') && d == '\n') && trailClean (d :: r)

/-- Whether the preprocessing flag is set at the start of a remainder: true
exactly on the empty remainder or one starting with a newline. -/
def newlineFlag : LChar → Bool
  | [] => true
  | c :: _ => c == '\n'

/-- The brace-depth contribution of one character. -/
def braceDelta (c : Char) : Int := if c = '{' then 1 else if c = '}' then -1 else 0

/-- The brace depth accumulated over a list. -/
def depthI : LChar → Int
  | [] => 0
  | c :: r => braceDelta c + depthI r

/-- The specification-side condition for a successful balanced scan of the
text `t` started at depth `lvl`: the terminator position is at depth zero
(`lvl + depthI t = 0`), and no earlier position at depth zero holds the
terminator (which would have stopped the scan earlier) or a close brace
(which is a fatal error at depth zero). -/
def scanOkCond (term : Char) (lvl : Nat) (t : LChar) : Prop :=
  ((lvl : Int) + depthI t = 0) ∧
  ∀ i, ∀ hi : i < t.length,
    ¬(((lvl : Int) + depthI (t.take i) = 0)
      ∧ (t.get ⟨i, hi⟩ = term ∨ t.get ⟨i, hi⟩ = '}'))

/-! Claim C1: definitions for the idempotence analysis. -/

/-- A non-empty ASCII identifier as matched by ID_RE. -/
def validId (l : LChar) : Bool :=
  match l with
  | [] => false
  | c :: r => isIdChar c && !c.isDigit && r.all isIdChar

/-- Brace-balance check as the scanner sees it: no close brace at depth
zero, and depth zero at the end. -/
def braceOkB : Nat → LChar → Bool
  | lvl, [] => lvl == 0
  | lvl, c :: r =>
    if c == '{' then braceOkB (lvl + 1) r
    else if c == '}' then (if lvl == 0 then false else braceOkB (lvl - 1) r)
    else braceOkB lvl r

/-- A value text that the white-space normalisation leaves unchanged. -/
def textClean (l : LChar) : Bool := stripSpaces (compress l) == l

/-- A value text that round-trips through a quoted or braced literal:
normalised, brace-balanced, and free of double quotes. -/
def textOk (l : LChar) : Bool := braceOkB 0 l && textClean l && !(l.contains '"')

/-- A text of ASCII characters only.  On such texts the ASCII digit test
used in `renderPlain` coincides exactly with the source's Unicode-aware
`str.isdigit` (among ASCII characters, precisely `0`-`9` are digits, and
both tests reject the empty string), so the rendering model is exact. -/
def asciiText (l : LChar) : Bool := l.all (fun c => decide (c.toNat ≤ 0x7f))

/-- A key that the `{`-style key scanner reads back in full. -/
def keyOk (k : LChar) : Bool := k.all isBraceKeyChar

/-- An entry type that survives the upper-case/lower-case round trip and
is not mistaken for a command. -/
def typeOk (t : LChar) : Bool :=
  validId t && (asciiLowerL t == t)
    && !(t == lc "comment") && !(t == lc "preamble") && !(t == lc "string")

/-- The macro table as it stands after the dumped string commands have
been re-parsed on top of the caller's macros. -/
def macroTable (macros : List (LChar × LChar)) (strings : List (LChar × BibValue)) :
    List (LChar × BibValue) :=
  strings.foldl (fun t p => pyInsert t p.1 ⟨none, p.2.text⟩)
    (macros.map (fun p => (p.1, ⟨none, p.2⟩)))

/-- The text a bare macro reference resolves to against a table. -/
def resolveTag (table : List (LChar × BibValue)) (m : LChar) : LChar :=
  match pyGet? table (asciiLowerL m) with
  | some v => v.text
  | none => []

/-- A field value that re-parses to itself from its rendered form: a
tagged value must be a valid identifier that resolves back to the same
text (which is normalised), an untagged value must have a round-trippable
text. -/
def valueOk (table : List (LChar × BibValue)) (v : BibValue) : Bool :=
  match v.tag with
  | some m => validId m && (resolveTag table m == v.text) && textClean v.text
  | none => textOk v.text

/-- What re-parsing the canonical rendering of a field value yields: a
tagged value is reproduced (under `valueOk`); an untagged title that was
not brace-wrapped comes back wrapped in braces; everything else is
reproduced. -/
def canonValue (field : LChar) (v : BibValue) : BibValue :=
  match v.tag with
  | some _ => v
  | none =>
    if field = lc "title" then
      if v.text.head? == some '{' && v.text.getLast? == some '}' then v
      else ⟨none, '{' :: (v.text ++ ['}'])⟩
    else v

/-- The canonical order of an entry's field names, as the formatter emits
them. -/
def canonNames (e : BibtexFields) : List LChar :=
  sortAsc (fun a b => orderKeyLt (orderFields a) (orderFields b)) (e.fields.map (fun p => p.1))

/-- What re-parsing a formatted entry yields: the fields in formatter
order, each value canonicalised. -/
def canonFields (e : BibtexFields) : BibtexFields :=
  ⟨e.entryType,
   (canonNames e).map (fun f => (f, canonValue f ((pyGet? e.fields f).getD ⟨none, []⟩)))⟩

/-- What re-parsing a formatted document yields: preamble and string
values lose their tags, entries get canonical field lists. -/
def canonDoc (b : BibtexData) : BibtexData :=
  ⟨b.preamble.map (fun v => ⟨none, v.text⟩),
   b.strings.map (fun p => (p.1, ⟨none, p.2.text⟩)),
   b.entries.map (fun p => (p.1, canonFields p.2))⟩

/-- One dumped item. -/
inductive DItem where
  | pre (v : BibValue)
  | str (n : LChar) (v : BibValue)
  | ent (k : LChar) (e : BibtexFields)

/-- The text the formatter emits for one item. -/
def itemText : DItem → LChar
  | .pre v => lc "@PREAMBLE\x7b\"" ++ v.text ++ lc "\"\x7d"
  | .str n v => lc "@STRING\x7b" ++ n ++ lc " = \"" ++ v.text ++ lc "\"\x7d"
  | .ent k e => formatEntry e k

/-- The items of a document in dump order: preambles, strings, entries. -/
def itemsOf (b : BibtexData) : List DItem :=
  b.preamble.map .pre ++ b.strings.map (fun p => .str p.1 p.2)
    ++ b.entries.map (fun p => .ent p.1 p.2)

/-- A text consisting of the given items in order, separated (and led) by
BibTeX white space only. -/
inductive ChunksOf : List DItem → LChar → Prop where
  | nil (ws : LChar) : (∀ c ∈ ws, isBibSpace c = true) → ChunksOf [] ws
  | cons (ws : LChar) (it : DItem) (items : List DItem) (rest : LChar) :
      (∀ c ∈ ws, isBibSpace c = true) → ChunksOf items rest →
      ChunksOf (it :: items) (ws ++ (itemText it ++ rest))

/-- Well-formedness of a document for the idempotence theorem: every
component re-parses from its canonical rendering.  `table` is the macro
table after re-parsing the dumped strings.  Year field texts must be
ASCII: the source's year test `value.isdigit()` is Unicode-aware, so a
year text such as `²` counts as all-digit and is emitted bare, and its
re-parse aborts; on ASCII texts the emission is a braced literal or a
bare run of `0`-`9`, both of which re-parse to the same text. -/
def WFDoc (macros : List (LChar × LChar)) (b : BibtexData) : Prop :=
  (∀ v ∈ b.preamble, textOk v.text = true)
  ∧ (∀ p ∈ b.strings, validId p.1 = true ∧ asciiLowerL p.1 = p.1 ∧ textOk p.2.text = true)
  ∧ (b.strings.map (fun p => p.1)).Nodup
  ∧ (∀ p ∈ b.entries,
      keyOk p.1 = true ∧ typeOk p.2.entryType = true
      ∧ (p.2.fields.map (fun q => q.1)).Nodup
      ∧ ∀ q ∈ p.2.fields,
          validId q.1 = true ∧ asciiLowerL q.1 = q.1
          ∧ valueOk (macroTable macros b.strings) q.2 = true
          ∧ (q.1 = lc "year" → asciiText q.2.text = true))
  ∧ (b.entries.map (fun p => p.1)).Nodup

/-! The parse loop over the dumped items. -/

/-- A lower bound on the characters one dumped item occupies, enough to
fuel its scan. -/
def itemCost : DItem → Nat
  | .pre _ => 1
  | .str _ _ => 1
  | .ent _ e => e.fields.length + 2

/-- The total fuel bound for a list of items. -/
def itemsCost : List DItem → Nat
  | [] => 0
  | it :: r => itemCost it + itemsCost r

/-! The dumped text decomposes into white-space-separated item chunks. -/

/-- The output lines of a dump, matched against the items they render:
every line is either blank or the text of the next item. -/
inductive LinesOf : List DItem → List LChar → Prop where
  | nil : LinesOf [] []
  | skip (items : List DItem) (LS : List LChar) :
      LinesOf items LS → LinesOf items ([] :: LS)
  | item (it : DItem) (items : List DItem) (LS : List LChar) :
      LinesOf items LS → LinesOf (it :: items) (itemText it :: LS)

/-! Helper lemmas about the Python-dict model. -/

theorem pyGet?_cons (a : LChar × α) (d : List (LChar × α)) (k : LChar) :
    pyGet? (a :: d) k = if a.1 = k then some a.2 else pyGet? d k := by
  by_cases h : a.1 = k
  · simp [pyGet?, List.find?_cons_of_pos, h]
  · simp [pyGet?, List.find?_cons_of_neg, h]

theorem pyMem_cons (a : LChar × α) (d : List (LChar × α)) (k : LChar) :
    pyMem (a :: d) k = (a.1 = k || pyMem d k) := by
  by_cases h : a.1 = k <;> simp [pyMem, h]

theorem pyGet?_pyInsert_self (d : List (LChar × α)) (k : LChar) (v : α) :
    pyGet? (pyInsert d k v) k = some v := by
  unfold pyInsert
  by_cases h : pyMem d k = true
  · simp only [h, if_true]
    induction d with
    | nil => simp [pyMem] at h
    | cons a d ih =>
      by_cases ha : a.1 = k
      · simp [pyGet?_cons, ha]
      · have hm : pyMem d k = true := by
          simpa [pyMem_cons, ha] using h
        have := ih hm
        simpa [pyGet?_cons, ha] using this
  · simp only [h, if_false]
    induction d with
    | nil => simp [pyGet?_cons]
    | cons a d ih =>
      have ha : ¬(a.1 = k) := by
        intro hak
        exact h (by simp [pyMem_cons, hak])
      have hm : ¬(pyMem d k = true) := by
        intro hmk
        exact h (by simp [pyMem_cons, hmk])
      simpa [pyGet?_cons, ha] using ih hm

/-- C4: in an entry, a field name that occurs again is discarded — the
dict keeps the first occurrence's value — with exactly one warning, and
the field loop continues scanning rather than aborting; concretely
`@ARTICLE{k, year = {2000}, year = {2001}}` parses to the single field
value "2000" with exactly one warning. -/
theorem C4_repeated_field_first_wins
    (fuel : Nat) (rp : Char) (key : LChar) (fds : List (LChar × BibValue))
    (l r r2 r3 r4 : LChar) (st st2 : PSt) (fname : LChar) (value : BibValue)
    (hrp : tryTok1NS rp l = none)
    (hc : tryTok1 ',' l = some r)
    (hrp2 : tryTok1NS rp r = none)
    (hne : r.isEmpty = false)
    (hid : tryId r = some (fname, r2))
    (heq : tryTok1 '=' r2 = some r3)
    (hval : scanFieldValue (fuel + 1) r3 st = .ok (value, r4, st2))
    (hdup : pyMem fds (asciiLowerL fname) = true) :
    scanFields (fuel + 1) rp key fds l st
      = scanFields fuel rp key fds r4
          (st2.warn (.repeatedField (asciiLowerL fname) key))
    ∧ loads (lc "@ARTICLE\x7bk, year = \x7b2000\x7d, year = \x7b2001\x7d\x7d") [] true
      = .ok (⟨[], [], [(lc "k", ⟨lc "article", [(lc "year", ⟨none, lc "2000"⟩)]⟩)]⟩,
             [.repeatedField (lc "year") (lc "k")]) := by
  constructor
  · simp only [scanFields, hrp, hc, hrp2, hne, hid, heq, hval, hdup,
      Bool.false_eq_true, if_false, if_true]
  · decide

/-- C4 witness: the general statement applied at the concrete duplicate
`year` field of the claim's example. -/
theorem C4_repeated_field_first_wins_witness :
    scanFields 21 '}' (lc "k") [(lc "year", ⟨none, lc "2000"⟩)]
        (lc ", year = \x7b2001\x7d\x7d") ⟨[], true, []⟩
      = scanFields 20 '}' (lc "k") [(lc "year", ⟨none, lc "2000"⟩)] (lc "\x7d")
          (PSt.warn ⟨[], true, []⟩ (.repeatedField (lc "year") (lc "k")))
    ∧ loads (lc "@ARTICLE\x7bk, year = \x7b2000\x7d, year = \x7b2001\x7d\x7d") [] true
      = .ok (⟨[], [], [(lc "k", ⟨lc "article", [(lc "year", ⟨none, lc "2000"⟩)]⟩)]⟩,
             [.repeatedField (lc "year") (lc "k")]) := by
  have h := C4_repeated_field_first_wins 20 '}' (lc "k")
    [(lc "year", ⟨none, lc "2000"⟩)] (lc ", year = \x7b2001\x7d\x7d")
    (lc "year = \x7b2001\x7d\x7d") (lc "= \x7b2001\x7d\x7d") (lc "\x7b2001\x7d\x7d")
    (lc "\x7d") ⟨[], true, []⟩ ⟨[], true, []⟩ (lc "year") ⟨none, lc "2001"⟩
    (by decide) (by decide) (by decide) (by decide) (by decide) (by decide)
    (by decide) (by decide)
  exact h

/-- C5: when a second entry with an existing key is folded into the
document, exactly one warning is emitted and the later entry's type and
fields overwrite the earlier ones (last write wins); concretely two
entries with key `k` and titles "A" then "B" leave one entry with title
"B" and exactly one warning. -/
theorem C5_repeated_key_last_wins
    (acc : BibtexData) (t k : LChar) (f : List (LChar × BibValue)) (st : PSt)
    (hdup : pyMem acc.entries k = true) :
    loadsStep acc (.entry t k f) st
      = ({ acc with entries := pyInsert acc.entries k ⟨t, f⟩ },
         st.warn (.repeatedEntry k))
    ∧ pyGet? (pyInsert acc.entries k (⟨t, f⟩ : BibtexFields)) k = some ⟨t, f⟩
    ∧ loads (lc "@ARTICLE\x7bk, title = \x7bA\x7d\x7d\n@ARTICLE\x7bk, title = \x7bB\x7d\x7d") [] true
      = .ok (⟨[], [], [(lc "k", ⟨lc "article", [(lc "title", ⟨none, lc "B"⟩)]⟩)]⟩,
             [.repeatedEntry (lc "k")]) := by
  refine ⟨?_, pyGet?_pyInsert_self _ _ _, by decide⟩
  simp [loadsStep, hdup]

/-- C5 witness: the general statement applied to a concrete document with
an existing entry under key `k`. -/
theorem C5_repeated_key_last_wins_witness :
    loadsStep ⟨[], [], [(lc "k", ⟨lc "article", [(lc "title", ⟨none, lc "A"⟩)]⟩)]⟩
        (.entry (lc "article") (lc "k") [(lc "title", ⟨none, lc "B"⟩)]) ⟨[], true, []⟩
      = (⟨[], [],
          [(lc "k", ⟨lc "article", [(lc "title", ⟨none, lc "B"⟩)]⟩)]⟩,
         PSt.warn ⟨[], true, []⟩ (.repeatedEntry (lc "k")))
    ∧ loads (lc "@ARTICLE\x7bk, title = \x7bA\x7d\x7d\n@ARTICLE\x7bk, title = \x7bB\x7d\x7d") [] true
      = .ok (⟨[], [], [(lc "k", ⟨lc "article", [(lc "title", ⟨none, lc "B"⟩)]⟩)]⟩,
             [.repeatedEntry (lc "k")]) := by
  have h := C5_repeated_key_last_wins
    ⟨[], [], [(lc "k", ⟨lc "article", [(lc "title", ⟨none, lc "A"⟩)]⟩)]⟩
    (lc "article") (lc "k") [(lc "title", ⟨none, lc "B"⟩)] ⟨[], true, []⟩ (by decide)
  refine ⟨?_, h.2.2⟩
  rw [h.1]
  decide

/-- C6: a field-value piece that is an identifier with no macro-table
entry (after lower-casing) resolves to the empty string; a warning is
emitted exactly when the `warn_macros` flag is on, and the resolved value
is the same either way; concretely `@ARTICLE{k, month = nonexistent}`
yields an empty value with exactly one warning when warnings are on, and
the same value with none when they are off. -/
theorem C6_unknown_macro_empty
    (l r : LChar) (st : PSt) (name : LChar)
    (hdig : tryDigits l = none) (hbr : tryTok1NS '{' l = none)
    (hq : tryTok1NS '"' l = none) (hid : tryId l = some (name, r))
    (hmiss : pyGet? st.macros (asciiLowerL name) = none) :
    scanFieldPiece l st
      = .ok (⟨some name, []⟩, r,
          if st.warnMacros then st.warn (.unknownRef name) else st)
    ∧ loads (lc "@ARTICLE\x7bk, month = nonexistent\x7d") MACROS true
      = .ok (⟨[], [],
          [(lc "k", ⟨lc "article", [(lc "month", ⟨some (lc "nonexistent"), []⟩)]⟩)]⟩,
          [.unknownRef (lc "nonexistent")])
    ∧ loads (lc "@ARTICLE\x7bk, month = nonexistent\x7d") MACROS false
      = .ok (⟨[], [],
          [(lc "k", ⟨lc "article", [(lc "month", ⟨some (lc "nonexistent"), []⟩)]⟩)]⟩,
          []) := by
  refine ⟨?_, by decide, by decide⟩
  cases hw : st.warnMacros <;>
    simp [scanFieldPiece, hdig, hbr, hq, hid, hmiss, hw]

/-- C6 witness: the general statement applied at the undefined reference
`nonexistent` with an empty macro table. -/
theorem C6_unknown_macro_empty_witness :
    scanFieldPiece (lc "nonexistent\x7d") ⟨[], true, []⟩
      = .ok (⟨some (lc "nonexistent"), []⟩, lc "\x7d",
          if (⟨[], true, []⟩ : PSt).warnMacros
          then PSt.warn ⟨[], true, []⟩ (.unknownRef (lc "nonexistent"))
          else ⟨[], true, []⟩)
    ∧ loads (lc "@ARTICLE\x7bk, month = nonexistent\x7d") MACROS true
      = .ok (⟨[], [],
          [(lc "k", ⟨lc "article", [(lc "month", ⟨some (lc "nonexistent"), []⟩)]⟩)]⟩,
          [.unknownRef (lc "nonexistent")])
    ∧ loads (lc "@ARTICLE\x7bk, month = nonexistent\x7d") MACROS false
      = .ok (⟨[], [],
          [(lc "k", ⟨lc "article", [(lc "month", ⟨some (lc "nonexistent"), []⟩)]⟩)]⟩,
          []) :=
  C6_unknown_macro_empty (lc "nonexistent\x7d") (lc "\x7d") ⟨[], true, []⟩
    (lc "nonexistent") (by decide) (by decide) (by decide) (by decide) (by decide)

/-- C9 counterexample: parsing `@STRING{a = jan}` with the month macros
defined stores, in the macro table and in the document's strings, the
value "01" still carrying the macro tag `jan` — the tag is not stripped
when stored, so the table does not map the name to a plain untagged
string as claimed. -/
theorem C9_counterexample :
    loads (lc "@STRING\x7ba = jan\x7d") MACROS true
      = .ok (⟨[], [(lc "a", ⟨some (lc "jan"), lc "01"⟩)], []⟩, [])
    ∧ pyGet? ((storeString ⟨[], true, []⟩ (lc "a") ⟨some (lc "jan"), lc "01"⟩).macros)
        (lc "a") = some ⟨some (lc "jan"), lc "01"⟩
    ∧ (⟨some (lc "jan"), lc "01"⟩ : BibValue).tag ≠ none := by
  refine ⟨by decide, by decide, by decide⟩

/-- C9 amended: after a `@string` command the macro table maps the
lower-cased name to the scanned value, redefinition emits exactly one
warning but overwrites; the stored value may still carry a macro tag, but
the tag is never consulted — a later macro lookup uses only the stored
text and tags the result with the referencing identifier. -/
theorem C9_macro_table_amended
    (st : PSt) (name : LChar) (v : BibValue)
    (l r name2 : LChar) (w : BibValue)
    (hdup : pyMem st.macros name = true)
    (hdig : tryDigits l = none) (hbr : tryTok1NS '{' l = none)
    (hq : tryTok1NS '"' l = none) (hid : tryId l = some (name2, r))
    (hfound : pyGet? st.macros (asciiLowerL name2) = some w) :
    storeString st name v
      = { macros := pyInsert st.macros name v, warnMacros := st.warnMacros,
          warns := st.warns ++ [.redefString name] }
    ∧ pyGet? (storeString st name v).macros name = some v
    ∧ scanFieldPiece l st = .ok (⟨some name2, w.text⟩, r, st) := by
  refine ⟨?_, ?_, ?_⟩
  · simp [storeString, hdup, PSt.warn]
  · simp only [storeString, hdup, if_true, PSt.warn]
    exact pyGet?_pyInsert_self _ _ _
  · simp [scanFieldPiece, hdig, hbr, hq, hid, hfound]

/-- C9 witness: the amended statement applied at a concrete redefinition
of `a` and a concrete reference through the table. -/
theorem C9_macro_table_amended_witness :
    storeString ⟨[(lc "a", ⟨none, lc "0"⟩)], true, []⟩ (lc "a") ⟨some (lc "jan"), lc "01"⟩
      = { macros := pyInsert [(lc "a", ⟨none, lc "0"⟩)] (lc "a") ⟨some (lc "jan"), lc "01"⟩,
          warnMacros := true, warns := [] ++ [.redefString (lc "a")] }
    ∧ pyGet? (storeString ⟨[(lc "a", ⟨none, lc "0"⟩)], true, []⟩ (lc "a")
        ⟨some (lc "jan"), lc "01"⟩).macros (lc "a") = some ⟨some (lc "jan"), lc "01"⟩
    ∧ scanFieldPiece (lc "a\x7d") ⟨[(lc "a", ⟨none, lc "0"⟩)], true, []⟩
      = .ok (⟨some (lc "a"), lc "0"⟩, lc "\x7d", ⟨[(lc "a", ⟨none, lc "0"⟩)], true, []⟩) :=
  C9_macro_table_amended ⟨[(lc "a", ⟨none, lc "0"⟩)], true, []⟩ (lc "a")
    ⟨some (lc "jan"), lc "01"⟩ (lc "a\x7d") (lc "\x7d") (lc "a") ⟨none, lc "0"⟩
    (by decide) (by decide) (by decide) (by decide) (by decide) (by decide)

/-- Concatenation never restores a tag: once the accumulator is untagged,
the result of the `#` loop is untagged. -/
theorem scanMorePieces_tag_of_none (fuel : Nat) :
    ∀ (t l : LChar) (st : PSt) (v : BibValue) (r : LChar) (st' : PSt),
    scanMorePieces fuel ⟨none, t⟩ l st = .ok (v, r, st') → v.tag = none := by
  induction fuel with
  | zero => intro t l st v r st' h; simp [scanMorePieces] at h
  | succ fuel ih =>
    intro t l st v r st' h
    rw [scanMorePieces] at h
    cases hh : tryTok1 '#' l with
    | none =>
      rw [hh] at h
      simp only [Except.ok.injEq, Prod.mk.injEq] at h
      rw [← h.1]
    | some r1 =>
      rw [hh] at h
      simp only at h
      cases hp : scanFieldPiece r1 st with
      | error e => rw [hp] at h; simp at h
      | ok trip =>
        rw [hp] at h
        simp only at h
        exact ih _ _ _ _ _ _ h

/-- C2: the assembled field value carries a macro tag exactly when the
value was a single piece (no `#` followed the first piece) and that piece
was tagged; any concatenation yields an untagged value; a tagged piece
can only come from the identifier branch of the piece scanner; and the
formatter emits a tagged value as the bare macro name and an untagged
value as a literal.  Concretely, `note = foo` re-emits as the bare name
`foo` while `eid = foo # ""` re-emits as the literal `{X}`. -/
theorem C2_macro_tag_iff_single_piece
    (fuel : Nat) (l : LChar) (st : PSt) (v : BibValue) (r : LChar) (st' : PSt)
    (p : BibValue) (r1 : LChar) (st1 : PSt)
    (h : scanFieldValue fuel l st = .ok (v, r, st'))
    (hp : scanFieldPiece l st = .ok (p, r1, st1)) :
    (tryTok1 '#' r1 = none → v.tag = p.tag)
    ∧ (tryTok1 '#' r1 ≠ none → v.tag = none)
    ∧ (p.tag ≠ none →
        tryDigits l = none ∧ tryTok1NS '{' l = none ∧ tryTok1NS '"' l = none
        ∧ ∃ nm r2, tryId l = some (nm, r2) ∧ p.tag = some nm)
    ∧ (∀ field m text, m ≠ [] → renderValue field ⟨some m, text⟩ = m)
    ∧ (∀ field text, renderValue field ⟨none, text⟩ = renderPlain field text)
    ∧ parseFormat
        (lc "@STRING\x7bfoo = \x7bX\x7d\x7d\n@ARTICLE\x7bk, note = foo, eid = foo # \"\"\x7d")
        [] true
      = .ok (lc "@STRING\x7bfoo = \"X\"\x7d\n\n@ARTICLE\x7bk,\n          eid = \x7bX\x7d,\n         note = foo\n\x7d\n") := by
  rw [scanFieldValue, hp] at h
  simp only at h
  refine ⟨?_, ?_, ?_, ?_, ?_, by decide⟩
  · intro hno
    cases fuel with
    | zero => simp [scanMorePieces] at h
    | succ fuel =>
      rw [scanMorePieces, hno] at h
      simp only [Except.ok.injEq, Prod.mk.injEq] at h
      rw [← h.1]
  · intro hyes
    cases fuel with
    | zero => simp [scanMorePieces] at h
    | succ fuel =>
      cases hh : tryTok1 '#' r1 with
      | none => exact absurd hh hyes
      | some rr =>
        rw [scanMorePieces, hh] at h
        simp only at h
        cases hq : scanFieldPiece rr st1 with
        | error e => rw [hq] at h; simp at h
        | ok trip =>
          rw [hq] at h
          simp only at h
          cases hm : scanMorePieces fuel ⟨none, p.text ++ trip.1.text⟩ trip.2.1 trip.2.2 with
          | error e => rw [hm] at h; simp at h
          | ok out =>
            rw [hm] at h
            simp only [Except.ok.injEq, Prod.mk.injEq] at h
            have := scanMorePieces_tag_of_none fuel _ _ _ _ _ _ hm
            rw [← h.1]
            exact this
  · intro htag
    rw [scanFieldPiece] at hp
    cases hd : tryDigits l with
    | some pr =>
      rw [hd] at hp
      simp only [Except.ok.injEq, Prod.mk.injEq] at hp
      rw [← hp.1] at htag
      simp at htag
    | none =>
    rw [hd] at hp
    simp only at hp
    cases hb : tryTok1NS '{' l with
    | some rb =>
      rw [hb] at hp
      simp only at hp
      cases hsb : scanBalancedText '}' 0 rb with
      | error e => rw [hsb] at hp; simp at hp
      | ok tp =>
        rw [hsb] at hp
        simp only [Except.ok.injEq, Prod.mk.injEq] at hp
        rw [← hp.1] at htag
        simp at htag
    | none =>
    rw [hb] at hp
    simp only at hp
    cases hqq : tryTok1NS '"' l with
    | some rq =>
      rw [hqq] at hp
      simp only at hp
      cases hsb : scanBalancedText '"' 0 rq with
      | error e => rw [hsb] at hp; simp at hp
      | ok tp =>
        rw [hsb] at hp
        simp only [Except.ok.injEq, Prod.mk.injEq] at hp
        rw [← hp.1] at htag
        simp at htag
    | none =>
    rw [hqq] at hp
    simp only at hp
    cases hi : tryId l with
    | none => rw [hi] at hp; simp at hp
    | some nr =>
      rw [hi] at hp
      simp only at hp
      refine ⟨rfl, rfl, rfl, nr.1, nr.2, rfl, ?_⟩
      cases hf : pyGet? st.macros (asciiLowerL nr.1) with
      | some w =>
        rw [hf] at hp
        simp only [Except.ok.injEq, Prod.mk.injEq] at hp
        rw [← hp.1]
      | none =>
        rw [hf] at hp
        cases hw : st.warnMacros with
        | true =>
          rw [hw] at hp
          simp only [if_true] at hp
          simp only [Except.ok.injEq, Prod.mk.injEq] at hp
          rw [← hp.1]
        | false =>
          rw [hw] at hp
          simp only [Bool.false_eq_true, if_false] at hp
          simp only [Except.ok.injEq, Prod.mk.injEq] at hp
          rw [← hp.1]
  · intro field m text hm
    simp [renderValue, hm]
  · intro field text
    rfl

/-- C2 witness: the general statement applied at the single-piece macro
reference `foo` resolving through a concrete table. -/
theorem C2_macro_tag_iff_single_piece_witness :
    (tryTok1 '#' (lc "\x7d") = none →
      (⟨some (lc "foo"), lc "X"⟩ : BibValue).tag = (⟨some (lc "foo"), lc "X"⟩ : BibValue).tag)
    ∧ (tryTok1 '#' (lc "\x7d") ≠ none → (⟨some (lc "foo"), lc "X"⟩ : BibValue).tag = none)
    ∧ ((⟨some (lc "foo"), lc "X"⟩ : BibValue).tag ≠ none →
        tryDigits (lc "foo\x7d") = none ∧ tryTok1NS '{' (lc "foo\x7d") = none
        ∧ tryTok1NS '"' (lc "foo\x7d") = none
        ∧ ∃ nm r2, tryId (lc "foo\x7d") = some (nm, r2)
            ∧ (⟨some (lc "foo"), lc "X"⟩ : BibValue).tag = some nm)
    ∧ (∀ field m text, m ≠ [] → renderValue field ⟨some m, text⟩ = m)
    ∧ (∀ field text, renderValue field ⟨none, text⟩ = renderPlain field text)
    ∧ parseFormat
        (lc "@STRING\x7bfoo = \x7bX\x7d\x7d\n@ARTICLE\x7bk, note = foo, eid = foo # \"\"\x7d")
        [] true
      = .ok (lc "@STRING\x7bfoo = \"X\"\x7d\n\n@ARTICLE\x7bk,\n          eid = \x7bX\x7d,\n         note = foo\n\x7d\n") :=
  C2_macro_tag_iff_single_piece 5 (lc "foo\x7d")
    ⟨[(lc "foo", ⟨none, lc "X"⟩)], true, []⟩ ⟨some (lc "foo"), lc "X"⟩ (lc "\x7d")
    ⟨[(lc "foo", ⟨none, lc "X"⟩)], true, []⟩ ⟨some (lc "foo"), lc "X"⟩ (lc "\x7d")
    ⟨[(lc "foo", ⟨none, lc "X"⟩)], true, []⟩ (by decide) (by decide)

/-! Order lemmas for the composite sort key. -/

/-- Characters with equal code points are equal. -/
theorem char_eq_of_toNat_eq (x y : Char) (h : x.toNat = y.toNat) : x = y := by
  apply Char.eq_of_val_eq
  apply BitVec.toNat_injective at h
  exact congrArg UInt32.mk h

/-- One-step unfolding of the lexicographic comparison. -/
theorem lexLt_cons (x y : Char) (xs ys : LChar) :
    lexLt (x :: xs) (y :: ys)
      = if x.toNat < y.toNat then true
        else if y.toNat < x.toNat then false else lexLt xs ys := rfl

/-- Irreflexivity of the lexicographic comparison. -/
theorem lexLt_irrefl : ∀ (a : LChar), lexLt a a = false := by
  intro a
  induction a with
  | nil => rfl
  | cons x xs ih => rw [lexLt_cons]; simp [ih]

/-- Transitivity of the lexicographic comparison. -/
theorem lexLt_trans : ∀ (a b c : LChar),
    lexLt a b = true → lexLt b c = true → lexLt a c = true := by
  intro a
  induction a with
  | nil =>
    intro b c hab hbc
    cases c with
    | nil => cases b <;> simp [lexLt] at hbc
    | cons z zs => simp [lexLt]
  | cons x xs ih =>
    intro b c hab hbc
    cases b with
    | nil => simp [lexLt] at hab
    | cons y ys =>
      cases c with
      | nil => simp [lexLt] at hbc
      | cons z zs =>
        rw [lexLt_cons] at hab hbc ⊢
        rcases Nat.lt_trichotomy x.toNat y.toNat with h1 | h1 | h1
        · rcases Nat.lt_trichotomy y.toNat z.toNat with h2 | h2 | h2
          · simp [Nat.lt_trans h1 h2]
          · rw [← h2]
            simp [h1]
          · simp [Nat.lt_asymm h2, h2] at hbc
        · rw [h1] at hab ⊢
          simp only [Nat.lt_irrefl, if_false] at hab
          rcases Nat.lt_trichotomy y.toNat z.toNat with h2 | h2 | h2
          · simp [h2]
          · rw [h2] at hbc ⊢
            simp only [Nat.lt_irrefl, if_false] at hbc ⊢
            exact ih ys zs hab hbc
          · simp [Nat.lt_asymm h2, h2] at hbc
        · simp [Nat.lt_asymm h1, h1] at hab

/-- Connexity: two lists neither of which is lexicographically below the
other are equal. -/
theorem lexLt_conn : ∀ (a b : LChar),
    lexLt a b = false → lexLt b a = false → a = b := by
  intro a
  induction a with
  | nil =>
    intro b hab _
    cases b with
    | nil => rfl
    | cons y ys => simp [lexLt] at hab
  | cons x xs ih =>
    intro b hab hba
    cases b with
    | nil => simp [lexLt] at hba
    | cons y ys =>
      rw [lexLt_cons] at hab hba
      rcases Nat.lt_trichotomy x.toNat y.toNat with h1 | h1 | h1
      · simp [h1] at hab
      · have hxy : x = y := char_eq_of_toNat_eq x y h1
        subst hxy
        simp only [Nat.lt_irrefl, if_false] at hab hba
        rw [ih ys hab hba]
      · simp [h1] at hba

/-- Transitivity of the composite-key comparison. -/
theorem key3Lt_trans (a b c : LChar × LChar × LChar)
    (hab : key3Lt a b = true) (hbc : key3Lt b c = true) : key3Lt a c = true := by
  obtain ⟨a1, a2, a3⟩ := a
  obtain ⟨b1, b2, b3⟩ := b
  obtain ⟨c1, c2, c3⟩ := c
  simp only [key3Lt, Bool.or_eq_true, Bool.and_eq_true, beq_iff_eq] at hab hbc ⊢
  rcases hab with h1 | ⟨e1, h1⟩
  · rcases hbc with h2 | ⟨e2, h2⟩
    · exact Or.inl (lexLt_trans _ _ _ h1 h2)
    · exact Or.inl (e2 ▸ h1)
  · subst e1
    rcases hbc with h2 | ⟨e2, h2⟩
    · exact Or.inl h2
    · subst e2
      refine Or.inr ⟨rfl, ?_⟩
      rcases h1 with h1 | ⟨f1, h1⟩
      · rcases h2 with h2 | ⟨f2, h2⟩
        · exact Or.inl (lexLt_trans _ _ _ h1 h2)
        · exact Or.inl (f2 ▸ h1)
      · subst f1
        rcases h2 with h2 | ⟨f2, h2⟩
        · exact Or.inl h2
        · subst f2
          exact Or.inr ⟨rfl, lexLt_trans _ _ _ h1 h2⟩

/-- Irreflexivity of the composite-key comparison. -/
theorem key3Lt_irrefl (a : LChar × LChar × LChar) : key3Lt a a = false := by
  obtain ⟨a1, a2, a3⟩ := a
  simp [key3Lt, lexLt_irrefl]

/-- Asymmetry of the composite-key comparison. -/
theorem key3Lt_asymm (a b : LChar × LChar × LChar)
    (hab : key3Lt a b = true) : key3Lt b a = false := by
  cases hba : key3Lt b a with
  | false => rfl
  | true =>
    have := key3Lt_trans a b a hab hba
    rw [key3Lt_irrefl] at this
    exact absurd this (by simp)

/-- Connexity of the composite-key comparison. -/
theorem key3Lt_conn (a b : LChar × LChar × LChar)
    (hab : key3Lt a b = false) (hba : key3Lt b a = false) : a = b := by
  obtain ⟨a1, a2, a3⟩ := a
  obtain ⟨b1, b2, b3⟩ := b
  simp only [key3Lt, Bool.or_eq_false_iff, Bool.and_eq_false_iff] at hab hba
  obtain ⟨hab1, hab2⟩ := hab
  obtain ⟨hba1, hba2⟩ := hba
  have e1 : a1 = b1 := lexLt_conn _ _ hab1 hba1
  subst e1
  simp only [beq_self_eq_true, Bool.true_eq_false, false_or] at hab2 hba2
  obtain ⟨hab21, hab22⟩ := hab2
  obtain ⟨hba21, hba22⟩ := hba2
  have e2 : a2 = b2 := lexLt_conn _ _ hab21 hba21
  subst e2
  simp only [beq_self_eq_true, Bool.true_eq_false, false_or] at hab22 hba22
  have e3 : a3 = b3 := lexLt_conn _ _ hab22 hba22
  rw [e3]

/-- Transitivity of the reflexive (not-below) composite comparison. -/
theorem key3Lt_le_trans (a b c : LChar × LChar × LChar)
    (hab : key3Lt a b = false) (hbc : key3Lt b c = false) : key3Lt a c = false := by
  cases hac : key3Lt a c with
  | false => rfl
  | true =>
    cases hba : key3Lt b a with
    | true =>
      have := key3Lt_trans b a c hba hac
      rw [this] at hbc
      exact absurd hbc (by simp)
    | false =>
      have := key3Lt_conn a b hab hba
      subst this
      rw [hac] at hbc
      exact absurd hbc (by simp)

/-- Inserting preserves the elements: the insertion is a permutation of
consing. -/
theorem insertDesc_perm (x : LChar × BibtexFields) (l : List (LChar × BibtexFields)) :
    (insertDesc x l).Perm (x :: l) := by
  induction l with
  | nil => simp [insertDesc]
  | cons y ys ih =>
    rw [insertDesc]
    by_cases h : key3Lt (sortkeyYear x) (sortkeyYear y) = true
    · simp only [h, if_true]
      exact (ih.cons y).trans (List.Perm.swap x y ys)
    · simp only [Bool.not_eq_true] at h
      simp only [h, Bool.false_eq_true, if_false]
      exact List.Perm.refl _

/-- The document sort is a permutation of the entries. -/
theorem sortEntriesDesc_perm (l : List (LChar × BibtexFields)) :
    (sortEntriesDesc l).Perm l := by
  induction l with
  | nil => simp [sortEntriesDesc]
  | cons x xs ih =>
    rw [sortEntriesDesc]
    exact (insertDesc_perm x (sortEntriesDesc xs)).trans (ih.cons x)

/-- Insertion preserves the descending pairwise order. -/
theorem insertDesc_pairwise (x : LChar × BibtexFields)
    (l : List (LChar × BibtexFields))
    (hl : l.Pairwise (fun a b => key3Lt (sortkeyYear a) (sortkeyYear b) = false)) :
    (insertDesc x l).Pairwise
      (fun a b => key3Lt (sortkeyYear a) (sortkeyYear b) = false) := by
  induction l with
  | nil => simp [insertDesc]
  | cons y ys ih =>
    rw [insertDesc]
    rcases List.pairwise_cons.mp hl with ⟨hy, hys⟩
    by_cases h : key3Lt (sortkeyYear x) (sortkeyYear y) = true
    · simp only [h, if_true]
      refine List.pairwise_cons.mpr ⟨?_, ih hys⟩
      intro z hz
      have hz' : z ∈ x :: ys := (insertDesc_perm x ys).mem_iff.mp hz
      rcases List.mem_cons.mp hz' with hz' | hz'
      · subst hz'
        exact key3Lt_asymm _ _ h
      · exact hy z hz'
    · simp only [Bool.not_eq_true] at h
      simp only [h, Bool.false_eq_true, if_false]
      refine List.pairwise_cons.mpr ⟨?_, hl⟩
      intro z hz
      rcases List.mem_cons.mp hz with hz' | hz'
      · subst hz'
        exact h
      · exact key3Lt_le_trans _ _ _ h (hy z hz')

/-- The sorted entries are pairwise descending. -/
theorem sortEntriesDesc_pairwise (l : List (LChar × BibtexFields)) :
    (sortEntriesDesc l).Pairwise
      (fun a b => key3Lt (sortkeyYear a) (sortkeyYear b) = false) := by
  induction l with
  | nil => simp [sortEntriesDesc]
  | cons x xs ih =>
    rw [sortEntriesDesc]
    exact insertDesc_pairwise x (sortEntriesDesc xs) ih

/-- C3 counterexample: two entries with identical year "2020" and missing
month but keys "a" and "ab".  The claim's composite key demands key
ascending, i.e. "a" before "ab", but the program sorts "ab" before "a"
(the complement transform reverses prefix order), so the claimed ordering
is violated. -/
theorem C3_counterexample :
    sortEntriesDesc
        [(lc "a", ⟨lc "article", [(lc "year", ⟨none, lc "2020"⟩)]⟩),
         (lc "ab", ⟨lc "article", [(lc "year", ⟨none, lc "2020"⟩)]⟩)]
      = [(lc "ab", ⟨lc "article", [(lc "year", ⟨none, lc "2020"⟩)]⟩),
         (lc "a", ⟨lc "article", [(lc "year", ⟨none, lc "2020"⟩)]⟩)]
    ∧ (sortkeyYear (lc "a", ⟨lc "article", [(lc "year", ⟨none, lc "2020"⟩)]⟩)).1
      = (sortkeyYear (lc "ab", ⟨lc "article", [(lc "year", ⟨none, lc "2020"⟩)]⟩)).1
    ∧ (sortkeyYear (lc "a", ⟨lc "article", [(lc "year", ⟨none, lc "2020"⟩)]⟩)).2.1
      = (sortkeyYear (lc "ab", ⟨lc "article", [(lc "year", ⟨none, lc "2020"⟩)]⟩)).2.1
    ∧ lexLt (lc "a") (lc "ab") = true
    ∧ parseFormat (lc "@ARTICLE\x7ba, year = \x7b2020\x7d\x7d\n@ARTICLE\x7bab, year = \x7b2020\x7d\x7d") [] true
      = .ok (lc "@ARTICLE\x7bab,\n         year = 2020\n\x7d\n\n@ARTICLE\x7ba,\n         year = 2020\n\x7d\n") := by
  refine ⟨by decide, by decide, by decide, by decide, by decide⟩

/-- C3 amended: the sort produces a permutation of the entries (so no
entry, and in particular no field order inside an entry, is altered) that
is pairwise descending in the composite key (year, month, complement-
translated key) — year descending, month descending, then the translated
key descending, which agrees with plain ascending key order on the
claim's example but not in general; the concrete example sorts to
a(2020), b(2020), c(2019). -/
theorem C3_sort_by_composite_key (es : List (LChar × BibtexFields)) :
    (sortEntriesDesc es).Perm es
    ∧ (sortEntriesDesc es).Pairwise
        (fun a b => key3Lt (sortkeyYear a) (sortkeyYear b) = false)
    ∧ parseFormat (lc "@ARTICLE\x7bb, year = \x7b2020\x7d\x7d\n@ARTICLE\x7ba, year = \x7b2020\x7d\x7d\n@ARTICLE\x7bc, year = \x7b2019\x7d\x7d") [] true
      = .ok (lc "@ARTICLE\x7ba,\n         year = 2020\n\x7d\n\n@ARTICLE\x7bb,\n         year = 2020\n\x7d\n\n@ARTICLE\x7bc,\n         year = 2019\n\x7d\n") :=
  ⟨sortEntriesDesc_perm es, sortEntriesDesc_pairwise es, by decide⟩

/-- In the white-space-skipping state, the compressor continues at the end
of the run. -/
theorem compressGo_true (l : LChar) :
    compressGo true l = compress (l.dropWhile isBibSpace) := by
  induction l with
  | nil => rfl
  | cons c r ih =>
    by_cases hc : isBibSpace c = true
    · rw [List.dropWhile_cons_of_pos hc]
      simpa [compressGo, hc] using ih
    · rw [List.dropWhile_cons_of_neg (by simpa using hc)]
      simp only [Bool.not_eq_true] at hc
      simp [compressGo, compress, hc]

/-- The compressor realises the collapse relation of the spec. -/
theorem collapse_compress_aux : ∀ (n : Nat) (s : LChar), s.length ≤ n →
    Collapse s (compress s) := by
  intro n
  induction n with
  | zero =>
    intro s hs
    cases s with
    | nil => exact .nil
    | cons c r => simp at hs
  | succ n ih =>
    intro s hs
    cases s with
    | nil => exact .nil
    | cons c r =>
      by_cases hc : isBibSpace c = true
      · have he : compress (c :: r) = ' ' :: compress (r.dropWhile isBibSpace) := by
          simp [compress, compressGo, hc, compressGo_true]
        rw [he]
        refine Collapse.ws hc (ih _ ?_)
        exact le_trans ((List.dropWhile_suffix _).sublist.length_le) (Nat.le_of_succ_le_succ hs)
      · simp only [Bool.not_eq_true] at hc
        have he : compress (c :: r) = c :: compress r := by
          simp [compress, compressGo, hc]
        rw [he]
        exact Collapse.char hc (ih _ (Nat.le_of_succ_le_succ hs))

/-- The compressor realises the collapse relation of the spec. -/
theorem collapse_compress (s : LChar) : Collapse s (compress s) :=
  collapse_compress_aux s.length s le_rfl

/-- The head of a `dropWhile` result fails the predicate. -/
theorem head?_dropWhile_not (p : Char → Bool) :
    ∀ (l : LChar) (c : Char), (l.dropWhile p).head? = some c → p c = false := by
  intro l
  induction l with
  | nil => intro c h; simp at h
  | cons a r ih =>
    intro c h
    by_cases ha : p a = true
    · rw [List.dropWhile_cons_of_pos ha] at h
      exact ih c h
    · rw [List.dropWhile_cons_of_neg (by simpa using ha)] at h
      simp only [List.head?_cons, Option.some.injEq] at h
      subst h
      simpa using ha

/-- A prefix is empty or has the same head. -/
theorem prefix_head? {m d : LChar} (h : m <+: d) :
    m.head? = none ∨ m.head? = d.head? := by
  rcases h with ⟨t, rfl⟩
  cases m with
  | nil => exact Or.inl rfl
  | cons a r => exact Or.inr rfl

/-- The strip keeps only a prefix of the leading-space-stripped list. -/
theorem stripSpaces_front (l : LChar) :
    stripSpaces l <+: l.dropWhile (fun c => c == ' ') := by
  unfold stripSpaces
  rw [← List.reverse_reverse (List.dropWhile (fun c => c == ' ') l)]
  rw [List.reverse_prefix]
  rw [List.reverse_reverse]
  exact List.dropWhile_suffix _

/-- The stripped value never starts with a space. -/
theorem stripSpaces_head (l : LChar) (c : Char)
    (h : (stripSpaces l).head? = some c) : (c == ' ') = false := by
  rcases prefix_head? (stripSpaces_front l) with h0 | h0
  · rw [h0] at h; simp at h
  · rw [h0] at h
    exact head?_dropWhile_not (fun c => c == ' ') l c h

/-- The stripped value never ends with a space. -/
theorem stripSpaces_getLast (l : LChar) (c : Char)
    (h : (stripSpaces l).getLast? = some c) : (c == ' ') = false := by
  unfold stripSpaces at h
  rw [List.getLast?_reverse] at h
  exact head?_dropWhile_not (fun c => c == ' ')
    ((l.dropWhile (fun c => c == ' ')).reverse) c h

/-- The stripped value is an infix of the original. -/
theorem stripSpaces_inner (l : LChar) : stripSpaces l <:+: l :=
  (stripSpaces_front l).isInfix.trans (List.dropWhile_suffix _).isInfix

/-- Python `strip(" ")` removes exactly leading and trailing spaces: the
original is spaces, then the stripped value, then spaces. -/
theorem stripSpaces_decomp (l : LChar) :
    ∃ n m, l = List.replicate n ' ' ++ stripSpaces l ++ List.replicate m ' ' := by
  have htk : ∀ (x : LChar), x.takeWhile (fun c => c == ' ')
      = List.replicate (x.takeWhile (fun c => c == ' ')).length ' ' := by
    intro x
    apply List.eq_replicate_of_mem
    intro b hb
    have := List.mem_takeWhile_imp hb
    simpa using this
  refine ⟨(l.takeWhile (fun c => c == ' ')).length,
    ((l.dropWhile (fun c => c == ' ')).reverse.takeWhile (fun c => c == ' ')).length, ?_⟩
  conv_lhs => rw [← List.takeWhile_append_dropWhile (fun c => c == ' ') l]
  rw [List.append_assoc]
  congr 1
  · exact htk l
  · conv_lhs => rw [← List.reverse_reverse (l.dropWhile (fun c => c == ' '))]
    conv_lhs => rw [← List.takeWhile_append_dropWhile (fun c => c == ' ')
        (l.dropWhile (fun c => c == ' ')).reverse]
    rw [List.reverse_append]
    congr 1
    rw [htk (l.dropWhile (fun c => c == ' ')).reverse, List.reverse_replicate]
    simp

/-- On a value with no leading or trailing space, the strip is the
identity; in particular leading or trailing tabs and newlines survive. -/
theorem stripSpaces_id (l : LChar) (h1 : l.head? ≠ some ' ')
    (h2 : l.getLast? ≠ some ' ') : stripSpaces l = l := by
  have hdw : ∀ (x : LChar), x.head? ≠ some ' ' →
      x.dropWhile (fun c => c == ' ') = x := by
    intro x hx
    cases x with
    | nil => rfl
    | cons a r =>
      have ha : ¬((a == ' ') = true) := by
        intro hc
        exact hx (by simp_all)
      simp only [List.dropWhile_cons]
      simp [ha]
  unfold stripSpaces
  rw [hdw l h1]
  rw [hdw l.reverse (by rw [List.head?_reverse]; exact h2)]
  exact List.reverse_reverse l

/-- The compressor output contains no tab and no newline. -/
theorem compressGo_no_tab_nl (b : Bool) (s : LChar) :
    ¬('\t' ∈ compressGo b s) ∧ ¬('\n' ∈ compressGo b s) := by
  induction s generalizing b with
  | nil => simp [compressGo]
  | cons c r ih =>
    by_cases hc : isBibSpace c = true
    · cases b with
      | true => simpa [compressGo, hc] using ih true
      | false =>
        have := ih true
        simp [compressGo, hc, this.1, this.2]
    · have hcc : ¬(c = '\t') ∧ ¬(c = '\n') := by
        constructor <;> intro he <;> subst he <;> simp [isBibSpace] at hc
      simp only [Bool.not_eq_true] at hc
      have := ih false
      simp [compressGo, hc, this.1, this.2]
      exact ⟨fun he => hcc.1 he.symm, fun he => hcc.2 he.symm⟩

/-- The head of the compressor output in the skipping state is not a
space. -/
theorem compressGo_true_head (s : LChar) (c : Char)
    (h : (compressGo true s).head? = some c) : (c == ' ') = false := by
  induction s with
  | nil => simp [compressGo] at h
  | cons a r ih =>
    by_cases ha : isBibSpace a = true
    · rw [show compressGo true (a :: r) = compressGo true r by simp [compressGo, ha]] at h
      exact ih h
    · rw [show compressGo true (a :: r) = a :: compressGo false r by
        simp only [Bool.not_eq_true] at ha; simp [compressGo, ha]] at h
      simp only [List.head?_cons, Option.some.injEq] at h
      subst h
      simp only [Bool.not_eq_true] at ha
      cases hcc : a == ' ' with
      | false => rfl
      | true =>
        simp only [beq_iff_eq] at hcc
        subst hcc
        simp [isBibSpace] at ha

/-- The compressor output never contains two consecutive spaces. -/
theorem compressGo_noDoubleSpace (s : LChar) : ∀ (b : Bool),
    hasDoubleSpace (compressGo b s) = false := by
  induction s with
  | nil => intro b; simp [compressGo, hasDoubleSpace]
  | cons c r ih =>
    intro b
    by_cases hc : isBibSpace c = true
    · cases b with
      | true => simpa [compressGo, hc] using ih true
      | false =>
        rw [show compressGo false (c :: r) = ' ' :: compressGo true r by
          simp [compressGo, hc]]
        cases he : compressGo true r with
        | nil => simp [hasDoubleSpace]
        | cons d y =>
          have hd : (d == ' ') = false := by
            apply compressGo_true_head r
            rw [he]
            rfl
          have := ih true
          rw [he] at this
          simp [hasDoubleSpace, hd, this]
    · simp only [Bool.not_eq_true] at hc
      rw [show compressGo b (c :: r) = c :: compressGo false r by
        simp [compressGo, hc]]
      have hcs : (c == ' ') = false := by
        cases hcc : c == ' '
        · rfl
        · simp only [beq_iff_eq] at hcc
          subst hcc
          simp [isBibSpace] at hc
      cases he : compressGo false r with
      | nil => simp [hasDoubleSpace]
      | cons d y =>
        have := ih false
        rw [he] at this
        simp [hasDoubleSpace, hcs, this]

/-- A double space in part of a list is a double space in the whole. -/
theorem hasDoubleSpace_cons (a : Char) (t : LChar)
    (h : hasDoubleSpace t = true) : hasDoubleSpace (a :: t) = true := by
  cases t with
  | nil => simp [hasDoubleSpace] at h
  | cons b y => simp [hasDoubleSpace, h]

/-- A double space in an infix is a double space in the whole list. -/
theorem hasDoubleSpace_infix (m l : LChar) (h : m <:+: l)
    (hl : hasDoubleSpace l = false) : hasDoubleSpace m = false := by
  rcases h with ⟨u, v, rfl⟩
  cases hm : hasDoubleSpace m with
  | false => rfl
  | true =>
    exfalso
    have hmv : hasDoubleSpace (m ++ v) = true := by
      clear hl
      induction m with
      | nil => simp [hasDoubleSpace] at hm
      | cons a t ih =>
        cases t with
        | nil => simp [hasDoubleSpace] at hm
        | cons b y =>
          simp only [hasDoubleSpace, Bool.or_eq_true] at hm
          rcases hm with hm | hm
          · simp [List.cons_append, hasDoubleSpace, hm]
          · have := ih hm
            exact hasDoubleSpace_cons _ _ this
    have huv : hasDoubleSpace (u ++ (m ++ v)) = true := by
      clear hl
      induction u with
      | nil => simpa using hmv
      | cons a t ih => exact hasDoubleSpace_cons _ _ ih
    rw [List.append_assoc] at hl
    rw [huv] at hl
    exact absurd hl (by simp)

/-- C7: the assembled field value is normalised exactly as the claim
says: (1) the compression step realises the spec's collapse relation
(every run of space/tab/newline within the value becomes one space);
(2) the strip step removes exactly leading and trailing spaces;
(3) a value with no leading/trailing space — in particular one with
leading or trailing tabs or newlines — is left unchanged by the strip;
and consequently every value produced by `_scan_field_value` is the strip
of a compression and contains no tab, no newline, no double space, and no
leading or trailing space. -/
theorem C7_value_whitespace
    (fuel : Nat) (l : LChar) (st : PSt) (v : BibValue) (r : LChar) (st' : PSt)
    (h : scanFieldValue fuel l st = .ok (v, r, st')) :
    (∀ s, Collapse s (compress s))
    ∧ (∀ s, ∃ n m, s = List.replicate n ' ' ++ stripSpaces s ++ List.replicate m ' ')
    ∧ (∀ s, s.head? ≠ some ' ' → s.getLast? ≠ some ' ' → stripSpaces s = s)
    ∧ (∃ w, v.text = stripSpaces (compress w))
    ∧ ¬('\t' ∈ v.text) ∧ ¬('\n' ∈ v.text)
    ∧ hasDoubleSpace v.text = false
    ∧ v.text.head? ≠ some ' ' ∧ v.text.getLast? ≠ some ' ' := by
  have hw : ∃ w, v.text = stripSpaces (compress w) := by
    rw [scanFieldValue] at h
    cases hp : scanFieldPiece l st with
    | error e => rw [hp] at h; simp at h
    | ok trip =>
      obtain ⟨p, r1, st1⟩ := trip
      rw [hp] at h
      simp only at h
      cases hm : scanMorePieces fuel p r1 st1 with
      | error e => rw [hm] at h; simp at h
      | ok out =>
        obtain ⟨vv, r2, st2⟩ := out
        rw [hm] at h
        simp only [Except.ok.injEq, Prod.mk.injEq] at h
        exact ⟨vv.text, by rw [← h.1]⟩
  obtain ⟨w, hwv⟩ := hw
  refine ⟨collapse_compress, stripSpaces_decomp, stripSpaces_id, ⟨w, hwv⟩,
    ?_, ?_, ?_, ?_, ?_⟩
  · rw [hwv]
    intro hmem
    exact (compressGo_no_tab_nl false w).1
      (((stripSpaces_inner (compress w)).sublist).mem hmem)
  · rw [hwv]
    intro hmem
    exact (compressGo_no_tab_nl false w).2
      (((stripSpaces_inner (compress w)).sublist).mem hmem)
  · rw [hwv]
    exact hasDoubleSpace_infix _ _ (stripSpaces_inner (compress w))
      (compressGo_noDoubleSpace w false)
  · rw [hwv]
    intro heq
    have := stripSpaces_head (compress w) ' ' heq
    simp at this
  · rw [hwv]
    intro heq
    have := stripSpaces_getLast (compress w) ' ' heq
    simp at this

/-- C7 witness: the general statement applied at a concrete braced value
containing an internal space-tab-space run. -/
theorem C7_value_whitespace_witness :
    (∀ s, Collapse s (compress s))
    ∧ (∀ s, ∃ n m, s = List.replicate n ' ' ++ stripSpaces s ++ List.replicate m ' ')
    ∧ (∀ s, s.head? ≠ some ' ' → s.getLast? ≠ some ' ' → stripSpaces s = s)
    ∧ (∃ w, (⟨none, lc "a b"⟩ : BibValue).text = stripSpaces (compress w))
    ∧ ¬('\t' ∈ (⟨none, lc "a b"⟩ : BibValue).text)
    ∧ ¬('\n' ∈ (⟨none, lc "a b"⟩ : BibValue).text)
    ∧ hasDoubleSpace (⟨none, lc "a b"⟩ : BibValue).text = false
    ∧ (⟨none, lc "a b"⟩ : BibValue).text.head? ≠ some ' '
    ∧ (⟨none, lc "a b"⟩ : BibValue).text.getLast? ≠ some ' ' :=
  C7_value_whitespace 5 (lc "\x7ba \t b\x7d") ⟨[], true, []⟩
    ⟨none, lc "a b"⟩ [] ⟨[], true, []⟩ (by decide)

/-- Invariant of the right fold: the flag tracks whether the remainder
starts with a newline (or is empty), and the output is clean. -/
theorem stripTrailing_invariant (l : LChar) :
    (l.foldr stripTrailStep (true, [])).1
      = newlineFlag (l.foldr stripTrailStep (true, [])).2
    ∧ trailClean (l.foldr stripTrailStep (true, [])).2 = true := by
  induction l with
  | nil => exact ⟨rfl, rfl⟩
  | cons c r ih =>
    rw [List.foldr_cons]
    by_cases h : ((c == ' ' || c == '\t') && (r.foldr stripTrailStep (true, [])).1) = true
    · rw [stripTrailStep, if_pos h]
      exact ih
    · rw [stripTrailStep, if_neg h]
      refine ⟨rfl, ?_⟩
      cases hs : (r.foldr stripTrailStep (true, [])).2 with
      | nil =>
        have h1 : (r.foldr stripTrailStep (true, [])).1 = true := by
          rw [ih.1, hs]; rfl
        rw [h1] at h
        simp only [Bool.and_true] at h
        simp only [trailClean]
        simpa using h
      | cons d y =>
        have h2 := ih.2
        rw [hs] at h2
        simp only [trailClean, Bool.and_eq_true]
        refine ⟨?_, h2⟩
        by_cases hsp : (c == ' ' || c == '\t') = true
        · rw [hsp] at h
          simp only [Bool.true_and] at h
          have h1 := ih.1
          rw [hs] at h1
          simp only [newlineFlag] at h1
          rw [← h1]
          simp only [Bool.not_eq_true] at h
          simp [hsp, h]
        · simp only [Bool.not_eq_true] at hsp
          simp [hsp]

/-- The preprocessing only deletes characters. -/
theorem stripTrailing_sublist (l : LChar) : (stripTrailing l).Sublist l := by
  induction l with
  | nil => simp [stripTrailing]
  | cons c r ih =>
    rw [stripTrailing, List.foldr_cons]
    by_cases h : ((c == ' ' || c == '\t') && (r.foldr stripTrailStep (true, [])).1) = true
    · rw [stripTrailStep, if_pos h]
      exact ih.trans (List.sublist_cons_self c r)
    · rw [stripTrailStep, if_neg h]
      exact ih.cons₂ c

/-- A clean input is a fixed point of the fold. -/
theorem stripTrailing_fix_aux (l : LChar) (h : trailClean l = true) :
    l.foldr stripTrailStep (true, []) = (newlineFlag l, l) := by
  induction l with
  | nil => rfl
  | cons c r ih =>
    have hr : trailClean r = true := by
      cases r with
      | nil => rfl
      | cons d y =>
        simp only [trailClean, Bool.and_eq_true] at h
        exact h.2
    rw [List.foldr_cons, ih hr]
    have hcond : ((c == ' ' || c == '\t') && newlineFlag r) = false := by
      cases r with
      | nil =>
        simp only [trailClean] at h
        simp only [newlineFlag, Bool.and_true]
        simpa using h
      | cons d y =>
        simp only [trailClean, Bool.and_eq_true] at h
        simp only [newlineFlag]
        cases hb : ((c == ' ' || c == '\t') && (d == '\n')) with
        | false => rfl
        | true =>
          have h1 := h.1
          rw [hb] at h1
          simp at h1
    rw [stripTrailStep, if_neg (by rw [hcond]; simp)]
    rfl

/-- A clean input is unchanged by the preprocessing. -/
theorem stripTrailing_fix (l : LChar) (h : trailClean l = true) :
    stripTrailing l = l := by
  rw [stripTrailing, stripTrailing_fix_aux l h]

/-- C10: the parser preprocesses its input by deleting exactly the runs of
spaces and tabs that immediately precede a newline or the end of the
input — the deletion only removes characters, its output is free of such
runs, and inputs already free of them are untouched — and two inputs with
the same preprocessed form parse to identical documents with identical
warnings; concretely a trailing space inside a braced value at the end of
a line is removed, giving the same parse as the input without it. -/
theorem C10_trailing_ws
    (s1 s2 : LChar) (macros : List (LChar × LChar)) (w : Bool)
    (heq : stripTrailing s1 = stripTrailing s2) :
    loads s1 macros w = loads s2 macros w
    ∧ (∀ l, (stripTrailing l).Sublist l)
    ∧ (∀ l, trailClean (stripTrailing l) = true)
    ∧ (∀ l, trailClean l = true → stripTrailing l = l)
    ∧ loads (lc "@ARTICLE\x7bk,note = \x7ba \n b\x7d\x7d") [] true
      = loads (lc "@ARTICLE\x7bk,note = \x7ba\n b\x7d\x7d") [] true := by
  refine ⟨?_, stripTrailing_sublist, fun l => (stripTrailing_invariant l).2,
    stripTrailing_fix, by decide⟩
  simp only [loads, heq]

/-- C10 witness: two inputs differing only in a trailing space before a
newline preprocess identically and parse identically. -/
theorem C10_trailing_ws_witness :
    loads (lc "@ARTICLE\x7bk,note = \x7ba \n b\x7d\x7d") [] true
      = loads (lc "@ARTICLE\x7bk,note = \x7ba\n b\x7d\x7d") [] true
    ∧ (∀ l, (stripTrailing l).Sublist l)
    ∧ (∀ l, trailClean (stripTrailing l) = true)
    ∧ (∀ l, trailClean l = true → stripTrailing l = l)
    ∧ loads (lc "@ARTICLE\x7bk,note = \x7ba \n b\x7d\x7d") [] true
      = loads (lc "@ARTICLE\x7bk,note = \x7ba\n b\x7d\x7d") [] true :=
  C10_trailing_ws (lc "@ARTICLE\x7bk,note = \x7ba \n b\x7d\x7d")
    (lc "@ARTICLE\x7bk,note = \x7ba\n b\x7d\x7d") [] true (by decide)

/-- Prepending one scanned character shifts the success condition by the
character's depth contribution. -/
theorem scanOkCond_cons (term : Char) (lvl lvl' : Nat) (c : Char) (t' : LChar)
    (hd : (lvl' : Int) = (lvl : Int) + braceDelta c)
    (h0 : ¬(((lvl : Int) = 0) ∧ (c = term ∨ c = '}'))) :
    scanOkCond term lvl (c :: t') ↔ scanOkCond term lvl' t' := by
  unfold scanOkCond
  constructor
  · rintro ⟨htot, hint⟩
    refine ⟨?_, ?_⟩
    · rw [hd]
      have : depthI (c :: t') = braceDelta c + depthI t' := rfl
      rw [this] at htot
      omega
    · intro i hi hcontra
      have hi' : i + 1 < (c :: t').length := by simpa using Nat.succ_lt_succ hi
      apply hint (i + 1) hi'
      have htake : (c :: t').take (i + 1) = c :: t'.take i := rfl
      have hget : (c :: t').get ⟨i + 1, hi'⟩ = t'.get ⟨i, hi⟩ := rfl
      rw [htake, hget]
      have : depthI (c :: t'.take i) = braceDelta c + depthI (t'.take i) := rfl
      rw [this]
      refine ⟨?_, hcontra.2⟩
      have := hcontra.1
      omega
  · rintro ⟨htot, hint⟩
    refine ⟨?_, ?_⟩
    · have : depthI (c :: t') = braceDelta c + depthI t' := rfl
      rw [this]
      omega
    · intro i hi hcontra
      cases i with
      | zero =>
        have htake : (c :: t').take 0 = ([] : LChar) := rfl
        have hget : (c :: t').get ⟨0, hi⟩ = c := rfl
        rw [htake, hget] at hcontra
        have : depthI ([] : LChar) = 0 := rfl
        rw [this] at hcontra
        exact h0 ⟨by omega, hcontra.2⟩
      | succ i =>
        have hi' : i < t'.length := by simpa using Nat.lt_of_succ_lt_succ hi
        apply hint i hi'
        have htake : (c :: t').take (i + 1) = c :: t'.take i := rfl
        have hget : (c :: t').get ⟨i + 1, hi⟩ = t'.get ⟨i, hi'⟩ := rfl
        rw [htake, hget] at hcontra
        have hdp : depthI (c :: t'.take i) = braceDelta c + depthI (t'.take i) := rfl
        rw [hdp] at hcontra
        refine ⟨?_, hcontra.2⟩
        have := hcontra.1
        omega

/-- A successful decomposition of `c :: rest` with the scan continuing is
a decomposition of `rest` at the shifted depth. -/
theorem scanRhs_cons (term c : Char) (rest t r : LChar) (lvl lvl' : Nat)
    (hd : (lvl' : Int) = (lvl : Int) + braceDelta c)
    (hne : ¬(lvl = 0 ∧ c = term))
    (h0 : ¬(((lvl : Int) = 0) ∧ (c = term ∨ c = '}'))) :
    (∃ r0, c :: rest = t ++ term :: r0 ∧ r = skipSpace r0 ∧ scanOkCond term lvl t)
    ↔ ∃ t', t = c :: t'
        ∧ ∃ r0, rest = t' ++ term :: r0 ∧ r = skipSpace r0 ∧ scanOkCond term lvl' t' := by
  constructor
  · rintro ⟨r0, hl, hr, hcond⟩
    cases t with
    | nil =>
      simp only [List.nil_append, List.cons.injEq] at hl
      exfalso
      apply hne
      refine ⟨?_, hl.1⟩
      have := hcond.1
      have hde : depthI ([] : LChar) = 0 := rfl
      rw [hde] at this
      omega
    | cons d t' =>
      simp only [List.cons_append, List.cons.injEq] at hl
      obtain ⟨hcd, hrest⟩ := hl
      subst hcd
      refine ⟨t', rfl, r0, hrest, hr, ?_⟩
      exact (scanOkCond_cons term lvl lvl' c t' hd h0).mp hcond
  · rintro ⟨t', ht, r0, hrest, hr, hcond⟩
    subst ht
    refine ⟨r0, by rw [hrest]; rfl, hr, ?_⟩
    exact (scanOkCond_cons term lvl lvl' c t' hd h0).mpr hcond

/-- Mapping the cons over a scan result. -/
theorem map_cons_ok_iff (x : Except String (LChar × LChar)) (c : Char) (t r : LChar) :
    x.map (fun p => (c :: p.1, p.2)) = .ok (t, r)
      ↔ ∃ t', t = c :: t' ∧ x = .ok (t', r) := by
  cases x with
  | error e => simp [Except.map]
  | ok p =>
    obtain ⟨p1, p2⟩ := p
    simp only [Except.map, Except.ok.injEq, Prod.mk.injEq]
    constructor
    · rintro ⟨h1, h2⟩
      exact ⟨p1, h1.symm, rfl, h2⟩
    · rintro ⟨t', ht, h1, h2⟩
      subst h1
      subst h2
      exact ⟨ht.symm, rfl⟩

/-- Characterisation of the balanced-text scan: it succeeds with text `t`
and remainder `r` exactly when the input splits as `t`, the terminator,
and a remainder whose white space is skipped, where `t` ends at depth
zero and no earlier depth-zero position of `t` holds the terminator or a
close brace. -/
theorem scanBalancedText_ok_iff (term : Char) : ∀ (l : LChar) (lvl : Nat) (t r : LChar),
    scanBalancedText term lvl l = .ok (t, r) ↔
      ∃ r0, l = t ++ term :: r0 ∧ r = skipSpace r0 ∧ scanOkCond term lvl t := by
  intro l
  induction l with
  | nil =>
    intro lvl t r
    constructor
    · intro h; simp [scanBalancedText] at h
    · rintro ⟨r0, hl, _, _⟩
      exact absurd hl (by simp)
  | cons c rest ih =>
    intro lvl t r
    rw [scanBalancedText]
    by_cases hB1 : (lvl == 0 && c == term) = true
    · rw [if_pos hB1]
      simp only [Bool.and_eq_true, beq_iff_eq] at hB1
      obtain ⟨hlvl, hc⟩ := hB1
      subst hc
      subst hlvl
      constructor
      · intro h
        simp only [Except.ok.injEq, Prod.mk.injEq] at h
        obtain ⟨ht, hr⟩ := h
        subst ht
        refine ⟨rest, rfl, hr.symm, ?_, ?_⟩
        · simp [depthI]
        · intro i hi
          simp at hi
      · rintro ⟨r0, hl, hr, hcond⟩
        cases t with
        | nil =>
          simp only [List.nil_append, List.cons.injEq] at hl
          rw [hr, hl.2]
        | cons d t' =>
          exfalso
          simp only [List.cons_append, List.cons.injEq] at hl
          apply hcond.2 0 (by simp)
          constructor
          · simp [depthI]
          · exact Or.inl hl.1.symm
    · rw [if_neg hB1]
      have hne : ¬(lvl = 0 ∧ c = term) := by
        rintro ⟨h1, h2⟩
        apply hB1
        simp [h1, h2]
      by_cases hbr : (c == '{') = true
      · rw [if_pos hbr]
        simp only [beq_iff_eq] at hbr
        have hd : ((lvl + 1 : Nat) : Int) = (lvl : Int) + braceDelta c := by
          rw [hbr]; simp [braceDelta]
        have h0 : ¬(((lvl : Int) = 0) ∧ (c = term ∨ c = '}')) := by
          rintro ⟨hl0, hor⟩
          rcases hor with hor | hor
          · exact hne ⟨by exact_mod_cast hl0, hor⟩
          · rw [hbr] at hor; exact absurd hor (by decide)
        refine (map_cons_ok_iff _ c t r).trans ?_
        refine (exists_congr fun t' => and_congr_right fun _ => ih (lvl + 1) t' r).trans ?_
        exact (scanRhs_cons term c rest t r lvl (lvl + 1) hd hne h0).symm
      · rw [if_neg hbr]
        by_cases hcb : (c == '}') = true
        · rw [if_pos hcb]
          simp only [beq_iff_eq] at hcb
          by_cases hl0 : (lvl == 0) = true
          · rw [if_pos hl0]
            simp only [beq_iff_eq] at hl0
            subst hl0
            constructor
            · intro h; exact absurd h (by simp)
            · rintro ⟨r0, hl, hr, hcond⟩
              exfalso
              cases t with
              | nil =>
                simp only [List.nil_append, List.cons.injEq] at hl
                exact hne ⟨rfl, hl.1⟩
              | cons d t' =>
                simp only [List.cons_append, List.cons.injEq] at hl
                apply hcond.2 0 (by simp)
                refine ⟨by simp [depthI], Or.inr ?_⟩
                have hdd : d = '}' := by rw [← hl.1]; exact hcb
                exact hdd
          · rw [if_neg hl0]
            simp only [beq_iff_eq] at hl0
            have hd : ((lvl - 1 : Nat) : Int) = (lvl : Int) + braceDelta c := by
              have hnz : lvl ≠ 0 := by simpa using hl0
              have hb : braceDelta '}' = -1 := by decide
              rw [hcb, hb]
              omega
            have h0 : ¬(((lvl : Int) = 0) ∧ (c = term ∨ c = '}')) := by
              rintro ⟨hz, _⟩
              exact hl0 (by exact_mod_cast hz)
            refine (map_cons_ok_iff _ c t r).trans ?_
            refine (exists_congr fun t' => and_congr_right fun _ => ih (lvl - 1) t' r).trans ?_
            exact (scanRhs_cons term c rest t r lvl (lvl - 1) hd hne h0).symm
        · rw [if_neg hcb]
          simp only [beq_iff_eq] at hbr hcb
          have hd : ((lvl : Nat) : Int) = (lvl : Int) + braceDelta c := by
            simp [braceDelta, hbr, hcb]
          have h0 : ¬(((lvl : Int) = 0) ∧ (c = term ∨ c = '}')) := by
            rintro ⟨hz, hor⟩
            rcases hor with hor | hor
            · exact hne ⟨by exact_mod_cast hz, hor⟩
            · exact hcb hor
          refine (map_cons_ok_iff _ c t r).trans ?_
          refine (exists_congr fun t' => and_congr_right fun _ => ih lvl t' r).trans ?_
          exact (scanRhs_cons term c rest t r lvl lvl hd hne h0).symm

/-- The balanced scan fails exactly when no valid decomposition exists:
when a close brace stands at depth zero before any depth-zero terminator,
or the input ends before a depth-zero terminator. -/
theorem scanBalancedText_error_iff (term : Char) (l : LChar) :
    (∃ e, scanBalancedText term 0 l = .error e) ↔
      ¬∃ t r0, l = t ++ term :: r0 ∧ scanOkCond term 0 t := by
  constructor
  · rintro ⟨e, he⟩ ⟨t, r0, hl, hcond⟩
    have : scanBalancedText term 0 l = .ok (t, skipSpace r0) :=
      (scanBalancedText_ok_iff term l 0 t (skipSpace r0)).mpr ⟨r0, hl, rfl, hcond⟩
    rw [he] at this
    exact absurd this (by simp)
  · intro hno
    cases hs : scanBalancedText term 0 l with
    | error e => exact ⟨e, rfl⟩
    | ok p =>
      exfalso
      obtain ⟨p1, p2⟩ := p
      obtain ⟨r0, hl, _, hcond⟩ := (scanBalancedText_ok_iff term l 0 p1 p2).mp hs
      exact hno ⟨p1, r0, hl, hcond⟩

/-- C8: the terminator of the balanced scan is honoured only at brace
depth zero — success means the text before the terminator has no earlier
depth-zero terminator and no depth-zero close brace and ends at depth
zero — and the scan raises a fatal error exactly when no such
decomposition exists (a close brace at depth zero, or end of input before
the terminator).  Concretely, the two failure modes are exercised, and
`@ARTICLE{k, title = {unterminated}` with its missing closing brace makes
the whole parse fail with a fatal error and no partial document. -/
theorem C8_balanced_scan
    (term : Char) (l : LChar) (lvl : Nat) (t r : LChar) :
    (scanBalancedText term lvl l = .ok (t, r) ↔
      ∃ r0, l = t ++ term :: r0 ∧ r = skipSpace r0 ∧ scanOkCond term lvl t)
    ∧ ((∃ e, scanBalancedText term 0 l = .error e) ↔
        ¬∃ t0 r0, l = t0 ++ term :: r0 ∧ scanOkCond term 0 t0)
    ∧ scanBalancedText '"' 0 (lc "abc") = .error "unterminated string"
    ∧ scanBalancedText '"' 0 (lc "a\x7db") = .error "unexpected \x7d"
    ∧ loads (lc "@ARTICLE\x7bk, title = \x7bunterminated\x7d") [] true
      = .error "expected close delimiter or ," :=
  ⟨scanBalancedText_ok_iff term l lvl t r, scanBalancedText_error_iff term l,
   by decide, by decide, by decide⟩

/-- C1 counterexample: the input `@STRING{q = {a"b}}` parses, and
formatting yields `@STRING{q = "a"b"}` followed by a newline; but parsing
that formatted text fails with a fatal error (the embedded quote ends the
quoted value early), so formatting the result of parsing the formatted
text does not — and cannot — reproduce it byte-identically. -/
theorem C1_counterexample :
    parseFormat (lc "@STRING\x7bq = \x7ba\"b\x7d\x7d") [] true
      = .ok (lc "@STRING\x7bq = \"a\"b\"\x7d\n")
    ∧ parseFormat (lc "@STRING\x7bq = \"a\"b\"\x7d\n") [] true
      = .error "expected close delimiter" := by
  exact ⟨by decide, by decide⟩

/-! Tokenizer lemmas on rendered text. -/

/-- `takeWhile`/`dropWhile` across an append whose first part satisfies
the predicate throughout and whose second part starts by failing it. -/
theorem takeWhile_all_append (p : Char → Bool) (xs ys : LChar)
    (hx : xs.all p = true) (hy : ∀ c, ys.head? = some c → p c = false) :
    (xs ++ ys).takeWhile p = xs ∧ (xs ++ ys).dropWhile p = ys := by
  induction xs with
  | nil =>
    cases ys with
    | nil => exact ⟨rfl, rfl⟩
    | cons c r =>
      have hc := hy c rfl
      constructor
      · simp [List.takeWhile_cons, hc]
      · simp [List.dropWhile_cons, hc]
  | cons a xs ih =>
    simp only [List.all_cons, Bool.and_eq_true] at hx
    have h2 := ih hx.2
    constructor
    · simp only [List.cons_append, List.takeWhile_cons, hx.1, if_true]
      rw [h2.1]
    · simp only [List.cons_append, List.dropWhile_cons, hx.1, if_true]
      exact h2.2

/-- `skipSpace` removes a leading all-white-space prefix before non-white
space. -/
theorem skipSpace_ws_append (ws rest : LChar)
    (hws : ∀ c ∈ ws, isBibSpace c = true)
    (hr : ∀ c, rest.head? = some c → isBibSpace c = false) :
    skipSpace (ws ++ rest) = rest := by
  unfold skipSpace
  exact (takeWhile_all_append isBibSpace ws rest (by
    rw [List.all_eq_true]
    intro x hx
    exact hws x hx) hr).2

/-- `skipSpace` is the identity on text not starting with white space. -/
theorem skipSpace_nonws (l : LChar)
    (h : ∀ c, l.head? = some c → isBibSpace c = false) : skipSpace l = l := by
  have := skipSpace_ws_append [] l (by intro c hc; simp at hc) h
  simpa using this

/-- One-token scan hits exactly the expected character. -/
theorem tryTok1_cons_self (t : Char) (r : LChar) :
    tryTok1 t (t :: r) = some (skipSpace r) := by
  simp [tryTok1]

/-- One-token scan fails on any other head. -/
theorem tryTok1_head_ne (t : Char) (l : LChar)
    (h : ∀ c, l.head? = some c → ¬(c = t)) : tryTok1 t l = none := by
  cases l with
  | nil => rfl
  | cons c r =>
    have := h c rfl
    simp [tryTok1, this]

/-- One-token no-space scan hits exactly the expected character. -/
theorem tryTok1NS_cons_self (t : Char) (r : LChar) :
    tryTok1NS t (t :: r) = some r := by
  simp [tryTok1NS]

/-- One-token no-space scan fails on any other head. -/
theorem tryTok1NS_head_ne (t : Char) (l : LChar)
    (h : ∀ c, l.head? = some c → ¬(c = t)) : tryTok1NS t l = none := by
  cases l with
  | nil => rfl
  | cons c r =>
    have := h c rfl
    simp [tryTok1NS, this]

/-- The identifier scanner consumes exactly a rendered identifier. -/
theorem tryId_append (id0 rest : LChar) (hid : validId id0 = true)
    (hrest : ∀ c, rest.head? = some c → isIdChar c = false) :
    tryId (id0 ++ rest) = some (id0, skipSpace rest) := by
  cases id0 with
  | nil => simp [validId] at hid
  | cons c cs =>
    simp only [validId, Bool.and_eq_true] at hid
    obtain ⟨⟨h1, h2⟩, h3⟩ := hid
    have hsplit := takeWhile_all_append isIdChar cs rest h3 hrest
    show tryId (c :: (cs ++ rest)) = _
    simp only [tryId]
    rw [if_pos (by simp [h1, h2])]
    rw [hsplit.1, hsplit.2]

/-- The identifier scanner fails when the head is not an identifier
character or is a digit. -/
theorem tryId_none (l : LChar)
    (h : ∀ c, l.head? = some c → (isIdChar c && !c.isDigit) = false) :
    tryId l = none := by
  cases l with
  | nil => rfl
  | cons c r =>
    have := h c rfl
    simp [tryId, this]

/-- The digit scanner consumes exactly a rendered digit run. -/
theorem tryDigits_append (ds rest : LChar) (hne : ds ≠ [])
    (hall : ds.all Char.isDigit = true)
    (hrest : ∀ c, rest.head? = some c → c.isDigit = false) :
    tryDigits (ds ++ rest) = some (ds, skipSpace rest) := by
  have hsplit := takeWhile_all_append Char.isDigit ds rest hall hrest
  unfold tryDigits
  rw [hsplit.1, hsplit.2]
  cases ds with
  | nil => exact absurd rfl hne
  | cons d ds' => rfl

/-- The digit scanner fails when the head is not a digit. -/
theorem tryDigits_none (l : LChar)
    (h : ∀ c, l.head? = some c → c.isDigit = false) : tryDigits l = none := by
  cases l with
  | nil => rfl
  | cons c r =>
    have := h c rfl
    unfold tryDigits
    rw [List.takeWhile_cons, this]
    simp

/-- The delimiter scanner hits a brace. -/
theorem tryDelim_brace (r : LChar) : tryDelim ('{' :: r) = some ('{', skipSpace r) := by
  simp [tryDelim]

/-! From the boolean brace check to the balanced-scan success condition. -/

/-- Brace depth is additive over appends. -/
theorem depthI_append (a b : LChar) : depthI (a ++ b) = depthI a + depthI b := by
  induction a with
  | nil => simp [depthI]
  | cons c r ih => simp [depthI, ih, add_assoc]

/-- The boolean brace check gives the depth facts of the success
condition: total depth zero, all prefix depths non-negative, and no close
brace at a depth-zero position. -/
theorem braceOk_props : ∀ (t : LChar) (lvl : Nat), braceOkB lvl t = true →
    ((lvl : Int) + depthI t = 0)
    ∧ (∀ i, 0 ≤ (lvl : Int) + depthI (t.take i))
    ∧ (∀ i, ∀ hi : i < t.length,
        (lvl : Int) + depthI (t.take i) = 0 → ¬(t.get ⟨i, hi⟩ = '}')) := by
  intro t
  induction t with
  | nil =>
    intro lvl h
    simp only [braceOkB, beq_iff_eq] at h
    subst h
    refine ⟨by simp [depthI], ?_, ?_⟩
    · intro i; simp [depthI]
    · intro i hi; simp at hi
  | cons c r ih =>
    intro lvl h
    rw [braceOkB] at h
    by_cases hc : (c == '{') = true
    · rw [if_pos hc] at h
      simp only [beq_iff_eq] at hc
      have hp := ih (lvl + 1) h
      have hδ : braceDelta c = 1 := by rw [hc]; rfl
      refine ⟨?_, ?_, ?_⟩
      · have := hp.1
        have hd : depthI (c :: r) = braceDelta c + depthI r := rfl
        rw [hd, hδ]
        push_cast at this ⊢
        omega
      · intro i
        cases i with
        | zero => simp [depthI]
        | succ i =>
          have := hp.2.1 i
          have ht : (c :: r).take (i + 1) = c :: r.take i := rfl
          rw [ht]
          have hd : depthI (c :: r.take i) = braceDelta c + depthI (r.take i) := rfl
          rw [hd, hδ]
          push_cast at this ⊢
          omega
      · intro i hi hz
        cases i with
        | zero =>
          intro hcc
          rw [show (c :: r).get ⟨0, hi⟩ = c from rfl] at hcc
          rw [hcc] at hc
          exact absurd hc (by decide)
        | succ i =>
          have hi' : i < r.length := by simpa using Nat.lt_of_succ_lt_succ hi
          have ht : (c :: r).take (i + 1) = c :: r.take i := rfl
          rw [ht] at hz
          have hd : depthI (c :: r.take i) = braceDelta c + depthI (r.take i) := rfl
          rw [hd, hδ] at hz
          have hz' : ((lvl + 1 : Nat) : Int) + depthI (r.take i) = 0 := by
            push_cast at hz ⊢
            omega
          have := hp.2.2 i hi' hz'
          rw [show (c :: r).get ⟨i + 1, hi⟩ = r.get ⟨i, hi'⟩ from rfl]
          exact this
    · rw [if_neg hc] at h
      by_cases hb : (c == '}') = true
      · rw [if_pos hb] at h
        simp only [beq_iff_eq] at hb
        by_cases hl : (lvl == 0) = true
        · rw [if_pos hl] at h
          exact absurd h (by simp)
        · rw [if_neg hl] at h
          simp only [beq_iff_eq] at hl
          have hp := ih (lvl - 1) h
          have hδ : braceDelta c = -1 := by rw [hb]; rfl
          have hlvl : 1 ≤ lvl := Nat.one_le_iff_ne_zero.mpr hl
          refine ⟨?_, ?_, ?_⟩
          · have := hp.1
            have hd : depthI (c :: r) = braceDelta c + depthI r := rfl
            rw [hd, hδ]
            omega
          · intro i
            cases i with
            | zero => simp [depthI]
            | succ i =>
              have := hp.2.1 i
              have ht : (c :: r).take (i + 1) = c :: r.take i := rfl
              rw [ht]
              have hd : depthI (c :: r.take i) = braceDelta c + depthI (r.take i) := rfl
              rw [hd, hδ]
              omega
          · intro i hi hz
            cases i with
            | zero =>
              intro _
              simp only [List.take_zero, depthI] at hz
              omega
            | succ i =>
              have hi' : i < r.length := by simpa using Nat.lt_of_succ_lt_succ hi
              have ht : (c :: r).take (i + 1) = c :: r.take i := rfl
              rw [ht] at hz
              have hd : depthI (c :: r.take i) = braceDelta c + depthI (r.take i) := rfl
              rw [hd, hδ] at hz
              have hz' : ((lvl - 1 : Nat) : Int) + depthI (r.take i) = 0 := by omega
              have := hp.2.2 i hi' hz'
              rw [show (c :: r).get ⟨i + 1, hi⟩ = r.get ⟨i, hi'⟩ from rfl]
              exact this
      · rw [if_neg hb] at h
        simp only [beq_iff_eq] at hc hb
        have hp := ih lvl h
        have hδ : braceDelta c = 0 := by simp [braceDelta, hc, hb]
        refine ⟨?_, ?_, ?_⟩
        · have := hp.1
          have hd : depthI (c :: r) = braceDelta c + depthI r := rfl
          rw [hd, hδ]
          omega
        · intro i
          cases i with
          | zero => simp [depthI]
          | succ i =>
            have := hp.2.1 i
            have ht : (c :: r).take (i + 1) = c :: r.take i := rfl
            rw [ht]
            have hd : depthI (c :: r.take i) = braceDelta c + depthI (r.take i) := rfl
            rw [hd, hδ]
            omega
        · intro i hi hz
          cases i with
          | zero =>
            intro hcc
            rw [show (c :: r).get ⟨0, hi⟩ = c from rfl] at hcc
            exact hb hcc
          | succ i =>
            have hi' : i < r.length := by simpa using Nat.lt_of_succ_lt_succ hi
            have ht : (c :: r).take (i + 1) = c :: r.take i := rfl
            rw [ht] at hz
            have hd : depthI (c :: r.take i) = braceDelta c + depthI (r.take i) := rfl
            rw [hd, hδ] at hz
            have hz' : (lvl : Int) + depthI (r.take i) = 0 := by omega
            have := hp.2.2 i hi' hz'
            rw [show (c :: r).get ⟨i + 1, hi⟩ = r.get ⟨i, hi'⟩ from rfl]
            exact this

/-- A balanced text scans successfully up to a closing brace. -/
theorem scanOkCond_brace (t : LChar) (h : braceOkB 0 t = true) :
    scanOkCond '}' 0 t := by
  have hp := braceOk_props t 0 h
  refine ⟨by simpa using hp.1, ?_⟩
  intro i hi hcontra
  have hz : (0 : Int) + depthI (t.take i) = 0 := hcontra.1
  rcases hcontra.2 with hc | hc
  · exact hp.2.2 i hi hz hc
  · exact hp.2.2 i hi hz hc

/-- A balanced, quote-free text scans successfully up to a closing
quote. -/
theorem scanOkCond_quote (t : LChar) (h : braceOkB 0 t = true)
    (hq : ¬('"' ∈ t)) : scanOkCond '"' 0 t := by
  have hp := braceOk_props t 0 h
  refine ⟨by simpa using hp.1, ?_⟩
  intro i hi hcontra
  rcases hcontra.2 with hc | hc
  · exact hq (hc ▸ t.get_mem i hi)
  · exact hp.2.2 i hi hcontra.1 hc

/-- A brace-wrapped balanced text scans successfully up to a closing
quote: inside the outer braces the depth never returns to zero. -/
theorem scanOkCond_wrapped (t : LChar) (h : braceOkB 0 t = true) :
    scanOkCond '"' 0 ('{' :: (t ++ ['}'])) := by
  have hp := braceOk_props t 0 h
  rw [scanOkCond_cons '"' 0 1 '{' (t ++ ['}']) (by simp [braceDelta]) (by
    rintro ⟨_, hor⟩
    rcases hor with hh | hh <;> exact absurd hh (by decide))]
  constructor
  · rw [depthI_append]
    have h1 := hp.1
    have : depthI ['}'] = -1 := rfl
    rw [this]
    omega
  · intro i hi hcontra
    by_cases hlt : i < t.length
    · have ht : (t ++ ['}']).take i = t.take i :=
        List.take_append_of_le_length (Nat.le_of_lt hlt)
      rw [ht] at hcontra
      have := hp.2.1 i
      have hz := hcontra.1
      omega
    · have hieq : i = t.length := by
        have : i < t.length + 1 := by simpa using hi
        omega
      subst hieq
      have ht : (t ++ ['}']).take t.length = t := by
        rw [List.take_append_of_le_length le_rfl]
        exact List.take_length t
      rw [ht] at hcontra
      have hz := hcontra.1
      have h1 := hp.1
      omega

/-- The balanced scan consumes a rendered braced value exactly. -/
theorem scanBalanced_brace (t rest : LChar) (h : braceOkB 0 t = true) :
    scanBalancedText '}' 0 (t ++ '}' :: rest) = .ok (t, skipSpace rest) :=
  (scanBalancedText_ok_iff '}' _ 0 t _).mpr ⟨rest, rfl, rfl, scanOkCond_brace t h⟩

/-- The balanced scan consumes a rendered quoted value exactly. -/
theorem scanBalanced_quote (t rest : LChar) (h : braceOkB 0 t = true)
    (hq : ¬('"' ∈ t)) :
    scanBalancedText '"' 0 (t ++ '"' :: rest) = .ok (t, skipSpace rest) :=
  (scanBalancedText_ok_iff '"' _ 0 t _).mpr ⟨rest, rfl, rfl, scanOkCond_quote t h hq⟩

/-- The balanced scan consumes a rendered brace-wrapped quoted value
exactly. -/
theorem scanBalanced_wrapped (t rest : LChar) (h : braceOkB 0 t = true) :
    scanBalancedText '"' 0 (('{' :: (t ++ ['}'])) ++ '"' :: rest)
      = .ok ('{' :: (t ++ ['}']), skipSpace rest) :=
  (scanBalancedText_ok_iff '"' _ 0 _ _).mpr ⟨rest, rfl, rfl, scanOkCond_wrapped t h⟩

/-! Normalised texts are fixed points of the normalisation. -/

/-- Double spaces do not appear in a tail if not in the list. -/
theorem hasDoubleSpace_tail (c : Char) (r : LChar)
    (h : hasDoubleSpace (c :: r) = false) : hasDoubleSpace r = false := by
  cases r with
  | nil => rfl
  | cons d y =>
    simp only [hasDoubleSpace, Bool.or_eq_false_iff] at h
    exact h.2

/-- A list with no white-space-run irregularities is fixed by the
compressor. -/
theorem compress_id_aux : ∀ (t : LChar), ¬('\t' ∈ t) → ¬('\n' ∈ t) →
    hasDoubleSpace t = false →
    (compressGo false t = t ∧ (t.head? ≠ some ' ' → compressGo true t = t)) := by
  intro t
  induction t with
  | nil => intro _ _ _; exact ⟨rfl, fun _ => rfl⟩
  | cons c r ih =>
    intro ht hn hd
    have ht' : ¬('\t' ∈ r) := fun hm => ht (List.mem_cons_of_mem c hm)
    have hn' : ¬('\n' ∈ r) := fun hm => hn (List.mem_cons_of_mem c hm)
    have hd' : hasDoubleSpace r = false := hasDoubleSpace_tail c r hd
    have ihr := ih ht' hn' hd'
    by_cases hsp : c = ' '
    · subst hsp
      have hrh : r.head? ≠ some ' ' := by
        intro hh
        cases r with
        | nil => simp at hh
        | cons d y =>
          simp only [List.head?_cons, Option.some.injEq] at hh
          subst hh
          simp [hasDoubleSpace] at hd
      have hr := ihr.2 hrh
      constructor
      · show compressGo false (' ' :: r) = ' ' :: r
        simp [compressGo, isBibSpace, hr]
      · intro hh
        simp at hh
    · have hcb : isBibSpace c = false := by
        simp only [isBibSpace]
        have h1 : ¬(c = '\t') := fun he => ht (he ▸ List.mem_cons_self c r)
        have h2 : ¬(c = '\n') := fun he => hn (he ▸ List.mem_cons_self c r)
        simp [hsp, h1, h2]
      constructor
      · show (if isBibSpace c then _ else _) = _
        rw [hcb]
        simp only [Bool.false_eq_true, if_false]
        rw [ihr.1]
      · intro _
        show (if isBibSpace c then _ else _) = _
        rw [hcb]
        simp only [Bool.false_eq_true, if_false]
        rw [ihr.1]

/-- Structural facts about a normalised text. -/
theorem textClean_props (t : LChar) (h : textClean t = true) :
    ¬('\t' ∈ t) ∧ ¬('\n' ∈ t) ∧ hasDoubleSpace t = false
    ∧ t.head? ≠ some ' ' ∧ t.getLast? ≠ some ' ' := by
  have heq : stripSpaces (compress t) = t := by
    simpa [textClean] using h
  refine ⟨?_, ?_, ?_, ?_, ?_⟩
  · rw [← heq]
    intro hmem
    exact (compressGo_no_tab_nl false t).1
      ((stripSpaces_inner (compress t)).sublist.mem hmem)
  · rw [← heq]
    intro hmem
    exact (compressGo_no_tab_nl false t).2
      ((stripSpaces_inner (compress t)).sublist.mem hmem)
  · rw [← heq]
    exact hasDoubleSpace_infix _ _ (stripSpaces_inner (compress t))
      (compressGo_noDoubleSpace t false)
  · rw [← heq]
    intro hh
    have := stripSpaces_head (compress t) ' ' hh
    simp at this
  · rw [← heq]
    intro hh
    have := stripSpaces_getLast (compress t) ' ' hh
    simp at this

/-- A normalised text is fixed by the compressor alone. -/
theorem compress_id (t : LChar) (h : textClean t = true) : compress t = t := by
  have hp := textClean_props t h
  exact (compress_id_aux t hp.1 hp.2.1 hp.2.2.1).1

/-- A normalised text is fixed by the strip alone. -/
theorem stripSpaces_id_clean (t : LChar) (h : textClean t = true) :
    stripSpaces t = t := by
  have hp := textClean_props t h
  exact stripSpaces_id t hp.2.2.2.1 hp.2.2.2.2

/-- Appending a non-white-space character commutes with compression. -/
theorem compressGo_append_nonws (c : Char) (hc : isBibSpace c = false) :
    ∀ (b : Bool) (t : LChar), compressGo b (t ++ [c]) = compressGo b t ++ [c] := by
  intro b t
  induction t generalizing b with
  | nil => simp [compressGo, hc]
  | cons a r ih =>
    by_cases ha : isBibSpace a = true
    · cases b <;> simp [compressGo, ha, ih]
    · simp only [Bool.not_eq_true] at ha
      simp [compressGo, ha, ih]

/-- Wrapping a normalised text in braces keeps it normalised. -/
theorem textClean_wrapped (t : LChar) (h : textClean t = true) :
    textClean ('{' :: (t ++ ['}'])) = true := by
  have hcmp : compress ('{' :: (t ++ ['}'])) = '{' :: (t ++ ['}']) := by
    show compressGo false ('{' :: (t ++ ['}'])) = _
    have h1 : compressGo false ('{' :: (t ++ ['}']))
        = '{' :: compressGo false (t ++ ['}']) := by
      simp [compressGo, isBibSpace]
    rw [h1, compressGo_append_nonws '}' (by decide) false t]
    rw [show compressGo false t = t from compress_id t h]
  unfold textClean
  rw [hcmp]
  rw [stripSpaces_id]
  · simp
  · simp
  · rw [show ('{' :: (t ++ ['}'])) = ('{' :: t) ++ ['}'] from rfl]
    rw [List.getLast?_concat]
    simp

/-- A run of digits is a normalised text. -/
theorem textClean_digits (ds : LChar) (hall : ds.all Char.isDigit = true) :
    textClean ds = true := by
  have hnosp : ¬(' ' ∈ ds) := by
    intro hm
    rw [List.all_eq_true] at hall
    have := hall ' ' hm
    simp at this
  have hnt : ¬('\t' ∈ ds) := by
    intro hm
    rw [List.all_eq_true] at hall
    have := hall '\t' hm
    simp at this
  have hnn : ¬('\n' ∈ ds) := by
    intro hm
    rw [List.all_eq_true] at hall
    have := hall '\n' hm
    simp at this
  have hds : hasDoubleSpace ds = false := by
    clear hall
    induction ds with
    | nil => rfl
    | cons c r ih =>
      have h1 : ¬(' ' ∈ r) := fun hm => hnosp (List.mem_cons_of_mem c hm)
      have hc : ¬(c = ' ') := fun he => hnosp (he ▸ List.mem_cons_self c r)
      cases r with
      | nil => rfl
      | cons d y =>
        simp only [hasDoubleSpace, Bool.or_eq_false_iff]
        refine ⟨by simp [hc], ?_⟩
        exact ih h1 (fun hm => hnt (List.mem_cons_of_mem c hm))
          (fun hm => hnn (List.mem_cons_of_mem c hm))
  unfold textClean
  rw [show compress ds = ds from (compress_id_aux ds hnt hnn hds).1]
  rw [stripSpaces_id]
  · simp
  · intro hh
    cases ds with
    | nil => simp at hh
    | cons c r =>
      simp only [List.head?_cons, Option.some.injEq] at hh
      exact hnosp (hh ▸ List.mem_cons_self c r)
  · intro hh
    have := List.mem_of_mem_getLast? hh
    exact hnosp this

/-! Scanning rendered field values. -/

/-- A rendered braced value scans to its text. -/
theorem scanFieldPiece_braced (text rest : LChar) (st : PSt)
    (h : braceOkB 0 text = true) :
    scanFieldPiece ('{' :: (text ++ '}' :: rest)) st
      = .ok (⟨none, text⟩, skipSpace rest, st) := by
  have h1 : tryDigits ('{' :: (text ++ '}' :: rest)) = none := by
    apply tryDigits_none
    intro c hc
    simp only [List.head?_cons, Option.some.injEq] at hc
    subst hc
    decide
  unfold scanFieldPiece
  rw [h1]
  simp only
  rw [tryTok1NS_cons_self]
  simp only
  rw [scanBalanced_brace text rest h]

/-- A rendered quoted value scans to its text. -/
theorem scanFieldPiece_quoted (text rest : LChar) (st : PSt)
    (h : braceOkB 0 text = true) (hq : ¬('"' ∈ text)) :
    scanFieldPiece ('"' :: (text ++ '"' :: rest)) st
      = .ok (⟨none, text⟩, skipSpace rest, st) := by
  have h1 : tryDigits ('"' :: (text ++ '"' :: rest)) = none := by
    apply tryDigits_none
    intro c hc
    simp only [List.head?_cons, Option.some.injEq] at hc
    subst hc
    decide
  have h2 : tryTok1NS '{' ('"' :: (text ++ '"' :: rest)) = none := by
    apply tryTok1NS_head_ne
    intro c hc
    simp only [List.head?_cons, Option.some.injEq] at hc
    subst hc
    decide
  unfold scanFieldPiece
  rw [h1]
  simp only
  rw [h2]
  simp only
  rw [tryTok1NS_cons_self]
  simp only
  rw [scanBalanced_quote text rest h hq]

/-- A rendered brace-wrapped quoted value scans to the braced text. -/
theorem scanFieldPiece_wrapped (text rest : LChar) (st : PSt)
    (h : braceOkB 0 text = true) :
    scanFieldPiece ('"' :: (('{' :: (text ++ ['}'])) ++ '"' :: rest)) st
      = .ok (⟨none, '{' :: (text ++ ['}'])⟩, skipSpace rest, st) := by
  have h1 : tryDigits ('"' :: (('{' :: (text ++ ['}'])) ++ '"' :: rest)) = none := by
    apply tryDigits_none
    intro c hc
    simp only [List.head?_cons, Option.some.injEq] at hc
    subst hc
    decide
  have h2 : tryTok1NS '{' ('"' :: (('{' :: (text ++ ['}'])) ++ '"' :: rest)) = none := by
    apply tryTok1NS_head_ne
    intro c hc
    simp only [List.head?_cons, Option.some.injEq] at hc
    subst hc
    decide
  unfold scanFieldPiece
  rw [h1]
  simp only
  rw [h2]
  simp only
  rw [tryTok1NS_cons_self]
  simp only
  rw [scanBalanced_wrapped text rest h]

/-- A rendered digit run scans to itself. -/
theorem scanFieldPiece_digits (ds rest : LChar) (st : PSt)
    (hne : ds ≠ []) (hall : ds.all Char.isDigit = true)
    (hrest : ∀ c, rest.head? = some c → c.isDigit = false) :
    scanFieldPiece (ds ++ rest) st = .ok (⟨none, ds⟩, skipSpace rest, st) := by
  unfold scanFieldPiece
  rw [tryDigits_append ds rest hne hall hrest]

/-- A rendered bare macro reference scans to a tagged value holding the
resolved text; only the warnings can change. -/
theorem scanFieldPiece_idref (m rest : LChar) (st : PSt) (hm : validId m = true)
    (hrest : ∀ c, rest.head? = some c → isIdChar c = false) :
    ∃ st', scanFieldPiece (m ++ rest) st
        = .ok (⟨some m, resolveTag st.macros m⟩, skipSpace rest, st')
      ∧ st'.macros = st.macros ∧ st'.warnMacros = st.warnMacros := by
  obtain ⟨c, cs, rfl⟩ : ∃ c cs, m = c :: cs := by
    cases m with
    | nil => simp [validId] at hm
    | cons c cs => exact ⟨c, cs, rfl⟩
  have hm' := hm
  simp only [validId, Bool.and_eq_true] at hm'
  obtain ⟨⟨hc1, hc2⟩, _⟩ := hm'
  have h1 : tryDigits ((c :: cs) ++ rest) = none := by
    apply tryDigits_none
    intro d hd
    simp only [List.cons_append, List.head?_cons, Option.some.injEq] at hd
    subst hd
    simpa using hc2
  have h2 : tryTok1NS '{' ((c :: cs) ++ rest) = none := by
    apply tryTok1NS_head_ne
    intro d hd
    simp only [List.cons_append, List.head?_cons, Option.some.injEq] at hd
    subst hd
    intro he
    rw [he] at hc1
    exact absurd hc1 (by decide)
  have h3 : tryTok1NS '"' ((c :: cs) ++ rest) = none := by
    apply tryTok1NS_head_ne
    intro d hd
    simp only [List.cons_append, List.head?_cons, Option.some.injEq] at hd
    subst hd
    intro he
    rw [he] at hc1
    exact absurd hc1 (by decide)
  have h4 := tryId_append (c :: cs) rest hm hrest
  unfold scanFieldPiece
  rw [h1]
  simp only
  rw [h2]
  simp only
  rw [h3]
  simp only
  rw [h4]
  simp only
  unfold resolveTag
  cases hlook : pyGet? st.macros (asciiLowerL (c :: cs)) with
  | some w =>
    exact ⟨st, rfl, rfl, rfl⟩
  | none =>
    cases hw : st.warnMacros with
    | true =>
      refine ⟨st.warn (.unknownRef (c :: cs)), by simp, rfl, hw⟩
    | false =>
      refine ⟨st, by simp, rfl, hw⟩

/-- A rendered field value scans to its canonical value, changing at most
the warning list of the state. -/
theorem scanValue_render (fuel : Nat) (field : LChar) (v : BibValue) (rest : LChar)
    (st : PSt) (hok : valueOk st.macros v = true)
    (hrest : (∃ T, rest = ',' :: T) ∨ (∃ T, rest = '\n' :: '}' :: T)) :
    ∃ st', scanFieldValue (fuel + 1) (renderValue field v ++ rest) st
        = .ok (canonValue field v, skipSpace rest, st')
      ∧ st'.macros = st.macros ∧ st'.warnMacros = st.warnMacros := by
  have hskip : tryTok1 '#' (skipSpace rest) = none := by
    rcases hrest with ⟨T, rfl⟩ | ⟨T, rfl⟩
    · rw [skipSpace_nonws _ (by
        intro c hc
        simp only [List.head?_cons, Option.some.injEq] at hc
        subst hc
        decide)]
      apply tryTok1_head_ne
      intro c hc
      simp only [List.head?_cons, Option.some.injEq] at hc
      subst hc
      decide
    · have hs : skipSpace ('\n' :: '}' :: T) = '}' :: T := by
        unfold skipSpace
        rw [List.dropWhile_cons_of_pos (by decide), List.dropWhile_cons_of_neg (by decide)]
      rw [hs]
      apply tryTok1_head_ne
      intro c hc
      simp only [List.head?_cons, Option.some.injEq] at hc
      subst hc
      decide
  have hrestDig : ∀ c, rest.head? = some c → c.isDigit = false := by
    rcases hrest with ⟨T, rfl⟩ | ⟨T, rfl⟩ <;>
      (intro c hc
       simp only [List.head?_cons, Option.some.injEq] at hc
       subst hc
       decide)
  have hrestId : ∀ c, rest.head? = some c → isIdChar c = false := by
    rcases hrest with ⟨T, rfl⟩ | ⟨T, rfl⟩ <;>
      (intro c hc
       simp only [List.head?_cons, Option.some.injEq] at hc
       subst hc
       decide)
  obtain ⟨tag, text⟩ := v
  cases tag with
  | some m =>
    simp only [valueOk, Bool.and_eq_true, beq_iff_eq] at hok
    obtain ⟨⟨hvm, hres⟩, hclean⟩ := hok
    have hmne : m.isEmpty = false := by
      cases m with
      | nil => simp [validId] at hvm
      | cons a b => rfl
    have hrender : renderValue field ⟨some m, text⟩ = m := by
      simp [renderValue, hmne]
    rw [hrender]
    obtain ⟨st', hpiece, hmac, hwm⟩ := scanFieldPiece_idref m rest st hvm hrestId
    refine ⟨st', ?_, hmac, hwm⟩
    rw [scanFieldValue, hpiece]
    simp only
    rw [scanMorePieces, hskip]
    simp only
    have hcanon : canonValue field (⟨some m, text⟩ : BibValue) = ⟨some m, text⟩ := rfl
    rw [hcanon]
    have htext : stripSpaces (compress (resolveTag st.macros m)) = resolveTag st.macros m := by
      have : textClean (resolveTag st.macros m) = true := by
        rw [hres]
        exact hclean
      simpa [textClean] using this
    rw [htext, hres]
  | none =>
    simp only [valueOk, textOk, Bool.and_eq_true] at hok
    obtain ⟨⟨hbr, hcl⟩, hnq⟩ := hok
    have hnq' : ¬('"' ∈ text) := by
      intro hmem
      rw [show (text.contains '"' = true) from List.contains_eq_any_beq text '"' ▸ (by
        rw [List.any_eq_true]
        exact ⟨'"', hmem, by simp⟩)] at hnq
      simp at hnq
    have hpost : stripSpaces (compress text) = text := by
      simpa [textClean] using hcl
    by_cases hft : field = lc "title"
    · by_cases hwrap : (text.head? == some '{' && text.getLast? == some '}') = true
      · have hrender : renderValue field ⟨none, text⟩ = '"' :: (text ++ ['"']) := by
          simp [renderValue, renderPlain, hft, hwrap]
        rw [hrender]
        have hshape : ('"' :: (text ++ ['"'])) ++ rest = '"' :: (text ++ '"' :: rest) := by
          simp
        rw [hshape]
        refine ⟨st, ?_, rfl, rfl⟩
        rw [scanFieldValue, scanFieldPiece_quoted text rest st hbr hnq']
        simp only
        rw [scanMorePieces, hskip]
        simp only
        rw [hpost]
        have hcanon : canonValue field (⟨none, text⟩ : BibValue) = ⟨none, text⟩ := by
          simp [canonValue, hft, hwrap]
        rw [hcanon]
      · have hrender : renderValue field ⟨none, text⟩
            = '"' :: '{' :: (text ++ ['}', '"']) := by
          simp only [renderValue, renderPlain, hft, if_true]
          rw [if_neg (by simpa using hwrap)]
        rw [hrender]
        have hshape : ('"' :: '{' :: (text ++ ['}', '"'])) ++ rest
            = '"' :: (('{' :: (text ++ ['}'])) ++ '"' :: rest) := by
          simp
        rw [hshape]
        refine ⟨st, ?_, rfl, rfl⟩
        rw [scanFieldValue, scanFieldPiece_wrapped text rest st hbr]
        simp only
        rw [scanMorePieces, hskip]
        simp only
        have hw : stripSpaces (compress ('{' :: (text ++ ['}'])))
            = '{' :: (text ++ ['}']) := by
          have := textClean_wrapped text hcl
          simpa [textClean] using this
        rw [hw]
        have hcanon : canonValue field (⟨none, text⟩ : BibValue)
            = ⟨none, '{' :: (text ++ ['}'])⟩ := by
          simp [canonValue, hft, hwrap]
        rw [hcanon]
    · by_cases hyr : (field = lc "year" && !text.isEmpty && text.all Char.isDigit) = true
      · simp only [Bool.and_eq_true] at hyr
        obtain ⟨⟨hfy, hne⟩, hall⟩ := hyr
        have hrender : renderValue field ⟨none, text⟩ = text := by
          simp only [renderValue, renderPlain]
          rw [if_neg (by simpa using hft)]
          rw [if_pos (by simp [hfy, hne, hall])]
        rw [hrender]
        refine ⟨st, ?_, rfl, rfl⟩
        have hne' : text ≠ [] := by
          intro he
          rw [he] at hne
          simp at hne
        rw [scanFieldValue, scanFieldPiece_digits text rest st hne' hall hrestDig]
        simp only
        rw [scanMorePieces, hskip]
        simp only
        rw [hpost]
        have hcanon : canonValue field (⟨none, text⟩ : BibValue) = ⟨none, text⟩ := by
          simp [canonValue, hft]
        rw [hcanon]
      · have hrender : renderValue field ⟨none, text⟩ = '{' :: (text ++ ['}']) := by
          simp only [renderValue, renderPlain]
          rw [if_neg (by simpa using hft)]
          rw [if_neg (by simpa using hyr)]
        rw [hrender]
        have hshape : ('{' :: (text ++ ['}'])) ++ rest
            = '{' :: (text ++ '}' :: rest) := by
          simp
        rw [hshape]
        refine ⟨st, ?_, rfl, rfl⟩
        rw [scanFieldValue, scanFieldPiece_braced text rest st hbr]
        simp only
        rw [scanMorePieces, hskip]
        simp only
        rw [hpost]
        have hcanon : canonValue field (⟨none, text⟩ : BibValue) = ⟨none, text⟩ := by
          simp [canonValue, hft]
        rw [hcanon]

/-! The field loop on a rendered entry body. -/

/-- Identifier characters are not white space. -/
theorem isIdChar_nonws (c : Char) (h : isIdChar c = true) : isBibSpace c = false := by
  by_contra hb
  simp only [Bool.not_eq_false] at hb
  simp only [isBibSpace, Bool.or_eq_true, beq_iff_eq] at hb
  rcases hb with (hb | hb) | hb <;> (subst hb; exact absurd h (by decide))

/-- Digits are not white space. -/
theorem isDigit_nonws (c : Char) (h : c.isDigit = true) : isBibSpace c = false := by
  by_contra hb
  simp only [Bool.not_eq_false] at hb
  simp only [isBibSpace, Bool.or_eq_true, beq_iff_eq] at hb
  rcases hb with (hb | hb) | hb <;> (subst hb; exact absurd h (by decide))

/-- If a field is not `title`, its canonical value is itself. -/
theorem canonValue_ne_title (g : LChar) (hg : ¬(g = lc "title")) (v : BibValue) :
    canonValue g v = v := by
  obtain ⟨tag, text⟩ := v
  cases tag with
  | some m => rfl
  | none => simp [canonValue, hg]

/-- The pretty renaming preserves identifier-hood, lower-cases back to the
original name, and does not change the canonical value. -/
theorem pretty_props (f : LChar) (h1 : validId f = true) (h2 : asciiLowerL f = f) :
    validId (PRETTY f) = true ∧ asciiLowerL (PRETTY f) = f
    ∧ ∀ v, canonValue (PRETTY f) v = canonValue f v := by
  by_cases ha : f = lc "archiveprefix"
  · subst ha
    refine ⟨by decide, by decide, ?_⟩
    intro v
    rw [show PRETTY (lc "archiveprefix") = lc "archivePrefix" from by decide]
    rw [canonValue_ne_title _ (by decide), canonValue_ne_title _ (by decide)]
  · by_cases hb : f = lc "primaryclass"
    · subst hb
      refine ⟨by decide, by decide, ?_⟩
      intro v
      rw [show PRETTY (lc "primaryclass") = lc "primaryClass" from by decide]
      rw [canonValue_ne_title _ (by decide), canonValue_ne_title _ (by decide)]
    · have hp : PRETTY f = f := by
        simp [PRETTY, ha, hb]
      rw [hp]
      exact ⟨h1, h2, fun v => rfl⟩

/-- A rendered field value is a non-empty list starting with non-white
space. -/
theorem renderValue_cons (M : List (LChar × BibValue)) (field : LChar)
    (v : BibValue) (hok : valueOk M v = true) :
    ∃ c0 cs, renderValue field v = c0 :: cs ∧ isBibSpace c0 = false := by
  obtain ⟨tag, text⟩ := v
  cases tag with
  | some m =>
    simp only [valueOk, Bool.and_eq_true] at hok
    obtain ⟨⟨hvm, _⟩, _⟩ := hok
    obtain ⟨c0, cs, rfl⟩ : ∃ c0 cs, m = c0 :: cs := by
      cases m with
      | nil => simp [validId] at hvm
      | cons c0 cs => exact ⟨c0, cs, rfl⟩
    refine ⟨c0, cs, by simp [renderValue], ?_⟩
    simp only [validId, Bool.and_eq_true] at hvm
    exact isIdChar_nonws c0 hvm.1.1
  | none =>
    by_cases hft : field = lc "title"
    · by_cases hwrap : (text.head? == some '{' && text.getLast? == some '}') = true
      · refine ⟨'"', text ++ ['"'], ?_, by decide⟩
        simp only [renderValue, renderPlain]
        rw [if_pos hft, if_pos hwrap]
      · refine ⟨'"', '{' :: (text ++ ['}', '"']), ?_, by decide⟩
        simp only [renderValue, renderPlain]
        rw [if_pos hft, if_neg hwrap]
    · by_cases hyr : (decide (field = lc "year") && !text.isEmpty
          && text.all Char.isDigit) = true
      · have hb := hyr
        simp only [Bool.and_eq_true] at hb
        obtain ⟨⟨_, hne⟩, hdig⟩ := hb
        obtain ⟨d, ds, rfl⟩ : ∃ d ds, text = d :: ds := by
          cases text with
          | nil => simp at hne
          | cons d ds => exact ⟨d, ds, rfl⟩
        refine ⟨d, ds, ?_, ?_⟩
        · simp only [renderValue, renderPlain]
          rw [if_neg hft, if_pos hyr]
        · simp only [List.all_cons, Bool.and_eq_true] at hdig
          exact isDigit_nonws d hdig.1
      · refine ⟨'{', text ++ ['}'], ?_, by decide⟩
        simp only [renderValue, renderPlain]
        rw [if_neg hft, if_neg hyr]

/-- The formatter's field fold is a flat concatenation. -/
theorem foldl_append_flatten (g : LChar → LChar) (l : List LChar) :
    ∀ acc, l.foldl (fun out f => out ++ g f) acc = acc ++ (l.map g).flatten := by
  induction l with
  | nil => intro acc; simp
  | cons x xs ih =>
    intro acc
    simp only [List.foldl_cons, List.map_cons, List.flatten_cons]
    rw [ih (acc ++ g x)]
    simp

/-- Membership in an appended dict. -/
theorem pyMem_append (a b : List (LChar × α)) (k : LChar) :
    pyMem (a ++ b) k = (pyMem a k || pyMem b k) := by
  simp [pyMem, List.any_append]

/-- Every rendered field line starts with a comma. -/
theorem fieldLine_cons (g : LChar) (v : BibValue) :
    ∃ T, fieldLine g v = ',' :: T := by
  refine ⟨'\n' :: (pad13 (PRETTY g) ++ (lc " = " ++ renderValue (PRETTY g) v)), ?_⟩
  simp only [fieldLine]
  rw [show lc ",\n" = [',', '\n'] from rfl]
  simp [List.append_assoc]

/-- The field loop terminates on the closing delimiter. -/
theorem scanFields_close (fuel : Nat) (rp : Char) (key after : LChar)
    (fds : List (LChar × BibValue)) (st : PSt) :
    scanFields (fuel + 1) rp key fds (rp :: after) st = .ok (fds, after, st) := by
  simp only [scanFields, tryTok1NS_cons_self]

/-- One abstract step of the field loop through a fresh field: the scanned
value is appended to the dict. -/
theorem scanFields_step_insert (fuel : Nat) (rp : Char) (key : LChar)
    (fds : List (LChar × BibValue)) (l r r2 r3 r4 : LChar) (st st2 : PSt)
    (fname : LChar) (value : BibValue)
    (hrp : tryTok1NS rp l = none)
    (hc : tryTok1 ',' l = some r)
    (hrp2 : tryTok1NS rp r = none)
    (hne : r.isEmpty = false)
    (hid : tryId r = some (fname, r2))
    (heq : tryTok1 '=' r2 = some r3)
    (hval : scanFieldValue (fuel + 1) r3 st = .ok (value, r4, st2))
    (hdup : pyMem fds (asciiLowerL fname) = false) :
    scanFields (fuel + 1) rp key fds l st
      = scanFields fuel rp key (fds ++ [(asciiLowerL fname, value)]) r4 st2 := by
  simp only [scanFields, hrp, hc, hrp2, hne, hid, heq, hval, hdup,
    Bool.false_eq_true, if_false, if_true]

/-- The field loop across one rendered field line of a well-formed value:
the canonical value is appended and scanning continues after the line. -/
theorem scanFields_field_step (fuel : Nat) (key : LChar)
    (fds : List (LChar × BibValue)) (f : LChar) (v : BibValue) (R : LChar) (st : PSt)
    (hfid : validId f = true) (hflow : asciiLowerL f = f)
    (hok : valueOk st.macros v = true)
    (hdup : pyMem fds f = false)
    (hR : (∃ T, R = ',' :: T) ∨ (∃ T, R = '\n' :: '}' :: T)) :
    ∃ st1, scanFields (fuel + 1) '}' key fds (fieldLine f v ++ R) st
        = scanFields fuel '}' key (fds ++ [(f, canonValue f v)]) (skipSpace R) st1
      ∧ st1.macros = st.macros ∧ st1.warnMacros = st.warnMacros := by
  obtain ⟨hpid, hplow, hpcan⟩ := pretty_props f hfid hflow
  obtain ⟨c0, cs, hfp⟩ : ∃ c0 cs, PRETTY f = c0 :: cs := by
    cases hPP : PRETTY f with
    | nil => rw [hPP] at hpid; simp [validId] at hpid
    | cons c0 cs => exact ⟨c0, cs, rfl⟩
  have hc0 : isIdChar c0 = true := by
    rw [hfp] at hpid
    simp only [validId, Bool.and_eq_true] at hpid
    exact hpid.1.1
  obtain ⟨r0, rs, hrv, hr0⟩ := renderValue_cons st.macros (PRETTY f) v hok
  have hshape : fieldLine f v ++ R
      = ',' :: (('\n' :: List.replicate (13 - (PRETTY f).length) ' ')
          ++ (PRETTY f ++ (' ' :: '=' :: ' ' :: (renderValue (PRETTY f) v ++ R)))) := by
    simp only [fieldLine, pad13]
    rw [show lc ",\n" = [',', '\n'] from rfl, show lc " = " = [' ', '=', ' '] from rfl]
    simp [List.append_assoc]
  have hX1 : skipSpace (('\n' :: List.replicate (13 - (PRETTY f).length) ' ')
        ++ (PRETTY f ++ (' ' :: '=' :: ' ' :: (renderValue (PRETTY f) v ++ R))))
      = PRETTY f ++ (' ' :: '=' :: ' ' :: (renderValue (PRETTY f) v ++ R)) := by
    apply skipSpace_ws_append
    · intro c hcm
      rcases List.mem_cons.mp hcm with rfl | hcm
      · decide
      · rw [List.eq_of_mem_replicate hcm]; decide
    · intro c hch
      rw [hfp] at hch
      simp only [List.cons_append, List.head?_cons, Option.some.injEq] at hch
      subst hch
      exact isIdChar_nonws c0 hc0
  have h3 : skipSpace (' ' :: '=' :: ' ' :: (renderValue (PRETTY f) v ++ R))
      = '=' :: ' ' :: (renderValue (PRETTY f) v ++ R) := by
    have hws : ∀ c ∈ [' '], isBibSpace c = true := by
      intro c hcm
      simp only [List.mem_singleton] at hcm
      subst hcm; decide
    have hhd : ∀ c, ('=' :: ' ' :: (renderValue (PRETTY f) v ++ R)).head? = some c →
        isBibSpace c = false := by
      intro c hch
      simp only [List.head?_cons, Option.some.injEq] at hch
      subst hch; decide
    simpa using skipSpace_ws_append [' '] _ hws hhd
  have h4 : skipSpace (' ' :: (renderValue (PRETTY f) v ++ R))
      = renderValue (PRETTY f) v ++ R := by
    have hws : ∀ c ∈ [' '], isBibSpace c = true := by
      intro c hcm
      simp only [List.mem_singleton] at hcm
      subst hcm; decide
    have hhd : ∀ c, (renderValue (PRETTY f) v ++ R).head? = some c →
        isBibSpace c = false := by
      intro c hch
      rw [hrv] at hch
      simp only [List.cons_append, List.head?_cons, Option.some.injEq] at hch
      subst hch
      exact hr0
    simpa using skipSpace_ws_append [' '] _ hws hhd
  obtain ⟨st1, hval1, hmac1, hwm1⟩ := scanValue_render fuel (PRETTY f) v R st hok hR
  have hrp1 : tryTok1NS '}' (',' :: (('\n' :: List.replicate (13 - (PRETTY f).length) ' ')
        ++ (PRETTY f ++ (' ' :: '=' :: ' ' :: (renderValue (PRETTY f) v ++ R))))) = none := by
    apply tryTok1NS_head_ne
    intro c hch
    simp only [List.head?_cons, Option.some.injEq] at hch
    subst hch; decide
  have hcomma : tryTok1 ',' (',' :: (('\n' :: List.replicate (13 - (PRETTY f).length) ' ')
        ++ (PRETTY f ++ (' ' :: '=' :: ' ' :: (renderValue (PRETTY f) v ++ R)))))
      = some (PRETTY f ++ (' ' :: '=' :: ' ' :: (renderValue (PRETTY f) v ++ R))) := by
    rw [tryTok1_cons_self, hX1]
  have hrp2 : tryTok1NS '}'
      (PRETTY f ++ (' ' :: '=' :: ' ' :: (renderValue (PRETTY f) v ++ R))) = none := by
    apply tryTok1NS_head_ne
    intro c hch
    rw [hfp] at hch
    simp only [List.cons_append, List.head?_cons, Option.some.injEq] at hch
    subst hch
    intro hcon
    rw [hcon] at hc0
    exact absurd hc0 (by decide)
  have hne2 : (PRETTY f ++ (' ' :: '=' :: ' ' :: (renderValue (PRETTY f) v ++ R))).isEmpty
      = false := by
    rw [hfp]; rfl
  have hid2 : tryId (PRETTY f ++ (' ' :: '=' :: ' ' :: (renderValue (PRETTY f) v ++ R)))
      = some (PRETTY f, '=' :: ' ' :: (renderValue (PRETTY f) v ++ R)) := by
    rw [tryId_append _ _ hpid (by
      intro c hch
      simp only [List.head?_cons, Option.some.injEq] at hch
      subst hch; decide), h3]
  have heq2 : tryTok1 '=' ('=' :: ' ' :: (renderValue (PRETTY f) v ++ R))
      = some (renderValue (PRETTY f) v ++ R) := by
    rw [tryTok1_cons_self, h4]
  have hdup2 : pyMem fds (asciiLowerL (PRETTY f)) = false := by
    rw [hplow]; exact hdup
  have hstep := scanFields_step_insert fuel '}' key fds _ _ _ _ _ st st1 (PRETTY f)
    (canonValue (PRETTY f) v) hrp1 hcomma hrp2 hne2 hid2 heq2 hval1 hdup2
  rw [hplow, hpcan v] at hstep
  refine ⟨st1, ?_, hmac1, hwm1⟩
  rw [hshape]
  exact hstep

/-- The field loop consumes the rendered field lines and rebuilds the
fields in order, with their canonical values. -/
theorem scanFields_render : ∀ (names : List LChar) (fuel : Nat)
    (fds : List (LChar × BibValue)) (after key : LChar) (st : PSt)
    (vals : LChar → BibValue),
    (∀ f ∈ names, validId f = true ∧ asciiLowerL f = f
      ∧ valueOk st.macros (vals f) = true) →
    (∀ f ∈ names, pyMem fds f = false) →
    names.Nodup →
    names.length ≤ fuel →
    names ≠ [] →
    ∃ st', scanFields (fuel + 1) '}' key fds
        ((names.map (fun f => fieldLine f (vals f))).flatten ++ '\n' :: '}' :: after) st
      = .ok (fds ++ names.map (fun f => (f, canonValue f (vals f))), after, st')
      ∧ st'.macros = st.macros ∧ st'.warnMacros = st.warnMacros := by
  intro names
  induction names with
  | nil =>
    intro fuel fds after key st vals _ _ _ _ hne
    exact absurd rfl hne
  | cons f tail ih =>
    intro fuel fds after key st vals hvals hmem hnodup hfuel _
    obtain ⟨hfid, hflow, hfok⟩ := hvals f (List.mem_cons_self f tail)
    have hinput : ((f :: tail).map (fun g => fieldLine g (vals g))).flatten
          ++ '\n' :: '}' :: after
        = fieldLine f (vals f)
          ++ ((tail.map (fun g => fieldLine g (vals g))).flatten ++ '\n' :: '}' :: after) := by
      simp [List.append_assoc]
    have hRsh : (∃ T, (tail.map (fun g => fieldLine g (vals g))).flatten
          ++ '\n' :: '}' :: after = ',' :: T)
        ∨ (∃ T, (tail.map (fun g => fieldLine g (vals g))).flatten
          ++ '\n' :: '}' :: after = '\n' :: '}' :: T) := by
      cases tail with
      | nil => right; exact ⟨after, by simp⟩
      | cons g gs =>
        left
        obtain ⟨T, hT⟩ := fieldLine_cons g (vals g)
        exact ⟨T ++ ((gs.map (fun g => fieldLine g (vals g))).flatten
          ++ '\n' :: '}' :: after), by simp [hT, List.append_assoc]⟩
    obtain ⟨st1, hstep, hmac1, hwm1⟩ := scanFields_field_step fuel key fds f (vals f)
      ((tail.map (fun g => fieldLine g (vals g))).flatten ++ '\n' :: '}' :: after) st
      hfid hflow hfok (hmem f (List.mem_cons_self f tail)) hRsh
    obtain ⟨k, rfl⟩ : ∃ k, fuel = k + 1 := by
      refine ⟨fuel - 1, ?_⟩
      have : 1 ≤ fuel := le_trans (by simp) hfuel
      omega
    cases tail with
    | nil =>
      have hskipR : skipSpace (((List.nil.map (fun g => fieldLine g (vals g))).flatten : LChar)
            ++ '\n' :: '}' :: after) = '}' :: after := by
        simp only [List.map_nil, List.flatten_nil, List.nil_append]
        have hws : ∀ c ∈ ['\n'], isBibSpace c = true := by
          intro c hcm
          simp only [List.mem_singleton] at hcm
          subst hcm; decide
        have hhd : ∀ c, ('}' :: after).head? = some c → isBibSpace c = false := by
          intro c hch
          simp only [List.head?_cons, Option.some.injEq] at hch
          subst hch; decide
        simpa using skipSpace_ws_append ['\n'] _ hws hhd
      refine ⟨st1, ?_, hmac1, hwm1⟩
      rw [hinput, hstep, hskipR, scanFields_close]
      simp
    | cons g gs =>
      have hskipR : skipSpace ((((g :: gs).map (fun g => fieldLine g (vals g))).flatten : LChar)
            ++ '\n' :: '}' :: after)
          = ((g :: gs).map (fun g => fieldLine g (vals g))).flatten ++ '\n' :: '}' :: after := by
        apply skipSpace_nonws
        intro c hch
        obtain ⟨T, hT⟩ := fieldLine_cons g (vals g)
        rw [List.map_cons, List.flatten_cons, hT] at hch
        simp only [List.cons_append, List.head?_cons, Option.some.injEq] at hch
        subst hch; decide
      have hfn : f ∉ (g :: gs) := (List.nodup_cons.mp hnodup).1
      have hIH := ih k (fds ++ [(f, canonValue f (vals f))]) after key st1 vals
        (by
          intro f' hf'
          obtain ⟨h1, h2, h3⟩ := hvals f' (List.mem_cons_of_mem f hf')
          rw [hmac1]
          exact ⟨h1, h2, h3⟩)
        (by
          intro f' hf'
          have h1 : pyMem fds f' = false := hmem f' (List.mem_cons_of_mem f hf')
          have h2 : ¬(f = f') := fun h => hfn (h ▸ hf')
          have h3 : pyMem [(f, canonValue f (vals f))] f' = false := by
            simp only [pyMem, List.any_cons, List.any_nil, Bool.or_false]
            exact decide_eq_false h2
          rw [pyMem_append, h1, h3]
          rfl)
        (List.nodup_cons.mp hnodup).2
        (by
          simp only [List.length_cons] at hfuel ⊢
          omega)
        (by simp)
      obtain ⟨st2, hIHeq, hmac2, hwm2⟩ := hIH
      refine ⟨st2, ?_, hmac2.trans hmac1, hwm2.trans hwm1⟩
      rw [hinput, hstep, hskipR, hIHeq]
      simp [List.append_assoc]

/-! Character arithmetic for the upper-case/lower-case round trip. -/

/-- Character order gives code-point order. -/
theorem char_toNat_le_of_le {a b : Char} (h : a ≤ b) : a.toNat ≤ b.toNat := by
  rw [Char.le_def, UInt32.le_def, BitVec.le_def] at h
  exact h

/-- Code-point order gives character order. -/
theorem char_le_of_toNat_le {a b : Char} (h : a.toNat ≤ b.toNat) : a ≤ b := by
  rw [Char.le_def, UInt32.le_def, BitVec.le_def]
  exact h

/-- Valid code points survive the round trip through `Char.ofNat`. -/
theorem char_toNat_ofNat (n : Nat) (h : n < 55296) : (Char.ofNat n).toNat = n := by
  have hv : n.isValidChar := Or.inl h
  rw [Char.ofNat, dif_pos hv]
  rfl

/-- Lower-casing undoes upper-casing on characters that lower-casing fixes. -/
theorem asciiLower_upper (c : Char) (hc : asciiLower c = c) :
    asciiLower (asciiUpper c) = c := by
  by_cases h1 : 'a' ≤ c
  · by_cases h2 : c ≤ 'z'
    · have hn1 : 97 ≤ c.toNat := by
        have := char_toNat_le_of_le h1
        simpa using this
      have hn2 : c.toNat ≤ 122 := by
        have := char_toNat_le_of_le h2
        simpa using this
      have hup : asciiUpper c = Char.ofNat (c.toNat - 32) := by
        simp [asciiUpper, h1, h2]
      have hu : (Char.ofNat (c.toNat - 32)).toNat = c.toNat - 32 :=
        char_toNat_ofNat _ (by omega)
      have hA : 'A' ≤ Char.ofNat (c.toNat - 32) :=
        char_le_of_toNat_le (by rw [hu]; simp; omega)
      have hZ : Char.ofNat (c.toNat - 32) ≤ 'Z' :=
        char_le_of_toNat_le (by rw [hu]; simp; omega)
      rw [hup]
      have hlow : asciiLower (Char.ofNat (c.toNat - 32))
          = Char.ofNat ((Char.ofNat (c.toNat - 32)).toNat + 32) := by
        simp [asciiLower, hA, hZ]
      rw [hlow, hu, show c.toNat - 32 + 32 = c.toNat from by omega, Char.ofNat_toNat]
    · have hup : asciiUpper c = c := by
        simp [asciiUpper, h2]
      rw [hup]
      exact hc
  · have hup : asciiUpper c = c := by
      simp [asciiUpper, h1]
    rw [hup]
    exact hc

/-- Upper-casing preserves identifier characters. -/
theorem isIdChar_upper (c : Char) (h : isIdChar c = true) :
    isIdChar (asciiUpper c) = true := by
  by_cases h1 : 'a' ≤ c
  · by_cases h2 : c ≤ 'z'
    · have hn1 : 97 ≤ c.toNat := by
        have := char_toNat_le_of_le h1
        simpa using this
      have hn2 : c.toNat ≤ 122 := by
        have := char_toNat_le_of_le h2
        simpa using this
      have hup : asciiUpper c = Char.ofNat (c.toNat - 32) := by
        simp [asciiUpper, h1, h2]
      have hu : (Char.ofNat (c.toNat - 32)).toNat = c.toNat - 32 :=
        char_toNat_ofNat _ (by omega)
      rw [hup]
      have hall : ∀ x ∈ ([' ', '\t', '"', '#', '%', '\'', '(', ')', ',', '=', '{', '}']
          : List Char), ¬(Char.ofNat (c.toNat - 32) = x) := by
        intro x hx he
        have ht : (Char.ofNat (c.toNat - 32)).toNat = x.toNat := congrArg Char.toNat he
        rw [hu] at ht
        fin_cases hx <;> (simp at ht; omega)
      have hcont : (([' ', '\t', '"', '#', '%', '\'', '(', ')', ',', '=', '{', '}']
          : List Char).contains (Char.ofNat (c.toNat - 32))) = false := by
        rw [show (([' ', '\t', '"', '#', '%', '\'', '(', ')', ',', '=', '{', '}']
          : List Char).contains (Char.ofNat (c.toNat - 32)))
          = List.elem (Char.ofNat (c.toNat - 32))
            ([' ', '\t', '"', '#', '%', '\'', '(', ')', ',', '=', '{', '}'] : List Char)
          from rfl]
        rw [List.elem_eq_mem]
        exact decide_eq_false (fun hm => (hall _ hm) rfl)
      simp only [isIdChar, Bool.and_eq_true, decide_eq_true_eq]
      refine ⟨⟨by omega, by omega⟩, ?_⟩
      rw [hcont]
      rfl
    · have hup : asciiUpper c = c := by
        simp [asciiUpper, h2]
      rw [hup]
      exact h
  · have hup : asciiUpper c = c := by
      simp [asciiUpper, h1]
    rw [hup]
    exact h

/-- Upper-casing preserves non-digits. -/
theorem isDigit_upper (c : Char) (h : c.isDigit = false) :
    (asciiUpper c).isDigit = false := by
  by_cases h1 : 'a' ≤ c
  · by_cases h2 : c ≤ 'z'
    · have hn1 : 97 ≤ c.toNat := by
        have := char_toNat_le_of_le h1
        simpa using this
      have hn2 : c.toNat ≤ 122 := by
        have := char_toNat_le_of_le h2
        simpa using this
      have hup : asciiUpper c = Char.ofNat (c.toNat - 32) := by
        simp [asciiUpper, h1, h2]
      have hu : (Char.ofNat (c.toNat - 32)).toNat = c.toNat - 32 :=
        char_toNat_ofNat _ (by omega)
      rw [hup]
      have h48 : ¬((Char.ofNat (c.toNat - 32)).val ≥ 48 ∧ (Char.ofNat (c.toNat - 32)).val ≤ 57) := by
        intro ⟨_, hle⟩
        have : (Char.ofNat (c.toNat - 32)).toNat ≤ 57 := by
          rw [show (57 : Nat) = (57 : UInt32).toNat from rfl]
          exact char_toNat_le_of_le (show Char.ofNat (c.toNat - 32) ≤ ⟨57, by decide⟩ from hle)
        omega
      simp only [Char.isDigit, Bool.and_eq_true, decide_eq_true_eq]
      rw [Bool.eq_false_iff]
      intro hcon
      simp only [Bool.and_eq_true, decide_eq_true_eq] at hcon
      exact h48 hcon
    · have hup : asciiUpper c = c := by
        simp [asciiUpper, h2]
      rw [hup]
      exact h
  · have hup : asciiUpper c = c := by
      simp [asciiUpper, h1]
    rw [hup]
    exact h

/-- A map fixing a list fixes every member. -/
theorem map_id_pointwise (f : Char → Char) : ∀ (t : LChar),
    t.map f = t → ∀ c ∈ t, f c = c := by
  intro t
  induction t with
  | nil => intro _ c hc; simp at hc
  | cons a r ih =>
    intro h c hc
    simp only [List.map_cons, List.cons.injEq] at h
    rcases List.mem_cons.mp hc with rfl | hc
    · exact h.1
    · exact ih h.2 c hc

/-- Upper-casing an identifier keeps it a valid identifier. -/
theorem validId_upper (t : LChar) (h : validId t = true) :
    validId (asciiUpperL t) = true := by
  cases t with
  | nil => simp [validId] at h
  | cons c cs =>
    simp only [validId, Bool.and_eq_true] at h
    obtain ⟨⟨h1, h2⟩, h3⟩ := h
    show validId (asciiUpper c :: cs.map asciiUpper) = true
    simp only [validId, Bool.and_eq_true]
    refine ⟨⟨isIdChar_upper c h1, ?_⟩, ?_⟩
    · rw [Bool.not_eq_true'] at h2 ⊢
      exact isDigit_upper c h2
    · rw [List.all_eq_true] at h3 ⊢
      intro x hx
      rw [List.mem_map] at hx
      obtain ⟨y, hy, rfl⟩ := hx
      exact isIdChar_upper y (h3 y hy)

/-- Lower-casing undoes upper-casing on lower-case-invariant identifiers. -/
theorem asciiLowerL_upperL (t : LChar) (h : asciiLowerL t = t) :
    asciiLowerL (asciiUpperL t) = t := by
  show (t.map asciiUpper).map asciiLower = t
  rw [List.map_map]
  have hpt := map_id_pointwise asciiLower t h
  calc (t.map (asciiLower ∘ asciiUpper))
      = t.map id := List.map_congr_left (fun c hc => asciiLower_upper c (hpt c hc))
    _ = t := List.map_id t

/-! Scanning one dumped item. -/

/-- A quoted literal value scans to an untagged value with the text
unchanged (the text being normalised), leaving the state untouched. -/
theorem scanValue_quoted (fuel : Nat) (text rest : LChar) (st : PSt)
    (hok : textOk text = true)
    (hrest : ∀ c, rest.head? = some c → isBibSpace c = false ∧ ¬(c = '#')) :
    scanFieldValue (fuel + 1) ('"' :: (text ++ '"' :: rest)) st
      = .ok (⟨none, text⟩, rest, st) := by
  simp only [textOk, Bool.and_eq_true] at hok
  obtain ⟨⟨hbr, hcl⟩, hnq⟩ := hok
  have hnq' : ¬('"' ∈ text) := by
    intro hmem
    rw [show (text.contains '"' = true) from List.contains_eq_any_beq text '"' ▸ (by
      rw [List.any_eq_true]
      exact ⟨'"', hmem, by simp⟩)] at hnq
    simp at hnq
  have hpiece := scanFieldPiece_quoted text rest st hbr hnq'
  have hss : skipSpace rest = rest := skipSpace_nonws _ (fun c hc => (hrest c hc).1)
  rw [hss] at hpiece
  have hskip : tryTok1 '#' rest = none :=
    tryTok1_head_ne '#' rest (fun c hc => (hrest c hc).2)
  rw [scanFieldValue, hpiece]
  simp only
  rw [scanMorePieces, hskip]
  simp only
  have hpost : stripSpaces (compress text) = text := by
    simpa [textClean] using hcl
  rw [hpost]

/-- White space is never an `@`. -/
theorem bibSpace_not_at (c : Char) (h : isBibSpace c = true) : (!(c == '@')) = true := by
  simp only [isBibSpace, Bool.or_eq_true, beq_iff_eq] at h
  rcases h with (h | h) | h <;> (subst h; decide)

/-- The `@`-seek of the scanner lands exactly on the command that follows
a white-space gap. -/
theorem scanAt_prefix (ws T : LChar) (hws : ∀ c ∈ ws, isBibSpace c = true) :
    skipSpace ((ws ++ '@' :: T).dropWhile (fun c => !(c == '@'))) = '@' :: T := by
  have hsplit := takeWhile_all_append (fun c => !(c == '@')) ws ('@' :: T)
    (by
      rw [List.all_eq_true]
      intro x hx
      exact bibSpace_not_at x (hws x hx))
    (by
      intro c hc
      simp only [List.head?_cons, Option.some.injEq] at hc
      subst hc
      decide)
  rw [hsplit.2]
  exact skipSpace_nonws _ (by
    intro c hc
    simp only [List.head?_cons, Option.some.injEq] at hc
    subst hc
    decide)

/-- Every dumped item's text starts with an `@`. -/
theorem itemText_at (it : DItem) : ∃ T, itemText it = '@' :: T := by
  cases it with
  | pre v =>
    refine ⟨lc "PREAMBLE\x7b\"" ++ v.text ++ lc "\"\x7d", ?_⟩
    show lc "@PREAMBLE\x7b\"" ++ v.text ++ lc "\"\x7d" = _
    rw [show lc "@PREAMBLE\x7b\"" = '@' :: lc "PREAMBLE\x7b\"" from rfl]
    simp
  | str n v =>
    refine ⟨lc "STRING\x7b" ++ n ++ lc " = \"" ++ v.text ++ lc "\"\x7d", ?_⟩
    show lc "@STRING\x7b" ++ n ++ lc " = \"" ++ v.text ++ lc "\"\x7d" = _
    rw [show lc "@STRING\x7b" = '@' :: lc "STRING\x7b" from rfl]
    simp
  | ent k e =>
    show ∃ T, formatEntry e k = '@' :: T
    by_cases hbe : e.fields.isEmpty = true
    · refine ⟨(asciiUpperL e.entryType ++ '{' :: k) ++ ['}'], ?_⟩
      simp only [formatEntry, hbe, if_true]
      rfl
    · rw [Bool.not_eq_true] at hbe
      refine ⟨(asciiUpperL e.entryType ++ '{' :: k)
        ++ ((sortAsc (fun a b => orderKeyLt (orderFields a) (orderFields b))
            (e.fields.map (fun p => p.1))).foldl (fun out f =>
          out ++ fieldLine f ((pyGet? e.fields f).getD ⟨none, []⟩)) [] ++ lc "\n\x7d"), ?_⟩
      simp only [formatEntry, hbe, Bool.false_eq_true, if_false]
      simp [List.append_assoc]

/-- On all-white-space input the scanner signals end of input. -/
theorem scanItem_end (fuel : Nat) (l : LChar) (st : PSt)
    (hws : ∀ c ∈ l, isBibSpace c = true) :
    scanCommandOrEntry fuel l st = .ok none := by
  have hdrop : l.dropWhile (fun c => !(c == '@')) = [] := by
    have := takeWhile_all_append (fun c => !(c == '@')) l []
      (by
        rw [List.all_eq_true]
        intro x hx
        exact bibSpace_not_at x (hws x hx))
      (by intro c hc; simp at hc)
    simpa using this.2
  simp only [scanCommandOrEntry, hdrop]
  rfl

/-- Scanning a dumped preamble command: the value comes back untagged with
the same text, the state is unchanged, and scanning resumes after the
closing brace. -/
theorem scanItem_pre (fuel : Nat) (v : BibValue) (ws restT : LChar) (st : PSt)
    (hws : ∀ c ∈ ws, isBibSpace c = true) (hok : textOk v.text = true) :
    scanCommandOrEntry (fuel + 1) (ws ++ (itemText (.pre v) ++ restT)) st
      = .ok (some (.preamble ⟨none, v.text⟩, skipSpace restT, st)) := by
  have hshape : itemText (.pre v) ++ restT
      = '@' :: (lc "PREAMBLE" ++ ('{' :: '"' :: (v.text ++ '"' :: '}' :: restT))) := by
    show (lc "@PREAMBLE\x7b\"" ++ v.text ++ lc "\"\x7d") ++ restT = _
    rw [show lc "@PREAMBLE\x7b\"" = ('@' :: lc "PREAMBLE") ++ ['{', '"'] from rfl,
        show lc "\"\x7d" = ['"', '}'] from rfl]
    simp [List.append_assoc]
  rw [hshape]
  have hdrop := scanAt_prefix ws
    (lc "PREAMBLE" ++ ('{' :: '"' :: (v.text ++ '"' :: '}' :: restT))) hws
  have h1 : tryTok1 '@'
      ('@' :: (lc "PREAMBLE" ++ ('{' :: '"' :: (v.text ++ '"' :: '}' :: restT))))
      = some (lc "PREAMBLE" ++ ('{' :: '"' :: (v.text ++ '"' :: '}' :: restT))) := by
    rw [tryTok1_cons_self]
    congr 1
  have h2 : tryId (lc "PREAMBLE" ++ ('{' :: '"' :: (v.text ++ '"' :: '}' :: restT)))
      = some (lc "PREAMBLE", '{' :: '"' :: (v.text ++ '"' :: '}' :: restT)) := by
    rw [tryId_append _ _ (by decide) (by
      intro c hc
      simp only [List.head?_cons, Option.some.injEq] at hc
      subst hc
      decide)]
    rw [skipSpace_nonws _ (by
      intro c hc
      simp only [List.head?_cons, Option.some.injEq] at hc
      subst hc
      decide)]
  have h3 : asciiLowerL (lc "PREAMBLE") = lc "preamble" := by decide
  have h4 : tryDelim ('{' :: '"' :: (v.text ++ '"' :: '}' :: restT))
      = some ('{', '"' :: (v.text ++ '"' :: '}' :: restT)) := by
    rw [tryDelim_brace]
    rw [skipSpace_nonws _ (by
      intro c hc
      simp only [List.head?_cons, Option.some.injEq] at hc
      subst hc
      decide)]
  have hval := scanValue_quoted fuel v.text ('}' :: restT) st hok (by
    intro c hc
    simp only [List.head?_cons, Option.some.injEq] at hc
    subst hc
    exact ⟨by decide, by decide⟩)
  have h5 : tryTok1 '}' ('}' :: restT) = some (skipSpace restT) := tryTok1_cons_self _ _
  simp only [scanCommandOrEntry, hdrop, h1, h2, h3]
  rw [if_neg (show ¬(lc "preamble" = lc "comment") from by decide)]
  simp only [h4, if_true]
  simp only [show (('{' : Char) == '(') = false from rfl, Bool.false_eq_true, if_false]
  simp only [hval, h5]

/-- Scanning a dumped string command: the macro table gains the (already
lower-case) name bound to the untagged value, and scanning resumes after
the closing brace. -/
theorem scanItem_str (fuel : Nat) (n : LChar) (v : BibValue) (ws restT : LChar)
    (st : PSt) (hws : ∀ c ∈ ws, isBibSpace c = true)
    (hn : validId n = true) (hnl : asciiLowerL n = n) (hok : textOk v.text = true) :
    scanCommandOrEntry (fuel + 1) (ws ++ (itemText (.str n v) ++ restT)) st
      = .ok (some (.strdef n ⟨none, v.text⟩, skipSpace restT,
          storeString st n ⟨none, v.text⟩)) := by
  obtain ⟨c0, cs, hn0⟩ : ∃ c0 cs, n = c0 :: cs := by
    cases n with
    | nil => simp [validId] at hn
    | cons c0 cs => exact ⟨c0, cs, rfl⟩
  have hc0 : isIdChar c0 = true := by
    rw [hn0] at hn
    simp only [validId, Bool.and_eq_true] at hn
    exact hn.1.1
  have hshape : itemText (.str n v) ++ restT
      = '@' :: (lc "STRING" ++ ('{' :: (n ++ (' ' :: '=' :: ' ' :: '"'
          :: (v.text ++ '"' :: '}' :: restT))))) := by
    show (lc "@STRING\x7b" ++ n ++ lc " = \"" ++ v.text ++ lc "\"\x7d") ++ restT = _
    rw [show lc "@STRING\x7b" = ('@' :: lc "STRING") ++ ['{'] from rfl,
        show lc " = \"" = [' ', '=', ' ', '"'] from rfl,
        show lc "\"\x7d" = ['"', '}'] from rfl]
    simp [List.append_assoc]
  rw [hshape]
  have hdrop := scanAt_prefix ws (lc "STRING" ++ ('{' :: (n ++ (' ' :: '=' :: ' ' :: '"'
      :: (v.text ++ '"' :: '}' :: restT))))) hws
  have h1 : tryTok1 '@'
      ('@' :: (lc "STRING" ++ ('{' :: (n ++ (' ' :: '=' :: ' ' :: '"'
          :: (v.text ++ '"' :: '}' :: restT))))))
      = some (lc "STRING" ++ ('{' :: (n ++ (' ' :: '=' :: ' ' :: '"'
          :: (v.text ++ '"' :: '}' :: restT))))) := by
    rw [tryTok1_cons_self]
    congr 1
  have h2 : tryId (lc "STRING" ++ ('{' :: (n ++ (' ' :: '=' :: ' ' :: '"'
      :: (v.text ++ '"' :: '}' :: restT)))))
      = some (lc "STRING", '{' :: (n ++ (' ' :: '=' :: ' ' :: '"'
          :: (v.text ++ '"' :: '}' :: restT)))) := by
    rw [tryId_append _ _ (by decide) (by
      intro c hc
      simp only [List.head?_cons, Option.some.injEq] at hc
      subst hc
      decide)]
    rw [skipSpace_nonws _ (by
      intro c hc
      simp only [List.head?_cons, Option.some.injEq] at hc
      subst hc
      decide)]
  have h3 : asciiLowerL (lc "STRING") = lc "string" := by decide
  have h4 : tryDelim ('{' :: (n ++ (' ' :: '=' :: ' ' :: '"'
      :: (v.text ++ '"' :: '}' :: restT))))
      = some ('{', n ++ (' ' :: '=' :: ' ' :: '"' :: (v.text ++ '"' :: '}' :: restT))) := by
    rw [tryDelim_brace]
    rw [skipSpace_nonws _ (by
      intro c hc
      rw [hn0] at hc
      simp only [List.cons_append, List.head?_cons, Option.some.injEq] at hc
      subst hc
      exact isIdChar_nonws c0 hc0)]
  have h5 : tryId (n ++ (' ' :: '=' :: ' ' :: '"' :: (v.text ++ '"' :: '}' :: restT)))
      = some (n, '=' :: ' ' :: '"' :: (v.text ++ '"' :: '}' :: restT)) := by
    rw [tryId_append _ _ hn (by
      intro c hc
      simp only [List.head?_cons, Option.some.injEq] at hc
      subst hc
      decide)]
    rw [show skipSpace (' ' :: '=' :: ' ' :: '"' :: (v.text ++ '"' :: '}' :: restT))
      = '=' :: ' ' :: '"' :: (v.text ++ '"' :: '}' :: restT) from by
      unfold skipSpace
      rw [List.dropWhile_cons_of_pos (by decide), List.dropWhile_cons_of_neg (by decide)]]
  have h6 : tryTok1 '=' ('=' :: ' ' :: '"' :: (v.text ++ '"' :: '}' :: restT))
      = some ('"' :: (v.text ++ '"' :: '}' :: restT)) := by
    rw [tryTok1_cons_self]
    congr 1
  have hval := scanValue_quoted fuel v.text ('}' :: restT) st hok (by
    intro c hc
    simp only [List.head?_cons, Option.some.injEq] at hc
    subst hc
    exact ⟨by decide, by decide⟩)
  have h7 : tryTok1 '}' ('}' :: restT) = some (skipSpace restT) := tryTok1_cons_self _ _
  simp only [scanCommandOrEntry, hdrop, h1, h2, h3]
  rw [if_neg (show ¬(lc "string" = lc "comment") from by decide)]
  simp only [h4]
  rw [if_neg (show ¬(lc "string" = lc "preamble") from by decide)]
  simp only [if_true]
  simp only [show (('{' : Char) == '(') = false from rfl, Bool.false_eq_true, if_false,
    h5, hnl, h6]
  simp only [hval, h7]

/-- Brace-entry key characters are not white space. -/
theorem braceKey_nonws (c : Char) (h : isBraceKeyChar c = true) : isBibSpace c = false := by
  simp only [isBraceKeyChar, Bool.not_eq_eq_eq_not, Bool.not_true, Bool.or_eq_false_iff,
    beq_eq_false_iff_ne, ne_eq] at h
  simp only [isBibSpace, Bool.or_eq_false_iff, beq_eq_false_iff_ne, ne_eq]
  exact ⟨⟨h.1.1.1.2, h.1.1.2⟩, h.2⟩

/-- Stable ascending insertion is a permutation of consing. -/
theorem insertAsc_perm {α : Type _} (lt : α → α → Bool) (x : α) (l : List α) :
    (insertAsc lt x l).Perm (x :: l) := by
  induction l with
  | nil => simp [insertAsc]
  | cons y ys ih =>
    rw [insertAsc]
    by_cases h : lt y x = true
    · simp only [h, if_true]
      exact (ih.cons y).trans (List.Perm.swap x y ys)
    · simp only [Bool.not_eq_true] at h
      simp only [h, Bool.false_eq_true, if_false]
      exact List.Perm.refl _

/-- The stable ascending sort is a permutation. -/
theorem sortAsc_perm {α : Type _} (lt : α → α → Bool) (l : List α) :
    (sortAsc lt l).Perm l := by
  induction l with
  | nil => simp [sortAsc]
  | cons x xs ih =>
    rw [sortAsc]
    exact (insertAsc_perm lt x (sortAsc lt xs)).trans (ih.cons x)

/-- A key present among the keys of a dict is found, together with its
stored pair. -/
theorem pyGet?_some_mem {α : Type _} (d : List (LChar × α)) (f : LChar)
    (h : f ∈ d.map (fun p => p.1)) : ∃ v, pyGet? d f = some v ∧ (f, v) ∈ d := by
  induction d with
  | nil => simp at h
  | cons p ps ih =>
    rw [pyGet?_cons]
    by_cases hp : p.1 = f
    · refine ⟨p.2, by rw [if_pos hp], ?_⟩
      have : (f, p.2) = p := by
        obtain ⟨p1, p2⟩ := p
        simp only at hp
        rw [hp]
      rw [this]
      exact List.mem_cons_self p ps
    · have h' : f ∈ ps.map (fun p => p.1) := by
        simp only [List.map_cons, List.mem_cons] at h
        rcases h with h | h
        · exact absurd h.symm hp
        · exact h
      obtain ⟨v, hv, hm⟩ := ih h'
      exact ⟨v, by rw [if_neg hp]; exact hv, List.mem_cons_of_mem p hm⟩

/-- Scanning a dumped entry: the type survives the case round trip, the
key is read back in full, and the fields come back in canonical order with
canonical values; only warnings may be added to the state. -/
theorem scanItem_ent (fuel : Nat) (k : LChar) (e : BibtexFields) (ws restT : LChar)
    (st : PSt) (hws : ∀ c ∈ ws, isBibSpace c = true)
    (hkey : keyOk k = true) (htype : typeOk e.entryType = true)
    (hnodup : (e.fields.map (fun q => q.1)).Nodup)
    (hflds : ∀ q ∈ e.fields, validId q.1 = true ∧ asciiLowerL q.1 = q.1
      ∧ valueOk st.macros q.2 = true)
    (hfuel : e.fields.length + 1 ≤ fuel) :
    ∃ st', scanCommandOrEntry fuel (ws ++ (itemText (.ent k e) ++ restT)) st
        = .ok (some (.entry e.entryType k (canonFields e).fields, restT, st'))
      ∧ st'.macros = st.macros ∧ st'.warnMacros = st.warnMacros := by
  simp only [typeOk, Bool.and_eq_true] at htype
  obtain ⟨⟨⟨⟨htv, htl⟩, htc⟩, htp⟩, hts⟩ := htype
  have h_t_low : asciiLowerL e.entryType = e.entryType := by
    rw [beq_iff_eq] at htl
    exact htl
  have h_ncom : ¬(e.entryType = lc "comment") := by
    rw [Bool.not_eq_true'] at htc
    rw [beq_eq_false_iff_ne] at htc
    exact htc
  have h_npre : ¬(e.entryType = lc "preamble") := by
    rw [Bool.not_eq_true'] at htp
    rw [beq_eq_false_iff_ne] at htp
    exact htp
  have h_nstr : ¬(e.entryType = lc "string") := by
    rw [Bool.not_eq_true'] at hts
    rw [beq_eq_false_iff_ne] at hts
    exact hts
  have h_upper_valid : validId (asciiUpperL e.entryType) = true := validId_upper _ htv
  have h_lowup : asciiLowerL (asciiUpperL e.entryType) = e.entryType :=
    asciiLowerL_upperL _ h_t_low
  obtain ⟨u0, us, hU⟩ : ∃ u0 us, asciiUpperL e.entryType = u0 :: us := by
    cases hUc : asciiUpperL e.entryType with
    | nil => rw [hUc] at h_upper_valid; simp [validId] at h_upper_valid
    | cons u0 us => exact ⟨u0, us, rfl⟩
  have hu0 : isIdChar u0 = true := by
    rw [hU] at h_upper_valid
    simp only [validId, Bool.and_eq_true] at h_upper_valid
    exact h_upper_valid.1.1
  obtain ⟨m, rfl⟩ : ∃ m, fuel = m + 1 := ⟨fuel - 1, by omega⟩
  by_cases hfe : e.fields.isEmpty = true
  · -- entry without fields
    have hfnil : e.fields = [] := List.isEmpty_iff.mp hfe
    have hshape : itemText (.ent k e) ++ restT
        = '@' :: (asciiUpperL e.entryType ++ ('{' :: (k ++ '}' :: restT))) := by
      simp only [itemText, formatEntry, hfe, if_true]
      simp [List.append_assoc]
    rw [hshape]
    have hdrop := scanAt_prefix ws
      (asciiUpperL e.entryType ++ ('{' :: (k ++ '}' :: restT))) hws
    have h1 : tryTok1 '@'
        ('@' :: (asciiUpperL e.entryType ++ ('{' :: (k ++ '}' :: restT))))
        = some (asciiUpperL e.entryType ++ ('{' :: (k ++ '}' :: restT))) := by
      rw [tryTok1_cons_self]
      congr 1
      apply skipSpace_nonws
      intro c hc
      rw [hU] at hc
      simp only [List.cons_append, List.head?_cons, Option.some.injEq] at hc
      subst hc
      exact isIdChar_nonws u0 hu0
    have h2 : tryId (asciiUpperL e.entryType ++ ('{' :: (k ++ '}' :: restT)))
        = some (asciiUpperL e.entryType, '{' :: (k ++ '}' :: restT)) := by
      rw [tryId_append _ _ h_upper_valid (by
        intro c hc
        simp only [List.head?_cons, Option.some.injEq] at hc
        subst hc
        decide)]
      rw [skipSpace_nonws _ (by
        intro c hc
        simp only [List.head?_cons, Option.some.injEq] at hc
        subst hc
        decide)]
    have hkhead : ∀ c, (k ++ '}' :: restT).head? = some c → isBibSpace c = false := by
      cases k with
      | nil =>
        intro c hc
        simp only [List.nil_append, List.head?_cons, Option.some.injEq] at hc
        subst hc
        decide
      | cons c1 k1 =>
        intro c hc
        simp only [List.cons_append, List.head?_cons, Option.some.injEq] at hc
        subst hc
        have hc1 : isBraceKeyChar c1 = true := by
          simp only [keyOk, List.all_cons, Bool.and_eq_true] at hkey
          exact hkey.1
        exact braceKey_nonws c1 hc1
    have h4 : tryDelim ('{' :: (k ++ '}' :: restT))
        = some ('{', k ++ '}' :: restT) := by
      rw [tryDelim_brace]
      rw [skipSpace_nonws _ hkhead]
    have hkeysplit := takeWhile_all_append isBraceKeyChar k ('}' :: restT) hkey (by
      intro c hc
      simp only [List.head?_cons, Option.some.injEq] at hc
      subst hc
      decide)
    have hl4 : skipSpace ('}' :: restT) = '}' :: restT :=
      skipSpace_nonws _ (by
        intro c hc
        simp only [List.head?_cons, Option.some.injEq] at hc
        subst hc
        decide)
    refine ⟨st, ?_, rfl, rfl⟩
    simp only [scanCommandOrEntry, hdrop, h1, h2, h_lowup]
    rw [if_neg h_ncom]
    simp only [h4]
    rw [if_neg h_npre, if_neg h_nstr]
    simp only [show (('{' : Char) == '(') = false from rfl, Bool.false_eq_true, if_false,
      hkeysplit.1, hkeysplit.2, hl4, scanFields_close]
    have hcf : (canonFields e).fields = [] := by
      simp [canonFields, canonNames, hfnil, sortAsc]
    rw [hcf]
  · -- entry with fields
    rw [Bool.not_eq_true] at hfe
    have hfne : e.fields ≠ [] := by
      intro hnil
      rw [hnil] at hfe
      simp at hfe
    have hperm : (canonNames e).Perm (e.fields.map (fun p => p.1)) := sortAsc_perm _ _
    have hlen : (canonNames e).length = e.fields.length := by
      rw [hperm.length_eq, List.length_map]
    have hcne : canonNames e ≠ [] := by
      intro hnil
      have := hlen
      rw [hnil] at this
      simp only [List.length_nil] at this
      exact hfne (List.length_eq_zero.mp this.symm)
    obtain ⟨n0, nrest, hn0⟩ : ∃ n0 nrest, canonNames e = n0 :: nrest := by
      cases hc : canonNames e with
      | nil => exact absurd hc hcne
      | cons n0 nrest => exact ⟨n0, nrest, rfl⟩
    have hshape : itemText (.ent k e) ++ restT
        = '@' :: (asciiUpperL e.entryType ++ ('{' :: (k
            ++ (((canonNames e).map (fun f =>
                fieldLine f ((pyGet? e.fields f).getD ⟨none, []⟩))).flatten
              ++ '\n' :: '}' :: restT)))) := by
      simp only [itemText, formatEntry, hfe, Bool.false_eq_true, if_false]
      rw [foldl_append_flatten]
      rw [show lc "\n\x7d" = ['\n', '}'] from rfl]
      simp only [List.nil_append, canonNames]
      simp [List.append_assoc]
    rw [hshape]
    have hflhead : ∀ c, (((canonNames e).map (fun f =>
          fieldLine f ((pyGet? e.fields f).getD ⟨none, []⟩))).flatten
        ++ '\n' :: '}' :: restT).head? = some c → isBibSpace c = false ∧ ¬(c = '}')
          ∧ isBraceKeyChar c = false := by
      intro c hc
      rw [hn0] at hc
      obtain ⟨T0, hT0⟩ := fieldLine_cons n0 ((pyGet? e.fields n0).getD ⟨none, []⟩)
      rw [List.map_cons, List.flatten_cons, hT0] at hc
      simp only [List.cons_append, List.head?_cons, Option.some.injEq] at hc
      subst hc
      exact ⟨by decide, by decide, by decide⟩
    have hdrop := scanAt_prefix ws (asciiUpperL e.entryType ++ ('{' :: (k
        ++ (((canonNames e).map (fun f =>
            fieldLine f ((pyGet? e.fields f).getD ⟨none, []⟩))).flatten
          ++ '\n' :: '}' :: restT)))) hws
    have h1 : tryTok1 '@'
        ('@' :: (asciiUpperL e.entryType ++ ('{' :: (k
            ++ (((canonNames e).map (fun f =>
                fieldLine f ((pyGet? e.fields f).getD ⟨none, []⟩))).flatten
              ++ '\n' :: '}' :: restT)))))
        = some (asciiUpperL e.entryType ++ ('{' :: (k
            ++ (((canonNames e).map (fun f =>
                fieldLine f ((pyGet? e.fields f).getD ⟨none, []⟩))).flatten
              ++ '\n' :: '}' :: restT)))) := by
      rw [tryTok1_cons_self]
      congr 1
      apply skipSpace_nonws
      intro c hc
      rw [hU] at hc
      simp only [List.cons_append, List.head?_cons, Option.some.injEq] at hc
      subst hc
      exact isIdChar_nonws u0 hu0
    have h2 : tryId (asciiUpperL e.entryType ++ ('{' :: (k
          ++ (((canonNames e).map (fun f =>
              fieldLine f ((pyGet? e.fields f).getD ⟨none, []⟩))).flatten
            ++ '\n' :: '}' :: restT))))
        = some (asciiUpperL e.entryType, '{' :: (k
            ++ (((canonNames e).map (fun f =>
                fieldLine f ((pyGet? e.fields f).getD ⟨none, []⟩))).flatten
              ++ '\n' :: '}' :: restT))) := by
      rw [tryId_append _ _ h_upper_valid (by
        intro c hc
        simp only [List.head?_cons, Option.some.injEq] at hc
        subst hc
        decide)]
      rw [skipSpace_nonws _ (by
        intro c hc
        simp only [List.head?_cons, Option.some.injEq] at hc
        subst hc
        decide)]
    have hkhead : ∀ c, (k ++ (((canonNames e).map (fun f =>
          fieldLine f ((pyGet? e.fields f).getD ⟨none, []⟩))).flatten
        ++ '\n' :: '}' :: restT)).head? = some c → isBibSpace c = false := by
      cases k with
      | nil =>
        intro c hc
        rw [List.nil_append] at hc
        exact (hflhead c hc).1
      | cons c1 k1 =>
        intro c hc
        simp only [List.cons_append, List.head?_cons, Option.some.injEq] at hc
        subst hc
        have hc1 : isBraceKeyChar c1 = true := by
          simp only [keyOk, List.all_cons, Bool.and_eq_true] at hkey
          exact hkey.1
        exact braceKey_nonws c1 hc1
    have h4 : tryDelim ('{' :: (k
          ++ (((canonNames e).map (fun f =>
              fieldLine f ((pyGet? e.fields f).getD ⟨none, []⟩))).flatten
            ++ '\n' :: '}' :: restT)))
        = some ('{', k ++ (((canonNames e).map (fun f =>
            fieldLine f ((pyGet? e.fields f).getD ⟨none, []⟩))).flatten
          ++ '\n' :: '}' :: restT)) := by
      rw [tryDelim_brace]
      rw [skipSpace_nonws _ hkhead]
    have hkeysplit := takeWhile_all_append isBraceKeyChar k
      (((canonNames e).map (fun f =>
          fieldLine f ((pyGet? e.fields f).getD ⟨none, []⟩))).flatten
        ++ '\n' :: '}' :: restT) hkey (by
      intro c hc
      exact (hflhead c hc).2.2)
    have hl4 : skipSpace (((canonNames e).map (fun f =>
          fieldLine f ((pyGet? e.fields f).getD ⟨none, []⟩))).flatten
        ++ '\n' :: '}' :: restT)
        = ((canonNames e).map (fun f =>
            fieldLine f ((pyGet? e.fields f).getD ⟨none, []⟩))).flatten
          ++ '\n' :: '}' :: restT :=
      skipSpace_nonws _ (fun c hc => (hflhead c hc).1)
    obtain ⟨st', hfields, hmac, hwm⟩ := scanFields_render (canonNames e) m [] restT k st
      (fun f => (pyGet? e.fields f).getD ⟨none, []⟩)
      (by
        intro f hf
        simp only []
        have hfm : f ∈ e.fields.map (fun p => p.1) := hperm.mem_iff.mp hf
        obtain ⟨v, hv, hmem⟩ := pyGet?_some_mem e.fields f hfm
        obtain ⟨q1, q2, q3⟩ := hflds (f, v) hmem
        rw [hv]
        exact ⟨q1, q2, q3⟩)
      (by intro f _; rfl)
      (hperm.nodup_iff.mpr hnodup)
      (by omega)
      hcne
    refine ⟨st', ?_, hmac, hwm⟩
    simp only [scanCommandOrEntry, hdrop, h1, h2, h_lowup]
    rw [if_neg h_ncom]
    simp only [h4]
    rw [if_neg h_npre, if_neg h_nstr]
    simp only [show (('{' : Char) == '(') = false from rfl, Bool.false_eq_true, if_false,
      hkeysplit.1, hkeysplit.2, hl4, hfields]
    simp only [List.nil_append]
    rw [show (canonFields e).fields = (canonNames e).map (fun f =>
      (f, canonValue f ((pyGet? e.fields f).getD ⟨none, []⟩))) from rfl]

/-- A flat concatenation of non-empty lists is at least as long as the
list of its parts. -/
theorem flatten_length_ge (L : List LChar) (h : ∀ x ∈ L, 1 ≤ x.length) :
    L.length ≤ L.flatten.length := by
  induction L with
  | nil => simp
  | cons x xs ih =>
    simp only [List.length_cons, List.flatten_cons, List.length_append]
    have hx := h x (List.mem_cons_self x xs)
    have := ih (fun y hy => h y (List.mem_cons_of_mem x hy))
    omega

/-- Each item's text is at least as long as its fuel cost. -/
theorem itemText_length (it : DItem) : itemCost it ≤ (itemText it).length := by
  cases it with
  | pre v =>
    obtain ⟨T, hT⟩ := itemText_at (.pre v)
    rw [hT]
    simp [itemCost]
  | str n v =>
    obtain ⟨T, hT⟩ := itemText_at (.str n v)
    rw [hT]
    simp [itemCost]
  | ent k e =>
    show e.fields.length + 2 ≤ (formatEntry e k).length
    by_cases hfe : e.fields.isEmpty = true
    · have hfnil : e.fields = [] := List.isEmpty_iff.mp hfe
      simp only [formatEntry, hfe, if_true]
      rw [hfnil]
      simp only [List.length_nil, List.length_append, List.length_cons]
      omega
    · rw [Bool.not_eq_true] at hfe
      simp only [formatEntry, hfe, Bool.false_eq_true, if_false]
      rw [foldl_append_flatten]
      have hperm : (sortAsc (fun a b => orderKeyLt (orderFields a) (orderFields b))
          (e.fields.map (fun p => p.1))).Perm (e.fields.map (fun p => p.1)) :=
        sortAsc_perm _ _
      have hlen : (sortAsc (fun a b => orderKeyLt (orderFields a) (orderFields b))
          (e.fields.map (fun p => p.1))).length = e.fields.length := by
        rw [hperm.length_eq, List.length_map]
      have hfl := flatten_length_ge ((sortAsc (fun a b => orderKeyLt (orderFields a)
          (orderFields b)) (e.fields.map (fun p => p.1))).map (fun f =>
          fieldLine f ((pyGet? e.fields f).getD ⟨none, []⟩)))
        (by
          intro x hx
          rw [List.mem_map] at hx
          obtain ⟨f, _, rfl⟩ := hx
          obtain ⟨T, hT⟩ := fieldLine_cons f ((pyGet? e.fields f).getD ⟨none, []⟩)
          rw [hT]
          simp)
      rw [List.length_map, hlen] at hfl
      simp only [List.length_append, List.length_cons, List.nil_append]
      have : (lc "\n\x7d").length = 2 := rfl
      omega

/-- The items of a chunked text cost at most its length in fuel. -/
theorem chunks_cost (items : List DItem) (l : LChar) (h : ChunksOf items l) :
    itemsCost items ≤ l.length := by
  induction h with
  | nil ws _ => simp [itemsCost]
  | cons ws it items rest _ _ ih =>
    have := itemText_length it
    simp only [itemsCost, List.length_append]
    omega

/-- Chunking is stable under skipping leading white space. -/
theorem ChunksOf_skipSpace (items : List DItem) (l : LChar)
    (h : ChunksOf items l) : ChunksOf items (skipSpace l) := by
  induction h with
  | nil ws hws =>
    apply ChunksOf.nil
    intro c hc
    exact hws c (List.dropWhile_subset _ hc)
  | cons ws it items rest hws hrec _ =>
    obtain ⟨T, hT⟩ := itemText_at it
    rw [skipSpace_ws_append ws _ hws (by
      intro c hc
      rw [hT] at hc
      simp only [List.cons_append, List.head?_cons, Option.some.injEq] at hc
      subst hc
      decide)]
    have := ChunksOf.cons [] it items rest (by intro c hc; simp at hc) hrec
    simpa using this

/-- Updating a dict at a fresh key appends the pair. -/
theorem pyInsert_fresh {α : Type _} (d : List (LChar × α)) (k : LChar) (v : α)
    (h : pyMem d k = false) : pyInsert d k v = d ++ [(k, v)] := by
  simp [pyInsert, h]

/-- The string command updates exactly the macro table of the state. -/
theorem storeString_macros (st : PSt) (n : LChar) (w : BibValue) :
    (storeString st n w).macros = pyInsert st.macros n w
    ∧ (storeString st n w).warnMacros = st.warnMacros := by
  unfold storeString
  by_cases h : pyMem st.macros n = true
  · simp [h, PSt.warn]
  · simp [h, PSt.warn]

/-- Extending the stored strings extends the macro table pointwise. -/
theorem macroTable_append (macros : List (LChar × LChar))
    (S : List (LChar × BibValue)) (n : LChar) (w : BibValue) :
    macroTable macros (S ++ [(n, w)])
      = pyInsert (macroTable macros S) n ⟨none, w.text⟩ := by
  simp [macroTable, List.foldl_append]

/-- One step of the parse loop on a scanned item. -/
theorem loadsLoop_step (fuel : Nat) (acc : BibtexData) (l : LChar) (st : PSt)
    (item : BibContent) (rest : LChar) (st2 : PSt)
    (h : scanCommandOrEntry (fuel + 1) l st = .ok (some (item, rest, st2))) :
    loadsLoop (fuel + 1) acc l st
      = loadsLoop fuel (loadsStep acc item st2).1 rest (loadsStep acc item st2).2 := by
  simp only [loadsLoop, h]

/-- The parse loop final step on end of input. -/
theorem loadsLoop_end (fuel : Nat) (acc : BibtexData) (l : LChar) (st : PSt)
    (h : scanCommandOrEntry (fuel + 1) l st = .ok none) :
    loadsLoop (fuel + 1) acc l st = .ok (acc, st) := by
  simp only [loadsLoop, h]

/-- The parse loop over the dumped entries: each entry is appended with
its canonical fields; the macro table is no longer consulted for anything
but field values, which are well formed by hypothesis. -/
theorem loadsLoop_ents : ∀ (ents : List (LChar × BibtexFields)) (fuel : Nat)
    (acc : BibtexData) (l : LChar) (st : PSt),
    ChunksOf (ents.map (fun p => DItem.ent p.1 p.2)) l →
    (∀ p ∈ ents, keyOk p.1 = true ∧ typeOk p.2.entryType = true
      ∧ (p.2.fields.map (fun q => q.1)).Nodup
      ∧ ∀ q ∈ p.2.fields, validId q.1 = true ∧ asciiLowerL q.1 = q.1
          ∧ valueOk st.macros q.2 = true) →
    (∀ p ∈ ents, pyMem acc.entries p.1 = false) →
    (ents.map (fun p => p.1)).Nodup →
    itemsCost (ents.map (fun p => DItem.ent p.1 p.2)) ≤ fuel →
    ∃ st', loadsLoop (fuel + 1) acc l st
      = .ok (⟨acc.preamble, acc.strings,
          acc.entries ++ ents.map (fun p => (p.1, canonFields p.2))⟩, st') := by
  intro ents
  induction ents with
  | nil =>
    intro fuel acc l st hch _ _ _ _
    rw [List.map_nil] at hch
    have hws : ∀ c ∈ l, isBibSpace c = true := by
      cases hch with
      | nil ws h => exact h
    refine ⟨st, ?_⟩
    simp only [loadsLoop, scanItem_end (fuel + 1) l st hws]
    simp
  | cons p ents' ih =>
    intro fuel acc l st hch hWF hfresh hnod hfuel
    rw [List.map_cons] at hch
    cases hch with
    | cons ws it items rest hws hrest =>
      obtain ⟨hk, ht, hnd, hfl⟩ := hWF p (List.mem_cons_self p ents')
      simp only [itemsCost, itemCost] at hfuel
      obtain ⟨mm, rfl⟩ : ∃ mm, fuel = mm + 1 := ⟨fuel - 1, by omega⟩
      obtain ⟨st1, hscan, hmac1, hwm1⟩ := scanItem_ent (mm + 1 + 1) p.1 p.2 ws rest st
        hws hk ht hnd hfl (by omega)
      have hfr : pyMem acc.entries p.1 = false := hfresh p (List.mem_cons_self p ents')
      have hfn : p.1 ∉ ents'.map (fun q => q.1) := (List.nodup_cons.mp hnod).1
      obtain ⟨st2, hrec⟩ := ih mm ⟨acc.preamble, acc.strings,
          acc.entries ++ [(p.1, canonFields p.2)]⟩ rest st1
        hrest
        (by
          intro p' hp'
          obtain ⟨q1, q2, q3, q4⟩ := hWF p' (List.mem_cons_of_mem p hp')
          refine ⟨q1, q2, q3, ?_⟩
          intro q hq
          obtain ⟨r1, r2, r3⟩ := q4 q hq
          rw [hmac1]
          exact ⟨r1, r2, r3⟩)
        (by
          intro p' hp'
          have h1 : pyMem acc.entries p'.1 = false := hfresh p' (List.mem_cons_of_mem p hp')
          have h2 : ¬(p.1 = p'.1) := by
            intro he
            exact hfn (he ▸ List.mem_map_of_mem (fun q => q.1) hp')
          have h3 : pyMem [(p.1, canonFields p.2)] p'.1 = false := by
            simp only [pyMem, List.any_cons, List.any_nil, Bool.or_false]
            exact decide_eq_false h2
          rw [pyMem_append, h1, h3]
          rfl)
        (List.nodup_cons.mp hnod).2
        (by omega)
      refine ⟨st2, ?_⟩
      rw [loadsLoop_step (mm + 1) acc _ st _ rest st1 hscan]
      have hLS : loadsStep acc (.entry p.2.entryType p.1 (canonFields p.2).fields) st1
          = (⟨acc.preamble, acc.strings, acc.entries ++ [(p.1, canonFields p.2)]⟩, st1) := by
        simp only [loadsStep, hfr, Bool.false_eq_true, if_false]
        rw [pyInsert_fresh _ _ _ hfr]
        rfl
      rw [hLS]
      rw [hrec]
      simp [List.append_assoc]

/-- The parse loop over the dumped string commands followed by the
entries: each string is appended to the document (untagged) and entered
into the macro table; the entries then parse against the completed
table. -/
theorem loadsLoop_strs : ∀ (ss : List (LChar × BibValue)) (fuel : Nat)
    (macros : List (LChar × LChar)) (acc : BibtexData) (l : LChar) (st : PSt)
    (es : List (LChar × BibtexFields)),
    ChunksOf (ss.map (fun p => DItem.str p.1 p.2)
      ++ es.map (fun p => DItem.ent p.1 p.2)) l →
    st.macros = macroTable macros acc.strings →
    (∀ p ∈ ss, validId p.1 = true ∧ asciiLowerL p.1 = p.1 ∧ textOk p.2.text = true) →
    (∀ p ∈ ss, pyMem acc.strings p.1 = false) →
    (ss.map (fun p => p.1)).Nodup →
    (∀ p ∈ es, keyOk p.1 = true ∧ typeOk p.2.entryType = true
      ∧ (p.2.fields.map (fun q => q.1)).Nodup
      ∧ ∀ q ∈ p.2.fields, validId q.1 = true ∧ asciiLowerL q.1 = q.1
          ∧ valueOk (macroTable macros
              (acc.strings ++ ss.map (fun p => (p.1, (⟨none, p.2.text⟩ : BibValue)))))
            q.2 = true) →
    (∀ p ∈ es, pyMem acc.entries p.1 = false) →
    (es.map (fun p => p.1)).Nodup →
    itemsCost (ss.map (fun p => DItem.str p.1 p.2)
      ++ es.map (fun p => DItem.ent p.1 p.2)) ≤ fuel →
    ∃ st', loadsLoop (fuel + 1) acc l st
      = .ok (⟨acc.preamble,
          acc.strings ++ ss.map (fun p => (p.1, (⟨none, p.2.text⟩ : BibValue))),
          acc.entries ++ es.map (fun p => (p.1, canonFields p.2))⟩, st') := by
  intro ss
  induction ss with
  | nil =>
    intro fuel macros acc l st es hch hinv _ _ _ hes hefresh henod hfuel
    rw [List.map_nil, List.nil_append] at hch
    obtain ⟨st', hloop⟩ := loadsLoop_ents es fuel acc l st hch
      (by
        intro p hp
        obtain ⟨q1, q2, q3, q4⟩ := hes p hp
        refine ⟨q1, q2, q3, ?_⟩
        intro q hq
        obtain ⟨r1, r2, r3⟩ := q4 q hq
        refine ⟨r1, r2, ?_⟩
        rw [hinv]
        rw [List.map_nil, List.append_nil] at r3
        exact r3)
      hefresh henod
      (by
        rw [List.map_nil, List.nil_append] at hfuel
        exact hfuel)
    refine ⟨st', ?_⟩
    rw [hloop]
    simp
  | cons p ss' ih =>
    intro fuel macros acc l st es hch hinv hWFs hfresh hnod hes hefresh henod hfuel
    rw [List.map_cons, List.cons_append] at hch
    cases hch with
    | cons ws it items rest hws hrest =>
      obtain ⟨hv1, hv2, hv3⟩ := hWFs p (List.mem_cons_self p ss')
      rw [show ((p :: ss').map (fun p => DItem.str p.1 p.2)
          ++ es.map (fun p => DItem.ent p.1 p.2))
        = DItem.str p.1 p.2 :: (ss'.map (fun p => DItem.str p.1 p.2)
          ++ es.map (fun p => DItem.ent p.1 p.2)) from by simp] at hfuel
      simp only [itemsCost, itemCost] at hfuel
      obtain ⟨mm, rfl⟩ : ∃ mm, fuel = mm + 1 := ⟨fuel - 1, by omega⟩
      have hscan := scanItem_str (mm + 1) p.1 p.2 ws rest st hws hv1 hv2 hv3
      have hfr : pyMem acc.strings p.1 = false := hfresh p (List.mem_cons_self p ss')
      have hfn : p.1 ∉ ss'.map (fun q => q.1) := (List.nodup_cons.mp hnod).1
      have hsm := storeString_macros st p.1 ⟨none, p.2.text⟩
      have hstep := loadsLoop_step (mm + 1) acc _ st _ (skipSpace rest)
        (storeString st p.1 ⟨none, p.2.text⟩) hscan
      have hLS : loadsStep acc (.strdef p.1 ⟨none, p.2.text⟩)
            (storeString st p.1 ⟨none, p.2.text⟩)
          = (⟨acc.preamble, acc.strings ++ [(p.1, (⟨none, p.2.text⟩ : BibValue))],
              acc.entries⟩, storeString st p.1 ⟨none, p.2.text⟩) := by
        simp only [loadsStep]
        rw [pyInsert_fresh _ _ _ hfr]
      obtain ⟨st2, hrec⟩ := ih mm macros
        ⟨acc.preamble, acc.strings ++ [(p.1, (⟨none, p.2.text⟩ : BibValue))], acc.entries⟩
        (skipSpace rest) (storeString st p.1 ⟨none, p.2.text⟩) es
        (ChunksOf_skipSpace _ _ hrest)
        (by
          simp only [hsm.1, hinv]
          rw [macroTable_append])
        (fun q hq => hWFs q (List.mem_cons_of_mem p hq))
        (by
          intro q hq
          have h1 : pyMem acc.strings q.1 = false := hfresh q (List.mem_cons_of_mem p hq)
          have h2 : ¬(p.1 = q.1) := by
            intro he
            exact hfn (he ▸ List.mem_map_of_mem (fun r => r.1) hq)
          have h3 : pyMem [(p.1, (⟨none, p.2.text⟩ : BibValue))] q.1 = false := by
            simp only [pyMem, List.any_cons, List.any_nil, Bool.or_false]
            exact decide_eq_false h2
          simp only []
          rw [pyMem_append, h1, h3]
          rfl)
        (List.nodup_cons.mp hnod).2
        (by
          intro q hq
          obtain ⟨q1, q2, q3, q4⟩ := hes q hq
          refine ⟨q1, q2, q3, ?_⟩
          intro r hr
          obtain ⟨r1, r2, r3⟩ := q4 r hr
          refine ⟨r1, r2, ?_⟩
          rw [show (⟨acc.preamble, acc.strings ++ [(p.1, (⟨none, p.2.text⟩ : BibValue))],
              acc.entries⟩ : BibtexData).strings
            = acc.strings ++ [(p.1, (⟨none, p.2.text⟩ : BibValue))] from rfl]
          rw [List.append_assoc]
          rw [show [(p.1, (⟨none, p.2.text⟩ : BibValue))]
              ++ ss'.map (fun p => (p.1, (⟨none, p.2.text⟩ : BibValue)))
            = (p :: ss').map (fun p => (p.1, (⟨none, p.2.text⟩ : BibValue))) from rfl]
          exact r3)
        hefresh henod
        (by omega)
      refine ⟨st2, ?_⟩
      rw [hstep, hLS, hrec]
      simp [List.append_assoc]

/-- The parse loop over a full dumped document: preambles, then strings,
then entries. -/
theorem loadsLoop_pres : ∀ (ps : List BibValue) (fuel : Nat)
    (macros : List (LChar × LChar)) (acc : BibtexData) (l : LChar) (st : PSt)
    (ss : List (LChar × BibValue)) (es : List (LChar × BibtexFields)),
    ChunksOf (ps.map DItem.pre ++ (ss.map (fun p => DItem.str p.1 p.2)
      ++ es.map (fun p => DItem.ent p.1 p.2))) l →
    st.macros = macroTable macros acc.strings →
    (∀ v ∈ ps, textOk v.text = true) →
    (∀ p ∈ ss, validId p.1 = true ∧ asciiLowerL p.1 = p.1 ∧ textOk p.2.text = true) →
    (∀ p ∈ ss, pyMem acc.strings p.1 = false) →
    (ss.map (fun p => p.1)).Nodup →
    (∀ p ∈ es, keyOk p.1 = true ∧ typeOk p.2.entryType = true
      ∧ (p.2.fields.map (fun q => q.1)).Nodup
      ∧ ∀ q ∈ p.2.fields, validId q.1 = true ∧ asciiLowerL q.1 = q.1
          ∧ valueOk (macroTable macros
              (acc.strings ++ ss.map (fun p => (p.1, (⟨none, p.2.text⟩ : BibValue)))))
            q.2 = true) →
    (∀ p ∈ es, pyMem acc.entries p.1 = false) →
    (es.map (fun p => p.1)).Nodup →
    itemsCost (ps.map DItem.pre ++ (ss.map (fun p => DItem.str p.1 p.2)
      ++ es.map (fun p => DItem.ent p.1 p.2))) ≤ fuel →
    ∃ st', loadsLoop (fuel + 1) acc l st
      = .ok (⟨acc.preamble ++ ps.map (fun v => (⟨none, v.text⟩ : BibValue)),
          acc.strings ++ ss.map (fun p => (p.1, (⟨none, p.2.text⟩ : BibValue))),
          acc.entries ++ es.map (fun p => (p.1, canonFields p.2))⟩, st') := by
  intro ps
  induction ps with
  | nil =>
    intro fuel macros acc l st ss es hch hinv _ hWFs hsfresh hsnod hes hefresh henod hfuel
    rw [List.map_nil, List.nil_append] at hch hfuel
    obtain ⟨st', hloop⟩ := loadsLoop_strs ss fuel macros acc l st es hch hinv
      hWFs hsfresh hsnod hes hefresh henod hfuel
    refine ⟨st', ?_⟩
    rw [hloop]
    simp
  | cons v ps' ih =>
    intro fuel macros acc l st ss es hch hinv hWFp hWFs hsfresh hsnod hes hefresh henod hfuel
    rw [List.map_cons, List.cons_append] at hch
    cases hch with
    | cons ws it items rest hws hrest =>
      have hv := hWFp v (List.mem_cons_self v ps')
      rw [show ((v :: ps').map DItem.pre ++ (ss.map (fun p => DItem.str p.1 p.2)
          ++ es.map (fun p => DItem.ent p.1 p.2)))
        = DItem.pre v :: (ps'.map DItem.pre ++ (ss.map (fun p => DItem.str p.1 p.2)
          ++ es.map (fun p => DItem.ent p.1 p.2))) from by simp] at hfuel
      simp only [itemsCost, itemCost] at hfuel
      obtain ⟨mm, rfl⟩ : ∃ mm, fuel = mm + 1 := ⟨fuel - 1, by omega⟩
      have hscan := scanItem_pre (mm + 1) v ws rest st hws hv
      have hstep := loadsLoop_step (mm + 1) acc _ st _ (skipSpace rest) st hscan
      have hLS : loadsStep acc (.preamble ⟨none, v.text⟩) st
          = (⟨acc.preamble ++ [(⟨none, v.text⟩ : BibValue)], acc.strings,
              acc.entries⟩, st) := by
        simp only [loadsStep]
      obtain ⟨st2, hrec⟩ := ih mm macros
        ⟨acc.preamble ++ [(⟨none, v.text⟩ : BibValue)], acc.strings, acc.entries⟩
        (skipSpace rest) st ss es
        (ChunksOf_skipSpace _ _ hrest)
        hinv
        (fun w hw => hWFp w (List.mem_cons_of_mem v hw))
        hWFs hsfresh hsnod hes hefresh henod
        (by omega)
      refine ⟨st2, ?_⟩
      rw [hstep, hLS, hrec]
      simp [List.append_assoc]

/-- `intercalate` on a singleton. -/
theorem intercalate_singleton (s a : LChar) : List.intercalate s [a] = a := by
  show (List.intersperse s [a]).flatten = a
  rw [show List.intersperse s [a] = [a] from rfl]
  simp

/-- `intercalate` unfolding on two or more lists. -/
theorem intercalate_cons_cons (s a b : LChar) (t : List LChar) :
    List.intercalate s (a :: b :: t) = a ++ (s ++ List.intercalate s (b :: t)) := by
  show (List.intersperse s (a :: b :: t)).flatten = _
  rw [show List.intersperse s (a :: b :: t) = a :: s :: List.intersperse s (b :: t) from rfl]
  rw [List.flatten_cons, List.flatten_cons]
  rfl

/-- Chunking absorbs a leading white-space character. -/
theorem ChunksOf_cons_ws (c : Char) (hc : isBibSpace c = true) (items : List DItem)
    (l : LChar) (h : ChunksOf items l) : ChunksOf items (c :: l) := by
  induction h with
  | nil ws hws =>
    exact ChunksOf.nil (c :: ws) (by
      intro x hx
      rcases List.mem_cons.mp hx with rfl | hx
      · exact hc
      · exact hws x hx)
  | cons ws it items rest hws hrec _ =>
    have := ChunksOf.cons (c :: ws) it items rest (by
      intro x hx
      rcases List.mem_cons.mp hx with rfl | hx
      · exact hc
      · exact hws x hx) hrec
    simpa using this

/-- Joining matched lines with newlines yields an item chunking. -/
theorem LinesOf_chunks (items : List DItem) (LS : List LChar)
    (h : LinesOf items LS) : ChunksOf items (List.intercalate ['\n'] LS) := by
  induction h with
  | nil =>
    rw [show List.intercalate ['\n'] ([] : List LChar) = [] from rfl]
    exact ChunksOf.nil [] (by intro c hc; simp at hc)
  | skip items LS hrec ih =>
    cases LS with
    | nil =>
      cases hrec
      rw [intercalate_singleton]
      exact ChunksOf.nil [] (by intro c hc; simp at hc)
    | cons b t =>
      rw [intercalate_cons_cons]
      simp only [List.nil_append, List.singleton_append]
      exact ChunksOf_cons_ws '\n' (by decide) _ _ ih
  | item it items LS hrec ih =>
    cases LS with
    | nil =>
      cases hrec
      rw [intercalate_singleton]
      have := ChunksOf.cons [] it [] [] (by intro c hc; simp at hc)
        (ChunksOf.nil [] (by intro c hc; simp at hc))
      simpa using this
    | cons b t =>
      rw [intercalate_cons_cons]
      simp only [List.singleton_append]
      have := ChunksOf.cons [] it items ('\n' :: List.intercalate ['\n'] (b :: t))
        (by intro c hc; simp at hc)
        (ChunksOf_cons_ws '\n' (by decide) _ _ ih)
      simpa using this

/-- Line matching is compositional. -/
theorem LinesOf_append {i1 : List DItem} {L1 : List LChar} {i2 : List DItem}
    {L2 : List LChar} (h1 : LinesOf i1 L1) (h2 : LinesOf i2 L2) :
    LinesOf (i1 ++ i2) (L1 ++ L2) := by
  induction h1 with
  | nil => simpa using h2
  | skip items LS hrec ih => exact LinesOf.skip _ _ ih
  | item it items LS hrec ih => exact LinesOf.item it _ _ ih

/-- The preamble lines match the preamble items. -/
theorem LinesOf_pres (ps : List BibValue) :
    LinesOf (ps.map DItem.pre)
      (ps.map (fun p => lc "@PREAMBLE\x7b\"" ++ p.text ++ lc "\"\x7d")) := by
  induction ps with
  | nil => exact .nil
  | cons v vs ih => exact LinesOf.item (.pre v) _ _ ih

/-- The string lines match the string items. -/
theorem LinesOf_strs (ss : List (LChar × BibValue)) :
    LinesOf (ss.map (fun p => DItem.str p.1 p.2))
      (ss.map (fun p => lc "@STRING\x7b" ++ p.1 ++ lc " = \"" ++ p.2.text ++ lc "\"\x7d")) := by
  induction ss with
  | nil => exact .nil
  | cons p ps ih => exact LinesOf.item (.str p.1 p.2) _ _ ih

/-- The entry lines (text plus blank separator) match the entry items. -/
theorem LinesOf_ents (es : List (LChar × BibtexFields)) :
    LinesOf (es.map (fun p => DItem.ent p.1 p.2))
      ((es.map (fun p => [formatEntry p.2 p.1, []])).flatten) := by
  induction es with
  | nil => exact .nil
  | cons p ps ih =>
    simp only [List.map_cons, List.flatten_cons]
    exact LinesOf.item (.ent p.1 p.2) _ _ (LinesOf.skip _ _ ih)

/-- The dump's lines match the document's items. -/
theorem dump_lines (b : BibtexData) : LinesOf (itemsOf b) (iterdump b) := by
  have hP : LinesOf (b.preamble.map DItem.pre)
      (if b.preamble.isEmpty then [] else
        (b.preamble.map (fun p => lc "@PREAMBLE\x7b\"" ++ p.text ++ lc "\"\x7d")) ++ [[]]) := by
    by_cases h : b.preamble.isEmpty = true
    · rw [if_pos h, List.isEmpty_iff.mp h]
      exact .nil
    · rw [if_neg h]
      simpa using LinesOf_append (LinesOf_pres b.preamble) (LinesOf.skip [] [] .nil)
  have hS : LinesOf (b.strings.map (fun p => DItem.str p.1 p.2))
      (if b.strings.isEmpty then [] else
        (b.strings.map (fun p => lc "@STRING\x7b" ++ p.1 ++ lc " = \""
          ++ p.2.text ++ lc "\"\x7d")) ++ [[]]) := by
    by_cases h : b.strings.isEmpty = true
    · rw [if_pos h, List.isEmpty_iff.mp h]
      exact .nil
    · rw [if_neg h]
      simpa using LinesOf_append (LinesOf_strs b.strings) (LinesOf.skip [] [] .nil)
  exact LinesOf_append (LinesOf_append hP hS) (LinesOf_ents b.entries)

/-- The dumped text is a chunking of the document's items. -/
theorem dump_chunks (b : BibtexData) : ChunksOf (itemsOf b) (dumps b) :=
  LinesOf_chunks _ _ (dump_lines b)

/-! The dumped text has no trailing white space to strip. -/

/-- Identifier characters are none of space, tab, newline. -/
theorem isIdChar_not_wschar (c : Char) (h : isIdChar c = true) :
    ¬(c = ' ') ∧ ¬(c = '\t') ∧ ¬(c = '\n') := by
  have := isIdChar_nonws c h
  simp only [isBibSpace, Bool.or_eq_false_iff, beq_eq_false_iff_ne, ne_eq] at this
  exact ⟨this.1.1, this.1.2, this.2⟩

/-- Brace-key characters are none of space, tab, newline. -/
theorem braceKey_not_wschar (c : Char) (h : isBraceKeyChar c = true) :
    ¬(c = ' ') ∧ ¬(c = '\t') ∧ ¬(c = '\n') := by
  have := braceKey_nonws c h
  simp only [isBibSpace, Bool.or_eq_false_iff, beq_eq_false_iff_ne, ne_eq] at this
  exact ⟨this.1.1, this.1.2, this.2⟩

/-- All characters of a valid identifier are identifier characters. -/
theorem validId_all (l : LChar) (h : validId l = true) :
    ∀ c ∈ l, isIdChar c = true := by
  cases l with
  | nil => intro c hc; simp at hc
  | cons a r =>
    simp only [validId, Bool.and_eq_true] at h
    intro c hc
    rcases List.mem_cons.mp hc with rfl | hc
    · exact h.1.1
    · exact (List.all_eq_true.mp h.2) c hc

/-- A head that is not space or tab does not affect cleanliness. -/
theorem trailClean_cons_of_nonsp (c : Char) (hc : (c == ' ' || c == '\t') = false)
    (Y : LChar) : trailClean (c :: Y) = trailClean Y := by
  cases Y with
  | nil => simp [trailClean, hc]
  | cons d r => simp [trailClean, hc]

/-- A newline-free piece with a good last character prepends cleanly. -/
theorem trailClean_append_seg : ∀ (a b : LChar),
    (∀ c ∈ a, ¬(c = '\n')) →
    (∀ c, a.getLast? = some c → (c == ' ' || c == '\t') = false) →
    trailClean b = true → trailClean (a ++ b) = true := by
  intro a
  induction a with
  | nil =>
    intro b _ _ hb
    simpa using hb
  | cons c r ih =>
    intro b hnl hlast hb
    cases r with
    | nil =>
      have hc := hlast c (by simp)
      show trailClean (c :: ([] ++ b)) = true
      rw [List.nil_append, trailClean_cons_of_nonsp c hc]
      exact hb
    | cons d r' =>
      have hd : ¬(d = '\n') := hnl d (by simp)
      have hdb : (d == '\n') = false := by
        simp [hd]
      show trailClean (c :: d :: (r' ++ b)) = true
      simp only [trailClean, Bool.and_eq_true]
      constructor
      · simp [hdb]
      · have := ih b (fun x hx => hnl x (List.mem_cons_of_mem c hx))
          (fun x hx => hlast x (by rw [List.getLast?_cons_cons]; exact hx)) hb
        simpa using this

/-- Cleanliness is preserved when joining two clean pieces with a
newline. -/
theorem trailClean_append_newline : ∀ (a b : LChar), trailClean a = true →
    trailClean b = true → trailClean (a ++ '\n' :: b) = true := by
  intro a
  induction a with
  | nil =>
    intro b _ hb
    show trailClean ('\n' :: b) = true
    rw [trailClean_cons_of_nonsp '\n' (by decide)]
    exact hb
  | cons c r ih =>
    intro b hc hb
    cases r with
    | nil =>
      have h1 : (c == ' ' || c == '\t') = false := by
        simpa [trailClean] using hc
      show trailClean (c :: ([] ++ '\n' :: b)) = true
      rw [List.nil_append, trailClean_cons_of_nonsp c h1,
        trailClean_cons_of_nonsp '\n' (by decide)]
      exact hb
    | cons d r' =>
      simp only [trailClean, Bool.and_eq_true] at hc
      obtain ⟨h1, h2⟩ := hc
      show trailClean (c :: d :: (r' ++ '\n' :: b)) = true
      simp only [trailClean, Bool.and_eq_true]
      refine ⟨h1, ?_⟩
      have := ih b h2 hb
      simpa using this

/-- Joining clean lines with newlines is clean. -/
theorem trailClean_intercalate (LS : List LChar)
    (h : ∀ x ∈ LS, trailClean x = true) :
    trailClean (List.intercalate ['\n'] LS) = true := by
  induction LS with
  | nil =>
    rw [show List.intercalate ['\n'] ([] : List LChar) = [] from rfl]
    rfl
  | cons a t ih =>
    cases t with
    | nil =>
      rw [intercalate_singleton]
      exact h a (List.mem_cons_self a [])
    | cons b r =>
      rw [intercalate_cons_cons]
      have := trailClean_append_newline a (List.intercalate ['\n'] (b :: r))
        (h a (List.mem_cons_self a _))
        (ih (fun x hx => h x (List.mem_cons_of_mem a hx)))
      simpa using this

/-- The layout of one rendered field line relative to a continuation. -/
theorem fieldLine_shape (f : LChar) (v : BibValue) (R : LChar) :
    fieldLine f v ++ R = ',' :: (('\n' :: List.replicate (13 - (PRETTY f).length) ' ')
      ++ (PRETTY f ++ (' ' :: '=' :: ' ' :: (renderValue (PRETTY f) v ++ R)))) := by
  simp only [fieldLine, pad13]
  rw [show lc ",\n" = [',', '\n'] from rfl, show lc " = " = [' ', '=', ' '] from rfl]
  simp [List.append_assoc]

/-- A rendered field value is newline-free and does not end in a space or
tab. -/
theorem renderValue_clean (M : List (LChar × BibValue)) (field : LChar)
    (v : BibValue) (hok : valueOk M v = true) :
    (¬('\n' ∈ renderValue field v))
    ∧ (∀ c, (renderValue field v).getLast? = some c
        → (c == ' ' || c == '\t') = false) := by
  obtain ⟨tag, text⟩ := v
  cases tag with
  | some m =>
    simp only [valueOk, Bool.and_eq_true] at hok
    obtain ⟨⟨hvm, _⟩, _⟩ := hok
    have hmne : m.isEmpty = false := by
      cases m with
      | nil => simp [validId] at hvm
      | cons a b => rfl
    have hrender : renderValue field ⟨some m, text⟩ = m := by
      simp [renderValue, hmne]
    rw [hrender]
    constructor
    · intro hm
      exact (isIdChar_not_wschar '\n' (validId_all m hvm '\n' hm)).2.2 rfl
    · intro c hc
      have hmem : c ∈ m := List.mem_of_getLast?_eq_some hc
      have := isIdChar_not_wschar c (validId_all m hvm c hmem)
      simp [this.1, this.2.1]
  | none =>
    simp only [valueOk, textOk, Bool.and_eq_true] at hok
    obtain ⟨⟨_, hcl⟩, _⟩ := hok
    have hnl : ¬('\n' ∈ text) := (textClean_props text hcl).2.1
    by_cases hft : field = lc "title"
    · by_cases hwrap : (text.head? == some '{' && text.getLast? == some '}') = true
      · have hr : renderValue field ⟨none, text⟩ = '"' :: (text ++ ['"']) := by
          simp only [renderValue, renderPlain]
          rw [if_pos hft, if_pos hwrap]
        rw [hr]
        constructor
        · intro hm
          rcases List.mem_cons.mp hm with he | hm
          · exact absurd he.symm (by decide)
          · rcases List.mem_append.mp hm with hm | hm
            · exact hnl hm
            · simp at hm
        · intro c hc
          rw [show ('"' :: (text ++ ['"']) : LChar) = ('"' :: text) ++ ['"'] from by simp] at hc
          rw [List.getLast?_concat] at hc
          simp only [Option.some.injEq] at hc
          subst hc
          decide
      · have hr : renderValue field ⟨none, text⟩ = '"' :: '{' :: (text ++ ['}', '"']) := by
          simp only [renderValue, renderPlain]
          rw [if_pos hft, if_neg hwrap]
        rw [hr]
        constructor
        · intro hm
          rcases List.mem_cons.mp hm with he | hm
          · exact absurd he.symm (by decide)
          rcases List.mem_cons.mp hm with he | hm
          · exact absurd he.symm (by decide)
          rcases List.mem_append.mp hm with hm | hm
          · exact hnl hm
          · simp at hm
        · intro c hc
          rw [show ('"' :: '{' :: (text ++ ['}', '"']) : LChar)
            = ('"' :: '{' :: (text ++ ['}'])) ++ ['"'] from by simp] at hc
          rw [List.getLast?_concat] at hc
          simp only [Option.some.injEq] at hc
          subst hc
          decide
    · by_cases hyr : (decide (field = lc "year") && !text.isEmpty
          && text.all Char.isDigit) = true
      · have hr : renderValue field ⟨none, text⟩ = text := by
          simp only [renderValue, renderPlain]
          rw [if_neg hft, if_pos hyr]
        rw [hr]
        simp only [Bool.and_eq_true] at hyr
        have hdig := hyr.2
        constructor
        · intro hm
          have := (List.all_eq_true.mp hdig) '\n' hm
          simp at this
        · intro c hc
          have hmem : c ∈ text := List.mem_of_getLast?_eq_some hc
          have hd := (List.all_eq_true.mp hdig) c hmem
          have h1 : ¬(c = ' ') := by
            intro he
            subst he
            simp at hd
          have h2 : ¬(c = '\t') := by
            intro he
            subst he
            simp at hd
          simp [h1, h2]
      · have hr : renderValue field ⟨none, text⟩ = '{' :: (text ++ ['}']) := by
          simp only [renderValue, renderPlain]
          rw [if_neg hft, if_neg hyr]
        rw [hr]
        constructor
        · intro hm
          rcases List.mem_cons.mp hm with he | hm
          · exact absurd he.symm (by decide)
          rcases List.mem_append.mp hm with hm | hm
          · exact hnl hm
          · simp at hm
        · intro c hc
          rw [show ('{' :: (text ++ ['}']) : LChar) = ('{' :: text) ++ ['}'] from by simp] at hc
          rw [List.getLast?_concat] at hc
          simp only [Option.some.injEq] at hc
          subst hc
          decide

/-- A newline-free piece prepends cleanly to a non-empty clean piece not
starting with a newline. -/
theorem trailClean_append_mid : ∀ (a b : LChar),
    (∀ c ∈ a, ¬(c = '\n')) →
    (∀ c, b.head? = some c → ¬(c = '\n')) →
    b ≠ [] → trailClean b = true → trailClean (a ++ b) = true := by
  intro a
  induction a with
  | nil =>
    intro b _ _ _ hb
    simpa using hb
  | cons c r ih =>
    intro b hnl hbh hbne hb
    cases r with
    | nil =>
      obtain ⟨d, bs, rfl⟩ : ∃ d bs, b = d :: bs := by
        cases b with
        | nil => exact absurd rfl hbne
        | cons d bs => exact ⟨d, bs, rfl⟩
      have hd : ¬(d = '\n') := hbh d rfl
      show trailClean (c :: ([] ++ d :: bs)) = true
      rw [List.nil_append]
      simp only [trailClean, Bool.and_eq_true]
      refine ⟨by simp [hd], hb⟩
    | cons d r' =>
      have hd : ¬(d = '\n') := hnl d (by simp)
      show trailClean (c :: d :: (r' ++ b)) = true
      simp only [trailClean, Bool.and_eq_true]
      constructor
      · simp [hd]
      · have := ih b (fun x hx => hnl x (List.mem_cons_of_mem c hx)) hbh hbne hb
        simpa using this

/-- A line with no newlines and a good last character is clean on its
own. -/
theorem trailClean_line_seg (a : LChar) (hnl : ∀ c ∈ a, ¬(c = '\n'))
    (hlast : ∀ c, a.getLast? = some c → (c == ' ' || c == '\t') = false) :
    trailClean a = true := by
  have := trailClean_append_seg a [] hnl hlast rfl
  simpa using this

/-- The rendered field lines followed by the closing brace line are
clean. -/
theorem trailClean_fields (names : List LChar) (vals : LChar → BibValue)
    (M : List (LChar × BibValue))
    (h : ∀ f ∈ names, validId f = true ∧ asciiLowerL f = f
      ∧ valueOk M (vals f) = true) :
    trailClean ((names.map (fun f => fieldLine f (vals f))).flatten
      ++ '\n' :: '}' :: []) = true := by
  induction names with
  | nil =>
    simp only [List.map_nil, List.flatten_nil, List.nil_append]
    decide
  | cons f rest ih =>
    obtain ⟨h1, h2, h3⟩ := h f (List.mem_cons_self f rest)
    obtain ⟨hpid, hplow, _⟩ := pretty_props f h1 h2
    obtain ⟨r0, rs, hrv, hr0⟩ := renderValue_cons M (PRETTY f) (vals f) h3
    obtain ⟨hrnl, hrlast⟩ := renderValue_clean M (PRETTY f) (vals f) h3
    simp only [List.map_cons, List.flatten_cons, List.append_assoc]
    rw [fieldLine_shape]
    rw [trailClean_cons_of_nonsp ',' (by decide)]
    rw [List.cons_append]
    rw [trailClean_cons_of_nonsp '\n' (by decide)]
    rw [show List.replicate (13 - (PRETTY f).length) ' '
        ++ (PRETTY f ++ (' ' :: '=' :: ' ' :: (renderValue (PRETTY f) (vals f)
          ++ ((rest.map (fun g => fieldLine g (vals g))).flatten ++ '\n' :: '}' :: []))))
      = (List.replicate (13 - (PRETTY f).length) ' '
          ++ (PRETTY f ++ [' ', '=', ' ']))
        ++ (renderValue (PRETTY f) (vals f)
          ++ ((rest.map (fun g => fieldLine g (vals g))).flatten ++ '\n' :: '}' :: []))
      from by simp [List.append_assoc]]
    apply trailClean_append_mid
    · intro c hc
      rcases List.mem_append.mp hc with hc | hc
      · intro he
        subst he
        exact absurd (List.eq_of_mem_replicate hc) (by decide)
      rcases List.mem_append.mp hc with hc | hc
      · exact (isIdChar_not_wschar c (validId_all _ hpid c hc)).2.2
      · intro he
        subst he
        simp at hc
    · intro c hc
      rw [hrv] at hc
      simp only [List.cons_append, List.head?_cons, Option.some.injEq] at hc
      subst hc
      intro he
      rw [he] at hr0
      exact absurd hr0 (by decide)
    · rw [hrv]
      simp
    · apply trailClean_append_seg _ _ (fun c hc he => hrnl (he ▸ hc)) hrlast
      exact ih (fun g hg => h g (List.mem_cons_of_mem f hg))

/-- A formatted entry is clean. -/
theorem trailClean_entry (e : BibtexFields) (k : LChar) (M : List (LChar × BibValue))
    (hkey : keyOk k = true) (htv : validId e.entryType = true)
    (hflds : ∀ q ∈ e.fields, validId q.1 = true ∧ asciiLowerL q.1 = q.1
      ∧ valueOk M q.2 = true) :
    trailClean (formatEntry e k) = true := by
  have hheader : ∀ c ∈ ('@' :: (asciiUpperL e.entryType ++ '{' :: k)),
      ¬(c = '\n') ∧ ¬(c = ' ') ∧ ¬(c = '\t') := by
    intro c hc
    rcases List.mem_cons.mp hc with rfl | hc
    · exact ⟨by decide, by decide, by decide⟩
    rcases List.mem_append.mp hc with hc | hc
    · have := isIdChar_not_wschar c (validId_all _ (validId_upper _ htv) c hc)
      exact ⟨this.2.2, this.1, this.2.1⟩
    rcases List.mem_cons.mp hc with rfl | hc
    · exact ⟨by decide, by decide, by decide⟩
    · have := braceKey_not_wschar c ((List.all_eq_true.mp hkey) c hc)
      exact ⟨this.2.2, this.1, this.2.1⟩
  by_cases hfe : e.fields.isEmpty = true
  · simp only [formatEntry, hfe, if_true]
    apply trailClean_append_seg
    · intro c hc
      exact (hheader c hc).1
    · intro c hc
      have := hheader c (List.mem_of_getLast?_eq_some hc)
      simp [this.2.1, this.2.2]
    · decide
  · rw [Bool.not_eq_true] at hfe
    simp only [formatEntry, hfe, Bool.false_eq_true, if_false]
    rw [foldl_append_flatten]
    rw [show lc "\n\x7d" = ['\n', '}'] from rfl]
    simp only [List.nil_append]
    rw [List.append_assoc]
    apply trailClean_append_seg
    · intro c hc
      exact (hheader c hc).1
    · intro c hc
      have := hheader c (List.mem_of_getLast?_eq_some hc)
      simp [this.2.1, this.2.2]
    · have hperm : (sortAsc (fun a b => orderKeyLt (orderFields a) (orderFields b))
          (e.fields.map (fun p => p.1))).Perm (e.fields.map (fun p => p.1)) :=
        sortAsc_perm _ _
      exact trailClean_fields
        (sortAsc (fun a b => orderKeyLt (orderFields a) (orderFields b))
          (e.fields.map (fun p => p.1)))
        (fun f => (pyGet? e.fields f).getD ⟨none, []⟩) M
        (by
          intro f hf
          simp only []
          have hfm : f ∈ e.fields.map (fun p => p.1) := hperm.mem_iff.mp hf
          obtain ⟨v, hv, hmem⟩ := pyGet?_some_mem e.fields f hfm
          obtain ⟨q1, q2, q3⟩ := hflds (f, v) hmem
          rw [hv]
          exact ⟨q1, q2, q3⟩)

/-- A dumped preamble line is clean. -/
theorem trailClean_pre_line (v : BibValue) (h : textOk v.text = true) :
    trailClean (lc "@PREAMBLE\x7b\"" ++ v.text ++ lc "\"\x7d") = true := by
  simp only [textOk, Bool.and_eq_true] at h
  have hnl : ¬('\n' ∈ v.text) := (textClean_props _ h.1.2).2.1
  apply trailClean_line_seg
  · intro c hc
    rcases List.mem_append.mp hc with hc | hc
    · rcases List.mem_append.mp hc with hc | hc
      · intro he
        subst he
        exact absurd hc (by decide)
      · intro he
        subst he
        exact hnl hc
    · intro he
      subst he
      exact absurd hc (by decide)
  · intro c hc
    rw [show lc "@PREAMBLE\x7b\"" ++ v.text ++ lc "\"\x7d"
      = (lc "@PREAMBLE\x7b\"" ++ v.text ++ ['"']) ++ ['}'] from by
      rw [show lc "\"\x7d" = ['"', '}'] from rfl]
      simp [List.append_assoc]] at hc
    rw [List.getLast?_concat] at hc
    simp only [Option.some.injEq] at hc
    subst hc
    decide

/-- A dumped string line is clean. -/
theorem trailClean_str_line (n : LChar) (v : BibValue) (hn : validId n = true)
    (h : textOk v.text = true) :
    trailClean (lc "@STRING\x7b" ++ n ++ lc " = \"" ++ v.text ++ lc "\"\x7d") = true := by
  simp only [textOk, Bool.and_eq_true] at h
  have hnl : ¬('\n' ∈ v.text) := (textClean_props _ h.1.2).2.1
  apply trailClean_line_seg
  · intro c hc
    rcases List.mem_append.mp hc with hc | hc
    · rcases List.mem_append.mp hc with hc | hc
      · rcases List.mem_append.mp hc with hc | hc
        · rcases List.mem_append.mp hc with hc | hc
          · intro he
            subst he
            exact absurd hc (by decide)
          · exact (isIdChar_not_wschar c (validId_all n hn c hc)).2.2
        · intro he
          subst he
          exact absurd hc (by decide)
      · intro he
        subst he
        exact hnl hc
    · intro he
      subst he
      exact absurd hc (by decide)
  · intro c hc
    rw [show lc "@STRING\x7b" ++ n ++ lc " = \"" ++ v.text ++ lc "\"\x7d"
      = (lc "@STRING\x7b" ++ n ++ lc " = \"" ++ v.text ++ ['"']) ++ ['}'] from by
      rw [show lc "\"\x7d" = ['"', '}'] from rfl]
      simp [List.append_assoc]] at hc
    rw [List.getLast?_concat] at hc
    simp only [Option.some.injEq] at hc
    subst hc
    decide

/-- The dump of a well-formed document is free of trailing white space, so
the parser's preprocessing leaves it unchanged. -/
theorem trailClean_dumps (b : BibtexData) (macros : List (LChar × LChar))
    (hWF : WFDoc macros b) : trailClean (dumps b) = true := by
  obtain ⟨hP, hS, _, hE, _⟩ := hWF
  apply trailClean_intercalate
  intro x hx
  simp only [iterdump] at hx
  rcases List.mem_append.mp hx with hx | hx
  · rcases List.mem_append.mp hx with hx | hx
    · by_cases hpe : b.preamble.isEmpty = true
      · rw [if_pos hpe] at hx
        simp at hx
      · rw [if_neg hpe] at hx
        rcases List.mem_append.mp hx with hx | hx
        · rw [List.mem_map] at hx
          obtain ⟨v, hv, rfl⟩ := hx
          exact trailClean_pre_line v (hP v hv)
        · simp only [List.mem_singleton] at hx
          subst hx
          rfl
    · by_cases hse : b.strings.isEmpty = true
      · rw [if_pos hse] at hx
        simp at hx
      · rw [if_neg hse] at hx
        rcases List.mem_append.mp hx with hx | hx
        · rw [List.mem_map] at hx
          obtain ⟨p, hp, rfl⟩ := hx
          obtain ⟨q1, _, q3⟩ := hS p hp
          exact trailClean_str_line p.1 p.2 q1 q3
        · simp only [List.mem_singleton] at hx
          subst hx
          rfl
  · rw [List.mem_flatten] at hx
    obtain ⟨L, hL, hxL⟩ := hx
    rw [List.mem_map] at hL
    obtain ⟨p, hp, rfl⟩ := hL
    rcases List.mem_cons.mp hxL with rfl | hxL
    · obtain ⟨q1, q2, _, q4⟩ := hE p hp
      simp only [typeOk, Bool.and_eq_true] at q2
      exact trailClean_entry p.2 p.1 (macroTable macros b.strings) q1 q2.1.1.1.1
        (fun q hq => ⟨(q4 q hq).1, (q4 q hq).2.1, (q4 q hq).2.2.1⟩)
    · simp only [List.mem_singleton] at hxL
      subst hxL
      rfl

/-- The macro table does not depend on the tags of the stored strings. -/
theorem macroTable_strip (macros : List (LChar × LChar)) (S : List (LChar × BibValue)) :
    macroTable macros (S.map (fun p => (p.1, (⟨none, p.2.text⟩ : BibValue))))
      = macroTable macros S := by
  simp [macroTable, List.foldl_map]

/-- Parsing the dump of a well-formed document yields its canonical
form. -/
theorem loads_dumps (b : BibtexData) (macros : List (LChar × LChar)) (w : Bool)
    (hWF : WFDoc macros b) :
    ∃ warns, loads (dumps b) macros w = .ok (canonDoc b, warns) := by
  have hclean := trailClean_dumps b macros hWF
  obtain ⟨hP, hS, hSnod, hE, hEnod⟩ := hWF
  have hassoc : itemsOf b = b.preamble.map DItem.pre
      ++ (b.strings.map (fun p => DItem.str p.1 p.2)
        ++ b.entries.map (fun p => DItem.ent p.1 p.2)) := by
    simp [itemsOf, List.append_assoc]
  have hch : ChunksOf (b.preamble.map DItem.pre
      ++ (b.strings.map (fun p => DItem.str p.1 p.2)
        ++ b.entries.map (fun p => DItem.ent p.1 p.2))) (dumps b) := by
    have := dump_chunks b
    rwa [hassoc] at this
  have hcost := chunks_cost _ _ hch
  obtain ⟨st', hloop⟩ := loadsLoop_pres b.preamble ((dumps b).length) macros emptyData
    (dumps b) ⟨macros.map (fun p => (p.1, ⟨none, p.2⟩)), w, []⟩ b.strings b.entries
    hch
    (by rfl)
    hP
    hS
    (fun p _ => rfl)
    hSnod
    (by
      intro p hp
      obtain ⟨q1, q2, q3, q4⟩ := hE p hp
      refine ⟨q1, q2, q3, ?_⟩
      intro q hq
      obtain ⟨r1, r2, r3, _⟩ := q4 q hq
      refine ⟨r1, r2, ?_⟩
      rw [show ((emptyData.strings : List (LChar × BibValue))
          ++ b.strings.map (fun p => (p.1, (⟨none, p.2.text⟩ : BibValue))))
        = b.strings.map (fun p => (p.1, (⟨none, p.2.text⟩ : BibValue))) from by
        simp [emptyData]]
      rw [macroTable_strip]
      exact r3)
    (fun p _ => rfl)
    hEnod
    hcost
  refine ⟨st'.warns, ?_⟩
  simp only [loads]
  rw [stripTrailing_fix _ hclean]
  rw [hloop]
  simp only [Except.map]
  rw [show (⟨emptyData.preamble ++ b.preamble.map (fun v => (⟨none, v.text⟩ : BibValue)),
      emptyData.strings ++ b.strings.map (fun p => (p.1, (⟨none, p.2.text⟩ : BibValue))),
      emptyData.entries ++ b.entries.map (fun p => (p.1, canonFields p.2))⟩ : BibtexData)
    = canonDoc b from by simp [emptyData, canonDoc]]

/-! Idempotence of the sorting and formatting passes. -/

/-- Transitivity of the field-order comparison. -/
theorem orderKeyLt_trans (a b c : Nat × LChar) (hab : orderKeyLt a b = true)
    (hbc : orderKeyLt b c = true) : orderKeyLt a c = true := by
  simp only [orderKeyLt, Bool.or_eq_true, Bool.and_eq_true, decide_eq_true_eq,
    beq_iff_eq] at hab hbc ⊢
  rcases hab with hab | ⟨hab1, hab2⟩
  · rcases hbc with hbc | ⟨hbc1, hbc2⟩
    · exact Or.inl (by omega)
    · exact Or.inl (by omega)
  · rcases hbc with hbc | ⟨hbc1, hbc2⟩
    · exact Or.inl (by omega)
    · exact Or.inr ⟨by omega, lexLt_trans _ _ _ hab2 hbc2⟩

/-- Irreflexivity of the field-order comparison. -/
theorem orderKeyLt_irrefl (a : Nat × LChar) : orderKeyLt a a = false := by
  simp [orderKeyLt, lexLt_irrefl]

/-- Asymmetry of the field-order comparison. -/
theorem orderKeyLt_asymm (a b : Nat × LChar) (hab : orderKeyLt a b = true) :
    orderKeyLt b a = false := by
  cases hba : orderKeyLt b a with
  | false => rfl
  | true =>
    have := orderKeyLt_trans a b a hab hba
    rw [orderKeyLt_irrefl] at this
    exact absurd this (by simp)

/-- Connexity of the field-order comparison. -/
theorem orderKeyLt_conn (a b : Nat × LChar) (hab : orderKeyLt a b = false)
    (hba : orderKeyLt b a = false) : a = b := by
  obtain ⟨a1, a2⟩ := a
  obtain ⟨b1, b2⟩ := b
  simp only [orderKeyLt, Bool.or_eq_false_iff, Bool.and_eq_false_iff,
    decide_eq_false_iff_not, beq_eq_false_iff_ne, ne_eq] at hab hba
  obtain ⟨hab1, hab2⟩ := hab
  obtain ⟨hba1, hba2⟩ := hba
  have e1 : a1 = b1 := by omega
  subst e1
  rcases hab2 with h | h
  · exact absurd rfl h
  rcases hba2 with h' | h'
  · exact absurd rfl h'
  have e2 : a2 = b2 := lexLt_conn _ _ h h'
  rw [e2]

/-- Transitivity of the reflexive field-order comparison. -/
theorem orderKeyLt_le_trans (a b c : Nat × LChar) (hab : orderKeyLt a b = false)
    (hbc : orderKeyLt b c = false) : orderKeyLt a c = false := by
  cases hac : orderKeyLt a c with
  | false => rfl
  | true =>
    cases hba : orderKeyLt b a with
    | true =>
      have := orderKeyLt_trans b a c hba hac
      rw [this] at hbc
      exact absurd hbc (by simp)
    | false =>
      have := orderKeyLt_conn a b hab hba
      subst this
      rw [hac] at hbc
      exact absurd hbc (by simp)

/-- Ascending insertion preserves the sorted invariant. -/
theorem insertAsc_pairwise {α : Type _} (lt : α → α → Bool)
    (hasym : ∀ a b, lt a b = true → lt b a = false)
    (hletrans : ∀ a b c, lt a b = false → lt b c = false → lt a c = false)
    (x : α) (l : List α) (hl : l.Pairwise (fun a b => lt b a = false)) :
    (insertAsc lt x l).Pairwise (fun a b => lt b a = false) := by
  induction l with
  | nil => simp [insertAsc]
  | cons y ys ih =>
    rw [insertAsc]
    rcases List.pairwise_cons.mp hl with ⟨hy, hys⟩
    by_cases h : lt y x = true
    · simp only [h, if_true]
      refine List.pairwise_cons.mpr ⟨?_, ih hys⟩
      intro z hz
      have hz' : z ∈ x :: ys := (insertAsc_perm lt x ys).mem_iff.mp hz
      rcases List.mem_cons.mp hz' with rfl | hz'
      · exact hasym y z h
      · exact hy z hz'
    · simp only [Bool.not_eq_true] at h
      simp only [h, Bool.false_eq_true, if_false]
      refine List.pairwise_cons.mpr ⟨?_, hl⟩
      intro z hz
      rcases List.mem_cons.mp hz with rfl | hz'
      · exact h
      · exact hletrans z y x (hy z hz') h

/-- The ascending sort output is sorted. -/
theorem sortAsc_pairwise {α : Type _} (lt : α → α → Bool)
    (hasym : ∀ a b, lt a b = true → lt b a = false)
    (hletrans : ∀ a b c, lt a b = false → lt b c = false → lt a c = false)
    (l : List α) : (sortAsc lt l).Pairwise (fun a b => lt b a = false) := by
  induction l with
  | nil => simp [sortAsc]
  | cons x xs ih =>
    rw [sortAsc]
    exact insertAsc_pairwise lt hasym hletrans x (sortAsc lt xs) ih

/-- A sorted list is a fixed point of the ascending sort. -/
theorem sortAsc_fix {α : Type _} (lt : α → α → Bool) (l : List α)
    (hl : l.Pairwise (fun a b => lt b a = false)) : sortAsc lt l = l := by
  induction l with
  | nil => rfl
  | cons x xs ih =>
    rcases List.pairwise_cons.mp hl with ⟨hx, hxs⟩
    rw [sortAsc, ih hxs]
    cases xs with
    | nil => rfl
    | cons y ys =>
      rw [insertAsc]
      simp [hx y (List.mem_cons_self y ys)]

/-- Lookup in a dict whose values are a function of the key. -/
theorem pyGet?_map_key {α : Type _} (g : LChar → α) (names : List LChar) (k : LChar) :
    pyGet? (names.map (fun f => (f, g f))) k
      = if k ∈ names then some (g k) else none := by
  induction names with
  | nil => simp [pyGet?]
  | cons n ns ih =>
    rw [List.map_cons, pyGet?_cons]
    by_cases h : n = k
    · subst h
      simp
    · rw [if_neg h, ih]
      by_cases hk : k ∈ ns
      · rw [if_pos hk, if_pos (List.mem_cons_of_mem n hk)]
      · rw [if_neg hk, if_neg (by
          intro hmem
          rcases List.mem_cons.mp hmem with he | he
          · exact h he.symm
          · exact hk he)]

/-- A key absent from the keys of a dict is not found. -/
theorem pyGet?_eq_none {α : Type _} (d : List (LChar × α)) (k : LChar)
    (h : ¬(k ∈ d.map (fun p => p.1))) : pyGet? d k = none := by
  induction d with
  | nil => rfl
  | cons p ps ih =>
    rw [pyGet?_cons, if_neg (by
      intro he
      exact h (by rw [List.map_cons, he]; exact List.mem_cons_self k _))]
    exact ih (fun hm => h (by rw [List.map_cons]; exact List.mem_cons_of_mem _ hm))

/-- The canonical fields leave the sort key of an entry unchanged. -/
theorem sortkeyYear_canonFields (p : LChar × BibtexFields) :
    sortkeyYear (p.1, canonFields p.2) = sortkeyYear p := by
  obtain ⟨k, e⟩ := p
  have hcomp : ∀ (fname : LChar), ¬(fname = lc "title") →
      ((pyGet? (canonFields e).fields fname).map (fun v => v.text)).getD (lc "0")
      = ((pyGet? e.fields fname).map (fun v => v.text)).getD (lc "0") := by
    intro fname hft
    rw [show (canonFields e).fields = (canonNames e).map
      (fun f => (f, canonValue f ((pyGet? e.fields f).getD ⟨none, []⟩))) from rfl]
    rw [pyGet?_map_key]
    by_cases hm : fname ∈ canonNames e
    · rw [if_pos hm]
      have hmm : fname ∈ e.fields.map (fun p => p.1) := (sortAsc_perm _ _).mem_iff.mp hm
      obtain ⟨v, hv, _⟩ := pyGet?_some_mem e.fields fname hmm
      rw [hv]
      simp [canonValue_ne_title fname hft]
    · rw [if_neg hm]
      have hmm : ¬(fname ∈ e.fields.map (fun p => p.1)) :=
        fun hc => hm ((sortAsc_perm _ _).mem_iff.mpr hc)
      rw [pyGet?_eq_none e.fields fname hmm]
  show ((((pyGet? (canonFields e).fields (lc "year")).map (fun v => v.text)).getD (lc "0"),
      ((pyGet? (canonFields e).fields (lc "month")).map (fun v => v.text)).getD (lc "0"),
      k.map revChar) : LChar × LChar × LChar) = _
  rw [hcomp (lc "year") (by decide), hcomp (lc "month") (by decide)]
  rfl

/-- A descending-sorted entry list is a fixed point of the document
sort. -/
theorem sortEntriesDesc_fix (l : List (LChar × BibtexFields))
    (hl : l.Pairwise (fun a b => key3Lt (sortkeyYear a) (sortkeyYear b) = false)) :
    sortEntriesDesc l = l := by
  induction l with
  | nil => rfl
  | cons x xs ih =>
    rcases List.pairwise_cons.mp hl with ⟨hx, hxs⟩
    rw [sortEntriesDesc, ih hxs]
    cases xs with
    | nil => rfl
    | cons y ys =>
      rw [insertDesc]
      simp [hx y (List.mem_cons_self y ys)]

/-- The canonical form of a sorted document is still sorted. -/
theorem sortDoc_canonDoc (b : BibtexData) :
    sortDoc (canonDoc (sortDoc b)) = canonDoc (sortDoc b) := by
  have hp := sortEntriesDesc_pairwise b.entries
  have hmapped : ((sortEntriesDesc b.entries).map
      (fun p => (p.1, canonFields p.2))).Pairwise
      (fun a b => key3Lt (sortkeyYear a) (sortkeyYear b) = false) := by
    refine hp.map _ ?_
    intro a c hr
    rw [show sortkeyYear ((fun p => (p.1, canonFields p.2)) a)
      = sortkeyYear a from sortkeyYear_canonFields a]
    rw [show sortkeyYear ((fun p => (p.1, canonFields p.2)) c)
      = sortkeyYear c from sortkeyYear_canonFields c]
    exact hr
  show (⟨(canonDoc (sortDoc b)).preamble, (canonDoc (sortDoc b)).strings,
    sortEntriesDesc (canonDoc (sortDoc b)).entries⟩ : BibtexData) = canonDoc (sortDoc b)
  rw [show (canonDoc (sortDoc b)).entries = (sortEntriesDesc b.entries).map
    (fun p => (p.1, canonFields p.2)) from rfl]
  rw [sortEntriesDesc_fix _ hmapped]
  rfl

/-- The canonical field names of canonical fields are unchanged. -/
theorem canonNames_canonFields (e : BibtexFields) :
    canonNames (canonFields e) = canonNames e := by
  show sortAsc (fun a b => orderKeyLt (orderFields a) (orderFields b))
    ((canonFields e).fields.map (fun p => p.1)) = canonNames e
  rw [show (canonFields e).fields.map (fun p => p.1) = canonNames e from by
    rw [show (canonFields e).fields = (canonNames e).map
      (fun f => (f, canonValue f ((pyGet? e.fields f).getD ⟨none, []⟩))) from rfl]
    rw [List.map_map]
    rw [show ((fun (p : LChar × BibValue) => p.1)
        ∘ fun f => (f, canonValue f ((pyGet? e.fields f).getD ⟨none, []⟩))) = id from by
      funext f
      rfl]
    exact List.map_id _]
  refine sortAsc_fix _ _ ?_
  rw [show canonNames e = sortAsc (fun a b => orderKeyLt (orderFields a) (orderFields b))
    (e.fields.map (fun p => p.1)) from rfl]
  exact sortAsc_pairwise _
    (fun a b h => orderKeyLt_asymm (orderFields a) (orderFields b) h)
    (fun a b c h1 h2 => orderKeyLt_le_trans (orderFields a) (orderFields b)
      (orderFields c) h1 h2)
    (e.fields.map (fun p => p.1))

/-- Rendering ignores canonicalisation of a field value. -/
theorem renderValue_canon (f : LChar) (v : BibValue) :
    renderValue (PRETTY f) (canonValue f v) = renderValue (PRETTY f) v := by
  by_cases hft : f = lc "title"
  · subst hft
    obtain ⟨tag, text⟩ := v
    cases tag with
    | some m => rfl
    | none =>
      by_cases hwrap : (text.head? == some '{' && text.getLast? == some '}') = true
      · rw [show canonValue (lc "title") ⟨none, text⟩ = ⟨none, text⟩ from by
          simp only [canonValue, if_true]
          rw [if_pos hwrap]]
      · rw [show canonValue (lc "title") ⟨none, text⟩
            = ⟨none, '{' :: (text ++ ['}'])⟩ from by
          simp only [canonValue, if_true]
          rw [if_neg hwrap]]
        have hpt : PRETTY (lc "title") = lc "title" := by decide
        rw [hpt]
        have hget : ('{' :: (text ++ ['}'])).getLast? = some '}' := by
          rw [show ('{' :: (text ++ ['}']) : LChar) = ('{' :: text) ++ ['}'] from by simp]
          exact List.getLast?_concat _
        have hcond : ((('{' :: (text ++ ['}'])) : LChar).head? == some '{'
            && (('{' :: (text ++ ['}'])) : LChar).getLast? == some '}') = true := by
          rw [hget]
          simp
        simp only [renderValue, renderPlain, if_true]
        rw [if_pos hcond, if_neg hwrap]
        simp [List.append_assoc]
  · rw [canonValue_ne_title f hft]

/-- One field line ignores canonicalisation of its value. -/
theorem fieldLine_canon (f : LChar) (v : BibValue) :
    fieldLine f (canonValue f v) = fieldLine f v := by
  simp only [fieldLine]
  rw [renderValue_canon]

/-- A formatted entry is unchanged by field canonicalisation. -/
theorem formatEntry_canon (e : BibtexFields) (k : LChar) :
    formatEntry (canonFields e) k = formatEntry e k := by
  have hlen : (canonFields e).fields.length = e.fields.length := by
    rw [show (canonFields e).fields = (canonNames e).map
      (fun f => (f, canonValue f ((pyGet? e.fields f).getD ⟨none, []⟩))) from rfl]
    rw [List.length_map]
    rw [show canonNames e = sortAsc (fun a b => orderKeyLt (orderFields a) (orderFields b))
      (e.fields.map (fun p => p.1)) from rfl]
    rw [(sortAsc_perm _ _).length_eq, List.length_map]
  have hemp : (canonFields e).fields.isEmpty = e.fields.isEmpty := by
    cases hc : (canonFields e).fields with
    | nil =>
      have : e.fields.length = 0 := by rw [← hlen, hc]; rfl
      rw [List.length_eq_zero.mp this]
    | cons a l =>
      cases hd : e.fields with
      | nil =>
        rw [hd] at hlen
        rw [hc] at hlen
        simp at hlen
      | cons b m => rfl
  have htyp : (canonFields e).entryType = e.entryType := rfl
  by_cases hfe : e.fields.isEmpty = true
  · simp only [formatEntry, hfe, hemp, if_true, htyp]
  · rw [Bool.not_eq_true] at hfe
    simp only [formatEntry, hemp, hfe, Bool.false_eq_true, if_false, htyp]
    rw [show sortAsc (fun a b => orderKeyLt (orderFields a) (orderFields b))
      ((canonFields e).fields.map (fun p => p.1)) = canonNames e
      from canonNames_canonFields e]
    rw [show sortAsc (fun a b => orderKeyLt (orderFields a) (orderFields b))
      (e.fields.map (fun p => p.1)) = canonNames e from rfl]
    rw [foldl_append_flatten, foldl_append_flatten]
    congr 2
    simp only [List.nil_append]
    congr 1
    apply List.map_congr_left
    intro f hf
    rw [show (canonFields e).fields = (canonNames e).map
      (fun g => (g, canonValue g ((pyGet? e.fields g).getD ⟨none, []⟩))) from rfl]
    rw [pyGet?_map_key, if_pos hf]
    rw [show ((some (canonValue f ((pyGet? e.fields f).getD ⟨none, []⟩))).getD
        (⟨none, []⟩ : BibValue))
      = canonValue f ((pyGet? e.fields f).getD ⟨none, []⟩) from rfl]
    exact fieldLine_canon f ((pyGet? e.fields f).getD ⟨none, []⟩)

/-- The dump of the canonical document is byte-identical to the dump of
the document itself. -/
theorem dumps_canonDoc (b : BibtexData) : dumps (canonDoc b) = dumps b := by
  show List.intercalate ['\n'] (iterdump (canonDoc b))
    = List.intercalate ['\n'] (iterdump b)
  congr 1
  simp only [iterdump]
  congr 1
  · congr 1
    · by_cases hpe : b.preamble.isEmpty = true
      · rw [show (canonDoc b).preamble.isEmpty = true from by
          simp [canonDoc, List.isEmpty_iff.mp hpe]]
        rw [hpe]
        rfl
      · have : (canonDoc b).preamble.isEmpty = false := by
          rw [Bool.not_eq_true] at hpe
          cases hd : b.preamble with
          | nil => rw [hd] at hpe; simp at hpe
          | cons v vs => simp [canonDoc, hd]
        rw [Bool.not_eq_true] at hpe
        rw [this, hpe]
        simp only [Bool.false_eq_true, if_false]
        congr 1
        show ((b.preamble.map (fun v => (⟨none, v.text⟩ : BibValue))).map
          (fun p => lc "@PREAMBLE\x7b\"" ++ p.text ++ lc "\"\x7d")) = _
        rw [List.map_map]
        rfl
    · by_cases hse : b.strings.isEmpty = true
      · rw [show (canonDoc b).strings.isEmpty = true from by
          simp [canonDoc, List.isEmpty_iff.mp hse]]
        rw [hse]
        rfl
      · have : (canonDoc b).strings.isEmpty = false := by
          rw [Bool.not_eq_true] at hse
          cases hd : b.strings with
          | nil => rw [hd] at hse; simp at hse
          | cons v vs => simp [canonDoc, hd]
        rw [Bool.not_eq_true] at hse
        rw [this, hse]
        simp only [Bool.false_eq_true, if_false]
        congr 1
        show ((b.strings.map (fun p => (p.1, (⟨none, p.2.text⟩ : BibValue)))).map
          (fun p => lc "@STRING\x7b" ++ p.1 ++ lc " = \"" ++ p.2.text ++ lc "\"\x7d")) = _
        rw [List.map_map]
        rfl
  · congr 1
    show ((b.entries.map (fun p => (p.1, canonFields p.2))).map
      (fun p => [formatEntry p.2 p.1, []])) = _
    rw [List.map_map]
    apply List.map_congr_left
    intro p _
    show [formatEntry (canonFields p.2) p.1, []] = [formatEntry p.2 p.1, []]
    rw [formatEntry_canon]

/-- Well-formedness is preserved by the document sort. -/
theorem WFDoc_sortDoc (macros : List (LChar × LChar)) (b : BibtexData)
    (h : WFDoc macros b) : WFDoc macros (sortDoc b) := by
  obtain ⟨hP, hS, hSn, hE, hEn⟩ := h
  refine ⟨hP, hS, hSn, ?_, ?_⟩
  · intro p hp
    exact hE p ((sortEntriesDesc_perm b.entries).mem_iff.mp hp)
  · exact ((sortEntriesDesc_perm b.entries).map (fun p => p.1)).nodup_iff.mpr hEn

/-- C1 (amended): formatting is not idempotent in general (see the
counterexample with a quote inside a braced string value), but it is
idempotent on well-formed documents: whenever every component of the
document re-parses from its canonical rendering — normalised, brace-
balanced, quote-free value texts; valid lower-case string names, field
names and entry types; unique names and keys; tagged values naming a
macro that resolves to their text; year field texts written in ASCII
(the program's Unicode-aware year digit test would emit a year such as
`²` bare, and its re-parse aborts, so non-ASCII years are excluded) —
then parsing the formatted document and formatting the result reproduces
the formatted text byte for byte. -/
theorem C1_format_idempotent (b : BibtexData) (macros : List (LChar × LChar))
    (w : Bool) (hWF : WFDoc macros b) :
    parseFormat (formatDoc b) macros w = .ok (formatDoc b) := by
  have hWFs := WFDoc_sortDoc macros b hWF
  obtain ⟨warns, hload⟩ := loads_dumps (sortDoc b) macros w hWFs
  show (loads (dumps (sortDoc b)) macros w).map (fun p => formatDoc p.1)
    = .ok (formatDoc b)
  rw [hload]
  simp only [Except.map]
  rw [show formatDoc (canonDoc (sortDoc b))
    = dumps (sortDoc (canonDoc (sortDoc b))) from rfl]
  rw [sortDoc_canonDoc, dumps_canonDoc]
  rfl

/-- C1 witness: the amended idempotence applied to a concrete well-formed
document with a preamble, a string definition, and an entry holding
plain, numeric and macro-tagged field values. -/
theorem C1_format_idempotent_witness :
    parseFormat (formatDoc ⟨[⟨none, lc "Pre"⟩], [(lc "aa", ⟨none, lc "AA"⟩)],
        [(lc "k1", ⟨lc "article",
          [(lc "title", ⟨none, lc "T"⟩), (lc "year", ⟨none, lc "2020"⟩),
           (lc "month", ⟨some (lc "jan"), lc "01"⟩)]⟩)]⟩) MACROS false
      = .ok (formatDoc ⟨[⟨none, lc "Pre"⟩], [(lc "aa", ⟨none, lc "AA"⟩)],
        [(lc "k1", ⟨lc "article",
          [(lc "title", ⟨none, lc "T"⟩), (lc "year", ⟨none, lc "2020"⟩),
           (lc "month", ⟨some (lc "jan"), lc "01"⟩)]⟩)]⟩) :=
  C1_format_idempotent _ MACROS false (by
    refine ⟨by decide, by decide, by decide, ?_, by decide⟩
    decide)

end Tidybib
